import Mathlib

/-!
# demsmooth: a verification development of `smooth.c`

Shallow embedding of the smoothing passes of `smooth.c` and theorems about them.

Conventions of the embedding.

* The record list `demo->blocks` is a `List (block F)`; a `block *` is an index into
  that list and every index at or beyond the length is the null pointer, so `b->next`
  is `b + 1`.  `F` is the type of the `float` orientation components.
* A message payload is a list of bytes.  A byte is read as its value modulo 256, and a
  read beyond the end of the payload (undefined in C) yields 0.
* `int16_t *` write-back pointers are triples (block, message, byte offset).
* Plain `char` is signed on some platforms and unsigned on others; the decoder takes
  the signedness as its first argument (`true` on x86 and x86-64).
* Multi-byte values are little-endian, two's complement, and 32-bit `int` arithmetic
  wraps modulo `2 ^ 32`.
-/

namespace Demsmooth

/-! ## Configuration constants -/

def CAMERA_SMOOTH_SIZE : Nat := 60
def MOTION_SMOOTH_SIZE : Nat := 30
def MOTION_SMOOTH_RESTART_LIMIT : Int := 200
def CAMERA_SMOOTH_CURRENT : Nat := CAMERA_SMOOTH_SIZE
def CAMERA_SMOOTH_HISTORY_SIZE : Nat := 2 * CAMERA_SMOOTH_SIZE + 1
def MOTION_SMOOTH_CURRENT : Nat := MOTION_SMOOTH_SIZE
def MOTION_SMOOTH_HISTORY_SIZE : Nat := 2 * MOTION_SMOOTH_SIZE + 1
def ROLL_TARGET : Int := 10
def ROLL_TRIGGER_ANGLE : ℚ := 3 / 10
def ROLL_SPEED : ℚ := 2 / 10

/-! ## Data types -/

/-- Message of a record: its kind tag `type` and its payload bytes `data`. -/
structure message where
  type : Nat
  data : List Nat
deriving DecidableEq, Repr

/-- Record of the demo: the three orientation components `angles[0..2]` and the
messages; the `next` link is the position in the list. -/
structure block (F : Type) where
  angles0 : F
  angles1 : F
  angles2 : F
  messages : List message
deriving DecidableEq, Repr

/-- Value of an `int16_t *` that points into a message payload. -/
structure field_ptr where
  b : Nat
  m : Nat
  off : Nat
deriving DecidableEq, Repr

/-- The struct `location_info`; `none` is the null pointer. -/
structure location_info where
  b : Nat
  x : Int
  y : Int
  z : Int
  x_ptr : Option field_ptr
  y_ptr : Option field_ptr
  z_ptr : Option field_ptr
deriving DecidableEq, Repr

/-- How a pass ended: it reached its `finish` label, it read `history[-1]` (undefined
behaviour in C), or the step budget of the embedding ran out. -/
inductive status where
  | finished
  | undefined
  | out_of_fuel
deriving DecidableEq, Repr

/-! ## Bytes and machine integers -/

/-- Byte `i` of a payload. -/
def byte_at (data : List Nat) (i : Nat) : Nat := data.getD i 0 % 256

/-- Value of `*data` for `char *data`: sign-extended when plain `char` is signed. -/
def char_value (char_signed : Bool) (byte : Nat) : Int :=
  if char_signed && decide (128 ≤ byte) then (byte : Int) - 256 else (byte : Int)

/-- Conversion of an `int` to `uint32_t`. -/
def to_u32 (v : Int) : Nat := (v % 4294967296).toNat

/-- Conversion of an integer to `int` (32 bits, wrapping). -/
def to_i32 (v : Int) : Int :=
  let u := v % 4294967296
  if u < 2147483648 then u else u - 4294967296

/-- Conversion of an integer to `int16_t` (wrapping). -/
def to_i16 (v : Int) : Int :=
  let u := v % 65536
  if u < 32768 then u else u - 65536

/-- Value of `*(uint16_t *)(data + i)`. -/
def read_u16 (data : List Nat) (i : Nat) : Nat := byte_at data i + 256 * byte_at data (i + 1)

/-- Value of `*(int16_t *)(data + i)`. -/
def read_i16 (data : List Nat) (i : Nat) : Int := to_i16 (read_u16 data i)

/-- Low byte of the 16-bit two's complement representation of `v`. -/
def lo_byte (v : Int) : Nat := (v % 65536).toNat % 256

/-- High byte of the 16-bit two's complement representation of `v`. -/
def hi_byte (v : Int) : Nat := (v % 65536).toNat / 256

/-- Payload after `*(int16_t *)(data + i) = (int16_t) v`. -/
def write_i16 (data : List Nat) (i : Nat) (v : Int) : List Nat :=
  (data.set i (lo_byte v)).set (i + 1) (hi_byte v)

/-! ## Utility functions -/

/-- Loop of `count_setbits`: `for (; mask; count++) mask &= mask - 1;`, at most `n` times. -/
def count_setbits_loop : Nat → Nat → Nat → Nat
  | 0, _, count => count
  | n + 1, mask, count =>
    if mask = 0 then count else count_setbits_loop n (mask &&& (mask - 1)) (count + 1)

/-- The function `count_setbits`; a `uint32_t` has at most 32 bits to clear. -/
def count_setbits (mask : Nat) : Nat := count_setbits_loop 32 mask 0

/-- Integer square root by bits, highest first: the largest `r < 2 ^ n` above the start
value with `r * r ≤ s`. -/
def isqrt_bits (s : Nat) : Nat → Nat → Nat
  | 0, r => r
  | k + 1, r => if (r + 2 ^ k) * (r + 2 ^ k) ≤ s then isqrt_bits s k (r + 2 ^ k) else isqrt_bits s k r

/-- Value of `(int) sqrt(s)` for an `int` `s`: the floor of the square root when
`0 ≤ s`; for negative `s` the square root is a NaN, whose conversion is `INT_MIN`
on x86. -/
def int_sqrt (s : Int) : Int :=
  if 0 ≤ s then (isqrt_bits s.toNat 16 0 : Nat) else -2147483648

/-- The function `location_distance`, with the products and sums in 32-bit `int`. -/
def location_distance (a b : location_info) : Int :=
  let dx := a.x - b.x
  let dy := a.y - b.y
  let dz := a.z - b.z
  int_sqrt (to_i32 (to_i32 (to_i32 (dx * dx) + to_i32 (dy * dy)) + to_i32 (dz * dz)))

/-! ## Motion smoothing: the decoder `get_next_location` -/

/-- One conditional extension of the mask: `if (mask & bit) { mask |= (*data << shift);
data += 1; }` on the pair of the mask and the number of payload bytes consumed. -/
def extend_mask (char_signed : Bool) (data : List Nat) (bit shift : Nat) (s : Nat × Nat) :
    Nat × Nat :=
  if s.1 &&& bit ≠ 0 then
    (s.1 ||| to_u32 (char_value char_signed (byte_at data s.2) * 2 ^ shift), s.2 + 1)
  else s

/-- Mask of a candidate message and the number of payload bytes consumed for it
(lines 403 to 417). -/
def decode_mask (char_signed : Bool) (m : message) : Nat × Nat :=
  extend_mask char_signed m.data 0x800000 24
    (extend_mask char_signed m.data 0x8000 16
      (extend_mask char_signed m.data 0x1 8 (m.type &&& 0x7F, 0)))

/-- Entity id of a candidate message and the cursor after it (lines 420 to 427). -/
def decode_entity (mask : Nat) (data : List Nat) (pos : Nat) : Nat × Nat :=
  if mask &&& 0x4000 ≠ 0 then (read_u16 data pos, pos + 2) else (byte_at data pos, pos + 1)

/-- What reading one coordinate leaves: the write-back pointer, the value, the cursor. -/
structure field_read where
  ptr : Option field_ptr
  val : Int
  next : Nat

/-- One of the three blocks `read x`, `read y`, `read z`: when the bit is set the
pointer and the value are taken at the cursor, which moves on by 2; otherwise the
pointer is null and the value is the inherited one. -/
def read_field (mask bit : Nat) (b mi : Nat) (data : List Nat) (pos : Nat) (inherited : Int) :
    field_read :=
  if mask &&& bit ≠ 0 then ⟨some ⟨b, mi, pos⟩, read_i16 data pos, pos + 2⟩
  else ⟨none, inherited, pos⟩

/-- The value a coordinate takes when its bit is clear: `prev->f` if `prev` is not null,
else 0. -/
def inherited_field (prev : Option location_info) (f : location_info → Int) : Int :=
  match prev with
  | some p => f p
  | none => 0

/-- Lines 441 to 497 of `get_next_location`: the coordinates of a message of the tracked
entity, with the cursor `pos` just behind the entity id. -/
def decode_fields (b mi : Nat) (mask : Nat) (data : List Nat) (pos : Nat)
    (prev : Option location_info) : location_info :=
  let fx := read_field mask 0x0002 b mi data (pos + count_setbits (mask &&& 0x3C40))
    (inherited_field prev (fun p => p.x))
  let fy := read_field mask 0x0004 b mi data (fx.next + count_setbits (mask &&& 0x0100))
    (inherited_field prev (fun p => p.y))
  let fz := read_field mask 0x0008 b mi data (fy.next + count_setbits (mask &&& 0x0010))
    (inherited_field prev (fun p => p.z))
  ⟨b, fx.val, fy.val, fz.val, fx.ptr, fy.ptr, fz.ptr⟩

/-- Body of the inner loop of `get_next_location` for message `mi` of record `b`:
`none` when the loop goes on to the next message, the filled `*loc` when the
function returns 1. -/
def decode_message (char_signed : Bool) (camera : Nat) (b mi : Nat) (m : message)
    (prev : Option location_info) : Option location_info :=
  if 0x80 ≤ m.type then
    let hd := decode_mask char_signed m
    let en := decode_entity hd.1 m.data hd.2
    if en.1 ≠ camera then none
    else some (decode_fields b mi hd.1 m.data en.2 prev)
  else none

/-- Inner loop of `get_next_location` over the messages of record `b`, from message
number `mi` on. -/
def scan_messages (char_signed : Bool) (camera : Nat) (b : Nat) (prev : Option location_info) :
    List message → Nat → Option location_info
  | [], _ => none
  | m :: ms, mi =>
    match decode_message char_signed camera b mi m prev with
    | some loc => some loc
    | none => scan_messages char_signed camera b prev ms (mi + 1)

/-- Outer loop of `get_next_location` over the records, the first of which has index `b`. -/
def scan_blocks {F : Type} (char_signed : Bool) (camera : Nat) (prev : Option location_info) :
    List (block F) → Nat → Option location_info
  | [], _ => none
  | blk :: rest, b =>
    match scan_messages char_signed camera b prev blk.messages 0 with
    | some loc => some loc
    | none => scan_blocks char_signed camera prev rest (b + 1)

/-- The function `get_next_location`, called with `loc->b = start`: `some loc` is
return value 1 with the new `*loc`, `none` is return value 0. -/
def get_next_location {F : Type} (char_signed : Bool) (camera : Nat) (bs : List (block F))
    (start : Nat) (prev : Option location_info) : Option location_info :=
  scan_blocks char_signed camera prev (bs.drop start) start

/-! ## Motion smoothing: the pass `smooth_motion` -/

/-- Element `i` of a list replaced by its image under `f`. -/
def modify_nth {α : Type} (f : α → α) : List α → Nat → List α
  | [], _ => []
  | a :: l, 0 => f a :: l
  | a :: l, i + 1 => a :: modify_nth f l i

/-- Memory after `*p = (int16_t) v`. -/
def store_i16 {F : Type} (bs : List (block F)) (p : field_ptr) (v : Int) : List (block F) :=
  modify_nth (fun blk => ⟨blk.angles0, blk.angles1, blk.angles2,
    modify_nth (fun m => ⟨m.type, write_i16 m.data p.off v⟩) blk.messages p.m⟩) bs p.b

/-- Memory after `if (q) *q = (int16_t) v;`. -/
def store_opt {F : Type} (bs : List (block F)) (q : Option field_ptr) (v : Int) :
    List (block F) :=
  match q with
  | some p => store_i16 bs p v
  | none => bs

/-- The loop that populates the history (lines 526 to 536), for a history that has room
for `n` more samples: `none` is the jump to `finish_motion`, `some h` the history with
which the loop is left. -/
def fill_motion {F : Type} (char_signed : Bool) (bs : List (block F)) :
    Nat → Nat → List location_info → Option (List location_info)
  | 0, _, h => some h
  | n + 1, b_start, h =>
    if b_start < bs.length then
      match get_next_location char_signed 1 bs b_start none with
      | none => none
      | some loc => fill_motion char_signed bs n (loc.b + 1) (h ++ [loc])
    else some h

/-- Control points of `smooth_motion` with the live variables: the label
`restart_motion`, the head of the `while (1)` loop, the label `finish_motion`, and the
state after a read of `history[-1]`. -/
inductive motion_state (F : Type) where
  | restart (bs : List (block F)) (b_start : Nat)
  | steady (bs : List (block F)) (history : List location_info)
  | finish (bs : List (block F))
  | undef (bs : List (block F))

/-- Sum of a field over the history, divided by `history_size` as `int32_t` values. -/
def motion_average (f : location_info → Int) (history : List location_info) : Int :=
  Int.tdiv (history.map f).sum (history.length : Int)

/-- One transition of `smooth_motion`: from `restart_motion` through the populate loop,
or one turn of the `while (1)` loop. -/
def motion_step {F : Type} (char_signed : Bool) : motion_state F → motion_state F
  | .restart bs b_start =>
    match fill_motion char_signed bs MOTION_SMOOTH_HISTORY_SIZE b_start [] with
    | none => .finish bs
    | some h => .steady bs h
  | .steady bs history =>
    if history.length < MOTION_SMOOTH_CURRENT + 1 then
      match history.getLast? with
      | none => .undef bs
      | some last => .restart bs (last.b + 1)
    else
      match history[MOTION_SMOOTH_CURRENT]?, history.getLast? with
      | some cur, some last =>
        let x := motion_average (fun l => l.x) history
        let y := motion_average (fun l => l.y) history
        let z := motion_average (fun l => l.z) history
        let bs1 := store_opt bs cur.x_ptr x
        let bs2 := store_opt bs1 cur.y_ptr y
        let bs3 := store_opt bs2 cur.z_ptr z
        match get_next_location char_signed 1 bs3 (last.b + 1) (some last) with
        | some location_future =>
          if location_distance location_future last < MOTION_SMOOTH_RESTART_LIMIT then
            .steady bs3 (history.tail ++ [location_future])
          else .steady bs3 history.tail
        | none => .steady bs3 history.tail
      | _, _ => .undef bs
  | .finish bs => .finish bs
  | .undef bs => .undef bs

/-- Transitions of `smooth_motion` until `finish_motion` or a read of `history[-1]`, `n`
of them at most. -/
def motion_run {F : Type} (char_signed : Bool) : Nat → motion_state F → motion_state F
  | 0, s => s
  | _ + 1, .finish bs => .finish bs
  | _ + 1, .undef bs => .undef bs
  | n + 1, s => motion_run char_signed n (motion_step char_signed s)

/-- Outcome of a pass: how it ended and the record list it left. -/
structure pass_result (F : Type) where
  st : status
  blocks : List (block F)

/-- Outcome that a state of `smooth_motion` stands for. -/
def motion_result {F : Type} : motion_state F → pass_result F
  | .finish bs => ⟨.finished, bs⟩
  | .undef bs => ⟨.undefined, bs⟩
  | .restart bs _ => ⟨.out_of_fuel, bs⟩
  | .steady bs _ => ⟨.out_of_fuel, bs⟩

/-- The function `smooth_motion`, started at `demo->blocks`.  Every transition moves the
tail of the history forward or shortens the history, so `64 * (length + 1)` transitions
are more than the pass can take. -/
def smooth_motion {F : Type} (char_signed : Bool) (bs : List (block F)) : pass_result F :=
  motion_result (motion_run char_signed (64 * (bs.length + 1)) (.restart bs 0))

/-- The tracked-entity samples of a record list in stream order, as the populate loop
meets them: at most `n` of them, from record `start` on. -/
def sample_list {F : Type} (char_signed : Bool) (bs : List (block F)) :
    Nat → Nat → List location_info
  | 0, _ => []
  | n + 1, start =>
    match get_next_location char_signed 1 bs start none with
    | none => []
    | some loc => loc :: sample_list char_signed bs n (loc.b + 1)

/-- All tracked-entity samples of a record list (one per record at most). -/
def samples {F : Type} (char_signed : Bool) (bs : List (block F)) : List location_info :=
  sample_list char_signed bs bs.length 0

/-! ## Floating-point arithmetic

The source computes with `float` and `double`.  The passes are embedded over an
arbitrary pair of types `F` (for `float`) and `D` (for `double`) with the operations
below; every operation is the C operation on operands of that type, and the
conversions are the implicit conversions of C. -/

/-- Operations on `float` (type `F`) and `double` (type `D`) values. -/
structure float_arith (F D : Type) where
  f_of_int : Int → F
  d_of_int : Int → D
  d_lit : ℚ → D
  to_double : F → D
  to_float : D → F
  fadd : F → F → F
  fsub : F → F → F
  fdiv : F → F → F
  dadd : D → D → D
  dsub : D → D → D
  dmul : D → D → D
  ddiv : D → D → D
  flt : F → F → Bool
  dlt : D → D → Bool

/-- Functions of `math.h` used by `smooth_camera_xy`. -/
structure float_libm (D : Type) where
  cos : D → D
  sin : D → D
  atan2 : D → D → D

/-- The constant `M_PI` of `math.h`. -/
def M_PI {F D : Type} (ops : float_arith F D) : D :=
  ops.d_lit (314159265358979323846 / 100000000000000000000)

/-! ## Camera smoothing -/

/-- The struct `angle_info`. -/
structure angle_info (F : Type) where
  b : Nat
  x : F
  y : F
  z : F

/-- The function `block_is_timed`; `TIME` is the message kind of `demo.h`. -/
def block_is_timed {F : Type} (TIME : Nat) (b : block F) : Bool :=
  match b.messages with
  | [] => false
  | m :: _ => decide (m.type = TIME)

/-- Loop of `get_next_angle` over the records, the first of which has index `b`. -/
def scan_timed {F : Type} (TIME : Nat) : List (block F) → Nat → Option (angle_info F)
  | [], _ => none
  | blk :: rest, b =>
    if block_is_timed TIME blk then some ⟨b, blk.angles0, blk.angles1, blk.angles2⟩
    else scan_timed TIME rest (b + 1)

/-- The function `get_next_angle`, called with `a->b = start`. -/
def get_next_angle {F : Type} (TIME : Nat) (bs : List (block F)) (start : Nat) :
    Option (angle_info F) :=
  scan_timed TIME (bs.drop start) start

/-- The loop that populates the history of a camera pass (lines 251 to 261), for a
history with room for `n` more samples: `none` is the jump to `finish_angles`. -/
def fill_angles {F : Type} (TIME : Nat) (bs : List (block F)) :
    Nat → Nat → List (angle_info F) → Option (List (angle_info F))
  | 0, _, h => some h
  | n + 1, b_start, h =>
    if b_start < bs.length then
      match get_next_angle TIME bs b_start with
      | none => none
      | some a => fill_angles TIME bs n (a.b + 1) (h ++ [a])
    else some h

/-- The loop over the untimed records that follow the centre (lines 289 to 295): `w`
is the assignment made to each of them. -/
def fill_untimed {F : Type} (TIME : Nat) (w : block F → block F) : List (block F) → List (block F)
  | [] => []
  | blk :: rest => if block_is_timed TIME blk then blk :: rest else w blk :: fill_untimed TIME w rest

/-- Memory after the assignment `w` to record `c` and to the untimed records behind it. -/
def write_center {F : Type} (TIME : Nat) (w : block F → block F) (bs : List (block F)) (c : Nat) :
    List (block F) :=
  (modify_nth w bs c).take (c + 1) ++ fill_untimed TIME w ((modify_nth w bs c).drop (c + 1))

/-- Control points of a camera pass, as for `smooth_motion`. -/
inductive camera_state (F : Type) where
  | restart (bs : List (block F)) (b_start : Nat)
  | steady (bs : List (block F)) (history : List (angle_info F))
  | finish (bs : List (block F))
  | undef (bs : List (block F))

/-- One transition of a camera pass; `agg history` is the assignment of the average
over the history to the orientation of a record. -/
def camera_step {F : Type} (TIME : Nat) (agg : List (angle_info F) → block F → block F) :
    camera_state F → camera_state F
  | .restart bs b_start =>
    match fill_angles TIME bs CAMERA_SMOOTH_HISTORY_SIZE b_start [] with
    | none => .finish bs
    | some h => .steady bs h
  | .steady bs history =>
    if history.length < CAMERA_SMOOTH_CURRENT + 1 then
      match history.getLast? with
      | none => .undef bs
      | some last => .restart bs (last.b + 1)
    else
      match history[CAMERA_SMOOTH_CURRENT]?, history.getLast? with
      | some cur, some last =>
        let bs1 := write_center TIME (agg history) bs cur.b
        match get_next_angle TIME bs1 (last.b + 1) with
        | some angle_future => .steady bs1 (history.tail ++ [angle_future])
        | none => .steady bs1 history.tail
      | _, _ => .undef bs
  | .finish bs => .finish bs
  | .undef bs => .undef bs

/-- Transitions of a camera pass until `finish_angles` or a read of `history[-1]`, `n` of
them at most. -/
def camera_run {F : Type} (TIME : Nat) (agg : List (angle_info F) → block F → block F) :
    Nat → camera_state F → camera_state F
  | 0, s => s
  | _ + 1, .finish bs => .finish bs
  | _ + 1, .undef bs => .undef bs
  | n + 1, s => camera_run TIME agg n (camera_step TIME agg s)

/-- Outcome that a state of a camera pass stands for. -/
def camera_result {F : Type} : camera_state F → pass_result F
  | .finish bs => ⟨.finished, bs⟩
  | .undef bs => ⟨.undefined, bs⟩
  | .restart bs _ => ⟨.out_of_fuel, bs⟩
  | .steady bs _ => ⟨.out_of_fuel, bs⟩

/-- A camera pass started at `demo->blocks`, with a step budget above what it can take. -/
def camera_pass {F : Type} (TIME : Nat) (agg : List (angle_info F) → block F → block F)
    (bs : List (block F)) : pass_result F :=
  camera_result (camera_run TIME agg (128 * (bs.length + 1)) (.restart bs 0))

/-- The arithmetic mean of lines 270 to 274 and 348 to 352: the sum in `float`, then the
division by `history_size`. -/
def float_mean {F D : Type} (ops : float_arith F D) (vals : List F) : F :=
  ops.fdiv (vals.foldl ops.fadd (ops.f_of_int 0)) (ops.f_of_int vals.length)

/-- The angle `(y - 180) * M_PI / 180` of lines 278 and 279. -/
def yaw_radians {F D : Type} (ops : float_arith F D) (y : F) : D :=
  ops.ddiv (ops.dmul (ops.to_double (ops.fsub y (ops.f_of_int 180))) (M_PI ops)) (ops.d_of_int 180)

/-- The yaw average of lines 276 to 282. -/
def yaw_mean {F D : Type} (ops : float_arith F D) (lib : float_libm D) (vals : List F) : F :=
  let sum_cos := vals.foldl (fun s y => ops.dadd s (lib.cos (yaw_radians ops y))) (ops.d_of_int 0)
  let sum_sin := vals.foldl (fun s y => ops.dadd s (lib.sin (yaw_radians ops y))) (ops.d_of_int 0)
  ops.fadd
    (ops.to_float (ops.ddiv (ops.dmul (lib.atan2 sum_sin sum_cos) (ops.d_of_int 180)) (M_PI ops)))
    (ops.f_of_int 180)

/-- The assignments `angles[0] = x; angles[1] = y;` of `smooth_camera_xy`. -/
def assign_xy {F D : Type} (ops : float_arith F D) (lib : float_libm D)
    (history : List (angle_info F)) (blk : block F) : block F :=
  ⟨float_mean ops (history.map (fun a => a.x)), yaw_mean ops lib (history.map (fun a => a.y)),
    blk.angles2, blk.messages⟩

/-- The assignment `angles[2] = z;` of `smooth_camera_z`. -/
def assign_z {F D : Type} (ops : float_arith F D) (history : List (angle_info F))
    (blk : block F) : block F :=
  ⟨blk.angles0, blk.angles1, float_mean ops (history.map (fun a => a.z)), blk.messages⟩

/-- The function `smooth_camera_xy`. -/
def smooth_camera_xy {F D : Type} (TIME : Nat) (ops : float_arith F D) (lib : float_libm D)
    (bs : List (block F)) : pass_result F :=
  camera_pass TIME (assign_xy ops lib) bs

/-- The function `smooth_camera_z`. -/
def smooth_camera_z {F D : Type} (TIME : Nat) (ops : float_arith F D) (bs : List (block F)) :
    pass_result F :=
  camera_pass TIME (assign_z ops) bs

/-! ## Camera roll -/

/-- Body of the loop of `add_roll` between the computation of `curr_dy` and the store of
`z` (lines 605 to 630): the new value of `z`. -/
def roll_update {F D : Type} (ops : float_arith F D) (curr_dy z : F) : F :=
  if ops.dlt (ops.d_lit ROLL_TRIGGER_ANGLE) (ops.to_double curr_dy) then
    let z1 := ops.to_float (ops.dadd (ops.to_double z) (ops.d_lit ROLL_SPEED))
    if ops.flt (ops.f_of_int ROLL_TARGET) z1 then ops.f_of_int ROLL_TARGET else z1
  else if ops.dlt (ops.to_double curr_dy)
      (ops.dmul (ops.d_of_int (-1)) (ops.d_lit ROLL_TRIGGER_ANGLE)) then
    let z1 := ops.to_float (ops.dsub (ops.to_double z) (ops.d_lit ROLL_SPEED))
    if ops.flt z1 (ops.f_of_int (-1 * ROLL_TARGET)) then ops.f_of_int (-1 * ROLL_TARGET) else z1
  else if ops.dlt (ops.to_double z) (ops.dmul (ops.d_lit (-1)) (ops.d_lit ROLL_SPEED)) then
    ops.to_float (ops.dadd (ops.to_double z) (ops.d_lit ROLL_SPEED))
  else if ops.dlt (ops.d_lit ROLL_SPEED) (ops.to_double z) then
    ops.to_float (ops.dsub (ops.to_double z) (ops.d_lit ROLL_SPEED))
  else ops.f_of_int 0

/-- The loop of `add_roll` over the records from `b` on, with the values of `prev_y`
and `z` at its head. -/
def add_roll_loop {F D : Type} (ops : float_arith F D) : List (block F) → F → F → List (block F)
  | [], _, _ => []
  | blk :: rest, prev_y, z =>
    let curr_y := blk.angles1
    let curr_dy := ops.fsub prev_y curr_y
    let z1 := roll_update ops curr_dy z
    ⟨blk.angles0, blk.angles1, z1, blk.messages⟩ :: add_roll_loop ops rest curr_y z1

/-- The function `add_roll`: the record list it leaves. -/
def add_roll {F D : Type} (ops : float_arith F D) (bs : List (block F)) : List (block F) :=
  match bs with
  | [] => []
  | blk :: _ => add_roll_loop ops bs blk.angles1 (ops.to_float (ops.d_lit 0))

/-! ## IEEE 754 arithmetic

The instance of `float_arith` for a platform on which `float` is binary32, `double` is
binary64, the rounding is to nearest with ties to even, and every operation is rounded
to the type of its operands (`FLT_EVAL_METHOD` 0, as on x86-64). -/

/-- Value of a binary floating-point format: a NaN, an infinity, a signed zero, or a
non-zero rational. -/
inductive ieee where
  | nan
  | inf (neg : Bool)
  | zero (neg : Bool)
  | num (v : ℚ)
deriving DecidableEq

/-- The power `2 ^ e` for an integer `e`. -/
def pow2 (e : Int) : ℚ :=
  if 0 ≤ e then ((2 ^ e.toNat : Nat) : ℚ) else 1 / ((2 ^ (-e).toNat : Nat) : ℚ)

/-- Floor of the binary logarithm of `n`, by `f` halvings at most. -/
def log2_fuel : Nat → Nat → Nat
  | 0, _ => 0
  | f + 1, n => if n < 2 then 0 else log2_fuel f (n / 2) + 1

/-- Floor of the binary logarithm of a positive natural number. -/
def nat_log2 (n : Nat) : Nat := log2_fuel n n

/-- Floor of the binary logarithm of `|q|` for `q ≠ 0`. -/
def floor_log2 (q : ℚ) : Int :=
  let e0 : Int := (nat_log2 q.num.natAbs : Int) - (nat_log2 q.den : Int)
  if pow2 e0 ≤ |q| then e0 else e0 - 1

/-- The integer nearest to `n`, the even one of two that are equally near. -/
def round_half_even (n : ℚ) : Int :=
  let f := n.floor
  let d := n - f
  if d < 1 / 2 then f
  else if 1 / 2 < d then f + 1
  else if f % 2 = 0 then f else f + 1

/-- Rounding of the rational `q` to the format with `p` significand bits and exponents
from `emin` to `emax`. -/
def ieee_round (p : Nat) (emin emax : Int) (q : ℚ) : ieee :=
  if q = 0 then .zero false
  else
    let e := max (floor_log2 q) emin
    let ulp := pow2 (e - p + 1)
    let r := (round_half_even (q / ulp) : ℚ) * ulp
    if r = 0 then .zero (decide (q < 0))
    else if pow2 (emax + 1) ≤ |r| then .inf (decide (q < 0))
    else .num r

/-- Sign bit of a value that is not a NaN. -/
def ieee.sign : ieee → Bool
  | .nan => false
  | .inf s => s
  | .zero s => s
  | .num v => decide (v < 0)

/-- Negation. -/
def ieee.neg : ieee → ieee
  | .nan => .nan
  | .inf s => .inf (!s)
  | .zero s => .zero (!s)
  | .num v => .num (-v)

/-- Addition rounded by `rnd`. -/
def ieee.add (rnd : ℚ → ieee) : ieee → ieee → ieee
  | .nan, _ => .nan
  | _, .nan => .nan
  | .inf s, .inf t => if s = t then .inf s else .nan
  | .inf s, _ => .inf s
  | _, .inf t => .inf t
  | .zero s, .zero t => .zero (s && t)
  | .zero _, .num v => rnd v
  | .num v, .zero _ => rnd v
  | .num a, .num b => rnd (a + b)

/-- Multiplication rounded by `rnd`. -/
def ieee.mul (rnd : ℚ → ieee) : ieee → ieee → ieee
  | .nan, _ => .nan
  | _, .nan => .nan
  | .inf _, .zero _ => .nan
  | .zero _, .inf _ => .nan
  | .inf s, y => .inf (xor s y.sign)
  | x, .inf t => .inf (xor x.sign t)
  | .zero s, y => .zero (xor s y.sign)
  | x, .zero t => .zero (xor x.sign t)
  | .num a, .num b => rnd (a * b)

/-- Division rounded by `rnd`. -/
def ieee.div (rnd : ℚ → ieee) : ieee → ieee → ieee
  | .nan, _ => .nan
  | _, .nan => .nan
  | .inf _, .inf _ => .nan
  | .zero _, .zero _ => .nan
  | .inf s, y => .inf (xor s y.sign)
  | x, .inf t => .zero (xor x.sign t)
  | .zero s, y => .zero (xor s y.sign)
  | x, .zero t => .inf (xor x.sign t)
  | .num a, .num b => rnd (a / b)

/-- The comparison `<`. -/
def ieee.lt : ieee → ieee → Bool
  | .nan, _ => false
  | _, .nan => false
  | .inf s, .inf t => s && !t
  | .inf s, _ => s
  | _, .inf t => !t
  | .zero _, .zero _ => false
  | .zero _, .num v => decide (0 < v)
  | .num v, .zero _ => decide (v < 0)
  | .num a, .num b => decide (a < b)

/-- Rounding to binary32. -/
def round32 : ℚ → ieee := ieee_round 24 (-126) 127

/-- Rounding to binary64. -/
def round64 : ℚ → ieee := ieee_round 53 (-1022) 1023

/-- Conversion of a `double` to `float`. -/
def ieee.to_float : ieee → ieee
  | .num v => round32 v
  | x => x

/-- The arithmetic of IEEE 754 `float` and `double`. -/
def ieee_arith : float_arith ieee ieee where
  f_of_int n := round32 n
  d_of_int n := round64 n
  d_lit q := round64 q
  to_double x := x
  to_float := ieee.to_float
  fadd := ieee.add round32
  fsub x y := ieee.add round32 x y.neg
  fdiv := ieee.div round32
  dadd := ieee.add round64
  dsub x y := ieee.add round64 x y.neg
  dmul := ieee.mul round64
  ddiv := ieee.div round64
  flt := ieee.lt
  dlt := ieee.lt

/-! ## Reference definitions of the claims -/

/-- Number of ones among the `k` lowest binary digits of `n`. -/
def popcount_bits : Nat → Nat → Nat
  | 0, _ => 0
  | k + 1, n => n % 2 + popcount_bits k (n / 2)

/-- Number of set bits of a 32-bit value. -/
def popcount (n : Nat) : Nat := popcount_bits 32 n

/-- Offset of the x coordinate for a final mask `mask` and `h` extension bytes: the
extension bytes, the id (2 bytes if bit 0x4000, else 1), one byte for each set bit of
`mask & 0x3C40`. -/
def layout_x (mask h : Nat) : Nat :=
  h + (if mask &&& 0x4000 ≠ 0 then 2 else 1) + popcount (mask &&& 0x3C40)

/-- Offset of the y coordinate: the x offset, plus 2 if bit 0x0002 is set, plus 1 if
bit 0x0100 is set. -/
def layout_y (mask h : Nat) : Nat :=
  layout_x mask h + (if mask &&& 0x0002 ≠ 0 then 2 else 0) + (if mask &&& 0x0100 ≠ 0 then 1 else 0)

/-- Offset of the z coordinate: the y offset, plus 2 if bit 0x0004 is set, plus 1 if
bit 0x0010 is set. -/
def layout_z (mask h : Nat) : Nat :=
  layout_y mask h + (if mask &&& 0x0004 ≠ 0 then 2 else 0) + (if mask &&& 0x0010 ≠ 0 then 1 else 0)

/-- An update of entity 1 with mask 0x410F (a two-byte id and an angle byte behind x):
x = 5, y = 6, z = 7. -/
def example_update : message := ⟨0x8F, [0x41, 1, 0, 5, 0, 99, 6, 0, 7, 0]⟩

/-- The mask of the claim on the mask extension, for the tag `t` and the first payload
bytes `b0`, `b1`, `b2` taken as values 0..255, with the number of extension bytes:
`t & 0x7F`, or-ed with `b0 << 8` iff bit 0x01 is set, then with the next byte `<< 16`
iff bit 0x8000 results, then with the next byte `<< 24` iff bit 0x800000 results. -/
def mask_spec (t b0 b1 b2 : Nat) : Nat × Nat :=
  let m0 := t &&& 0x7F
  if m0 &&& 0x01 = 0 then (m0, 0)
  else
    let m1 := m0 ||| b0 <<< 8
    if m1 &&& 0x8000 = 0 then (m1, 1)
    else
      let m2 := m1 ||| b1 <<< 16
      if m2 &&& 0x800000 = 0 then (m2, 2) else (m2 ||| b2 <<< 24, 3)

/-- Entity id of a candidate message: the 2-byte little-endian value behind the mask
when mask bit 0x4000 is set, the single byte otherwise. -/
def entity_id (char_signed : Bool) (m : message) : Nat :=
  if (decode_mask char_signed m).1 &&& 0x4000 ≠ 0 then
    byte_at m.data (decode_mask char_signed m).2
      + 256 * byte_at m.data ((decode_mask char_signed m).2 + 1)
  else byte_at m.data (decode_mask char_signed m).2

/-- A message is an update of the entity `camera`: its kind tag is at least 0x80 and
its entity id is `camera`. -/
def is_update_of (char_signed : Bool) (camera : Nat) (m : message) : Prop :=
  0x80 ≤ m.type ∧ entity_id char_signed m = camera

/-! ## Example record lists -/

/-- A record with a time message and an update of entity 1 that carries x, y and z. -/
def update_record (x y z : Int) : block Unit :=
  ⟨(), (), (), [⟨7, []⟩,
    ⟨0x8E, [1, lo_byte x, hi_byte x, lo_byte y, hi_byte y, lo_byte z, hi_byte z]⟩]⟩

/-- A record without messages. -/
def empty_record : block Unit := ⟨(), (), (), []⟩

/-- One sample at the origin, sixty samples at (300, 0, 0), and a record without update. -/
def jump_in_fill : List (block Unit) :=
  update_record 0 0 0 :: (List.replicate 60 (update_record 300 0 0) ++ [empty_record])

/-- Sixty-one samples at (-32768, 0, 0), one sample at (32767, 363, 0), and a record
without update. -/
def jump_with_overflow : List (block Unit) :=
  List.replicate 61 (update_record (-32768) 0 0) ++ [update_record 32767 363 0, empty_record]

/-- The x coordinates of the samples of a record list. -/
def sample_xs {F : Type} (char_signed : Bool) (bs : List (block F)) : List Int :=
  (samples char_signed bs).map (fun l => l.x)

/-- The rational value of a finite floating-point value. -/
def ieee.value : ieee → Option ℚ
  | .zero _ => some 0
  | .num v => some v
  | _ => none

/-- The roll after `k` records whose yaw is 1 degree below the yaw of the record before,
the roll before the first of them being 0: `k` turns of the loop body of `add_roll`
with `curr_dy = 1`. -/
def roll_traj : Nat → ieee
  | 0 => .zero false
  | k + 1 => roll_update ieee_arith (.num 1) (roll_traj k)

/-- Sixty-one records with the yaw values 60, 59, ..., 0. -/
def yaw_ramp : List (block ieee) :=
  (List.range 61).map (fun k => ⟨.zero false, round32 (60 - (k : ℚ)), .zero false, []⟩)

/-- The roll of record `k` as a rational, -1000 if it is missing or not finite. -/
def roll_at (bs : List (block ieee)) (k : Nat) : ℚ :=
  match bs[k]? with
  | some blk => (blk.angles2.value).getD (-1000)
  | none => -1000

/-- The yaw of record `k` as a rational, if the record exists and its yaw is finite. -/
def yaw_at (bs : List (block ieee)) (k : Nat) : Option ℚ :=
  (bs[k]?).bind (fun blk => blk.angles1.value)

/-- The yaw goes down by exactly 1 at each of the first `n` records of the list, from the
yaw `p` of the record before them. -/
def yaw_steps : Nat → ieee → List (block ieee) → Prop
  | 0, _, _ => True
  | _ + 1, _, [] => False
  | n + 1, p, blk :: rest =>
    (∃ v, p.value = some v ∧ blk.angles1.value = some (v - 1)) ∧ yaw_steps n blk.angles1 rest

/-! ## Observations on the passes -/

/-- The record list held by a state of a camera pass. -/
def camera_state.mem {F : Type} : camera_state F → List (block F)
  | .restart bs _ => bs
  | .steady bs _ => bs
  | .finish bs => bs
  | .undef bs => bs

/-- The record list held by a state of `smooth_motion`. -/
def motion_state.mem {F : Type} : motion_state F → List (block F)
  | .restart bs _ => bs
  | .steady bs _ => bs
  | .finish bs => bs
  | .undef bs => bs

/-- The record that the transition out of a state writes as the centre of the window,
with the assignment made to it; nothing when the transition writes nothing. -/
def camera_center {F : Type} (agg : List (angle_info F) → block F → block F) :
    camera_state F → List (Nat × (block F → block F))
  | .steady _ history =>
    if history.length < CAMERA_SMOOTH_CURRENT + 1 then []
    else
      match history[CAMERA_SMOOTH_CURRENT]? with
      | some cur => [(cur.b, agg history)]
      | none => []
  | _ => []

/-- The records written as centres by the transitions of `camera_run`, in order, behind
those in `acc`. -/
def camera_centers {F : Type} (TIME : Nat) (agg : List (angle_info F) → block F → block F) :
    Nat → camera_state F → List (Nat × (block F → block F)) → List (Nat × (block F → block F))
  | 0, _, acc => acc
  | _ + 1, .finish _, acc => acc
  | _ + 1, .undef _, acc => acc
  | n + 1, s, acc => camera_centers TIME agg n (camera_step TIME agg s) (acc ++ camera_center agg s)

/-- The records written as centres by a camera pass, each with its assignment. -/
def pass_centers {F : Type} (TIME : Nat) (agg : List (angle_info F) → block F → block F)
    (bs : List (block F)) : List (Nat × (block F → block F)) :=
  camera_centers TIME agg (128 * (bs.length + 1)) (.restart bs 0) []

/-- Record `j` is record `c` or one of the untimed records that follow record `c`, up
to but excluding the next timed record. -/
def follows {F : Type} (TIME : Nat) (bs : List (block F)) (c j : Nat) : Prop :=
  c ≤ j ∧ ∀ i blk, c < i → i ≤ j → bs[i]? = some blk → block_is_timed TIME blk = false

/-- Number of elements with property `p` among the elements 0 to `i` of a list. -/
def count_upto {α : Type} (p : α → Bool) (l : List α) (i : Nat) : Nat :=
  ((l.take (i + 1)).filter p).length

/-- Number of timed records among the records 0 to `i`. -/
def timed_count {F : Type} (TIME : Nat) (bs : List (block F)) (i : Nat) : Nat :=
  count_upto (block_is_timed TIME) bs i

/-- A record holds an update of entity 1. -/
def has_update {F : Type} (char_signed : Bool) (blk : block F) : Bool :=
  (scan_messages char_signed 1 0 none blk.messages 0).isSome

/-- Number of records that hold an update of entity 1 among the records 0 to `i`. -/
def update_count {F : Type} (char_signed : Bool) (bs : List (block F)) (i : Nat) : Nat :=
  count_upto (has_update char_signed) bs i

/-! ## Invariants of the camera passes -/

/-- Two record lists have the same messages, record by record. -/
def same_msgs {F : Type} (bs mem : List (block F)) : Prop :=
  mem.map (fun blk => blk.messages) = bs.map (fun blk => blk.messages)

/-- The samples of a history lie in timed records of increasing position. -/
def hist_ok {F : Type} (TIME : Nat) (bs : List (block F)) (h : List (angle_info F)) : Prop :=
  h.Pairwise (fun a a2 => a.b < a2.b) ∧
    ∀ a ∈ h, ∃ blk, bs[a.b]? = some blk ∧ block_is_timed TIME blk = true

/-- The memory `mem` is the record list `bs` after the writes `past`: a record that
follows a written centre holds the assignment of that centre, every other record is as
in `bs`; and every written centre is a timed record with at least 61 timed records up
to it. -/
def mem_ok {F : Type} (TIME : Nat) (bs : List (block F))
    (past : List (Nat × (block F → block F))) (mem : List (block F)) : Prop :=
  same_msgs bs mem ∧
  (∀ j, (∀ c w, (c, w) ∈ past → follows TIME bs c j → mem[j]? = (bs[j]?).map w) ∧
    ((∀ c w, (c, w) ∈ past → ¬ follows TIME bs c j) → mem[j]? = bs[j]?)) ∧
  (∀ c w, (c, w) ∈ past →
    (∃ blk, bs[c]? = some blk ∧ block_is_timed TIME blk = true) ∧
      CAMERA_SMOOTH_CURRENT + 1 ≤ timed_count TIME bs c)

/-- Invariant of a camera pass on `bs` whose transitions so far wrote `past`. -/
def camera_inv {F : Type} (TIME : Nat) (bs : List (block F))
    (past : List (Nat × (block F → block F))) : camera_state F → Prop
  | .restart mem b_start => mem_ok TIME bs past mem ∧ ∀ c w, (c, w) ∈ past → c < b_start
  | .steady mem h => mem_ok TIME bs past mem ∧ hist_ok TIME bs h ∧
      ∀ c w, (c, w) ∈ past →
        (∀ k a, CAMERA_SMOOTH_CURRENT ≤ k → h[k]? = some a → c < a.b) ∧
        (∀ a, h.getLast? = some a → c ≤ a.b)
  | .finish mem => mem_ok TIME bs past mem
  | .undef mem => mem_ok TIME bs past mem

/-! ## Invariants of the motion pass -/

/-- A write-back pointer is null or points into record `b`. -/
def ptr_in (p : Option field_ptr) (b : Nat) : Prop := ∀ q, p = some q → q.b = b

/-- The samples of a history lie in records of increasing position that hold an update
of entity 1, and their pointers point into their own records. -/
def hist_ok_m {F : Type} (char_signed : Bool) (bs : List (block F)) (h : List location_info) :
    Prop :=
  h.Pairwise (fun a a2 => a.b < a2.b) ∧
    ∀ a ∈ h, (∃ blk, bs[a.b]? = some blk ∧ has_update char_signed blk = true) ∧
      ptr_in a.x_ptr a.b ∧ ptr_in a.y_ptr a.b ∧ ptr_in a.z_ptr a.b

/-- The records up to the 31st record with an update of entity 1, that record excluded,
are as in `bs`. -/
def startup_kept {F : Type} (char_signed : Bool) (bs mem : List (block F)) : Prop :=
  ∀ i, update_count char_signed bs i ≤ MOTION_SMOOTH_SIZE → mem[i]? = bs[i]?

/-- Invariant of `smooth_motion` on `bs`: the records behind the tail of the history
have not been written. -/
def motion_inv {F : Type} (char_signed : Bool) (bs : List (block F)) : motion_state F → Prop
  | .restart mem b_start =>
    mem.length = bs.length ∧ mem.drop b_start = bs.drop b_start ∧ startup_kept char_signed bs mem
  | .steady mem h =>
    mem.length = bs.length ∧ hist_ok_m char_signed bs h ∧
      (∀ last, h.getLast? = some last → mem.drop (last.b + 1) = bs.drop (last.b + 1)) ∧
      startup_kept char_signed bs mem
  | .finish mem => startup_kept char_signed bs mem
  | .undef mem => startup_kept char_signed bs mem

/-- The pairs, for `k` = 0, ..., 120, of a timed record with roll `k` and an untimed
record with roll 0; the time message has kind 7. -/
def timed_ramp : List (block ieee) :=
  (List.range 121).flatMap (fun k =>
    [⟨.zero false, .zero false, round32 (k : ℚ), [⟨7, []⟩]⟩,
     ⟨.zero false, .zero false, .zero false, []⟩])

/-- The list `L` is the list of the samples that the populate loop meets from record
`start` on, up to the end of the record list. -/
def stream_from {F : Type} (char_signed : Bool) (bs : List (block F)) :
    Nat → List location_info → Prop
  | start, [] => get_next_location char_signed 1 bs start none = none
  | start, loc :: L =>
    get_next_location char_signed 1 bs start none = some loc ∧
      stream_from char_signed bs (loc.b + 1) L

/-! ## Reference definition of the motion pass -/

/-- The pointer is not null and the payload it points into holds the two bytes of the
coordinate. -/
def field_fits {F : Type} (bs : List (block F)) (p : Option field_ptr) : Bool :=
  match p with
  | none => false
  | some q =>
    match bs[q.b]? with
    | none => false
    | some blk =>
      match blk.messages[q.m]? with
      | none => false
      | some m => decide (q.off + 2 ≤ m.data.length)

/-- The update of a sample carries x, y and z. -/
def sample_complete {F : Type} (bs : List (block F)) (loc : location_info) : Bool :=
  field_fits bs loc.x_ptr && field_fits bs loc.y_ptr && field_fits bs loc.z_ptr

/-- Two samples are closer than 200 units (Euclidean distance over the integers). -/
def close_samples (a b : location_info) : Prop :=
  (a.x - b.x) * (a.x - b.x) + (a.y - b.y) * (a.y - b.y) + (a.z - b.z) * (a.z - b.z) < 40000

instance close_samples_decidable (a b : location_info) : Decidable (close_samples a b) := by
  unfold close_samples
  infer_instance

/-- Sum of the values with the indices `lo .. hi`. -/
def range_sum (vals : List Int) (lo hi : Nat) : Int :=
  ((List.range (hi + 1 - lo)).map (fun k => vals.getD (lo + k) 0)).sum

/-- The mean of the claim for sample `i` of `N = vals.length` samples: the sum of the
values of the samples `i - 30 .. min (i + 30) (N - 1)`, divided by the number of samples
in that range with truncation toward zero. -/
def reference_mean (vals : List Int) (i : Nat) : Int :=
  Int.tdiv (range_sum vals (i - 30) (min (i + 30) (vals.length - 1)))
    ((min (i + 30) (vals.length - 1) + 1 - (i - 30) : Nat) : Int)

/-- The window of the history that starts at sample `lo`. -/
def window (S : List location_info) (lo : Nat) : List location_info :=
  (S.drop lo).take MOTION_SMOOTH_HISTORY_SIZE

/-- Memory after the three conditional stores of lines 557 to 565 for the centre `cur`
of the history `h`. -/
def write_back {F : Type} (mem : List (block F)) (cur : location_info) (h : List location_info) :
    List (block F) :=
  store_opt (store_opt (store_opt mem cur.x_ptr (motion_average (fun l => l.x) h))
    cur.y_ptr (motion_average (fun l => l.y) h)) cur.z_ptr (motion_average (fun l => l.z) h)

/-- Memory after the writes to the centres of the windows that start at the samples
`0 .. lo - 1`. -/
def mem_after {F : Type} (bs : List (block F)) (S : List location_info) : Nat → List (block F)
  | 0 => bs
  | lo + 1 =>
    match S[lo + MOTION_SMOOTH_CURRENT]? with
    | some cur => write_back (mem_after bs S lo) cur (window S lo)
    | none => mem_after bs S lo

/-- The coordinates of the samples of a record list. -/
def sample_ys {F : Type} (char_signed : Bool) (bs : List (block F)) : List Int :=
  (samples char_signed bs).map (fun l => l.y)

/-- The z coordinates of the samples of a record list. -/
def sample_zs {F : Type} (char_signed : Bool) (bs : List (block F)) : List Int :=
  (samples char_signed bs).map (fun l => l.z)

/-- Sixty-four samples at (10 k, -3 k, 7), k = 0, ..., 63, and a record without update. -/
def steady_walk : List (block Unit) :=
  (List.range 64).map (fun k => update_record (10 * (k : Int)) (-3 * (k : Int)) 7) ++ [empty_record]

/-- Sample `k` of the stream `S` after the pass: unchanged for `k < 30`, else with the
means over the window of which it is the centre. -/
def smoothed (S : List location_info) (k : Nat) (loc : location_info) : location_info :=
  if k < MOTION_SMOOTH_CURRENT then loc
  else
    ⟨loc.b, to_i16 (motion_average (fun l => l.x) (window S (k - MOTION_SMOOTH_CURRENT))),
      to_i16 (motion_average (fun l => l.y) (window S (k - MOTION_SMOOTH_CURRENT))),
      to_i16 (motion_average (fun l => l.z) (window S (k - MOTION_SMOOTH_CURRENT))),
      loc.x_ptr, loc.y_ptr, loc.z_ptr⟩

/-- The samples `L`, which are the samples of `S` from index `k` on, after the pass. -/
def smoothed_from (S : List location_info) : Nat → List location_info → List location_info
  | _, [] => []
  | k, loc :: L => smoothed S k loc :: smoothed_from S (k + 1) L

end Demsmooth

namespace Demsmooth

/-! ## The output file name -/

/-- Search of `strstr` from offset `i` of the haystack on: the offset of the first
occurrence of `needle` in the rest `s`. -/
def strstr_from (needle : List Char) : List Char → Nat → Option Nat
  | [], i => if needle = [] then some i else none
  | c :: s, i =>
    if needle.isPrefixOf (c :: s) then some i else strstr_from needle s (i + 1)

/-- The function `strstr` of `string.h` on strings without their terminating zero: the
offset of the first occurrence of `needle`, `none` for the null pointer. -/
def strstr (haystack needle : List Char) : Option Nat :=
  strstr_from needle haystack 0

/-- The function `mystrduprep` on strings without their terminating zero; `none` is the
null pointer.  The buffer has room for `strlen(in) + strlen(rep) + 1` characters, so the
copy of `inp` and the copy of `rep` over it from offset `pos - in` on both fit, and the
string left is the first `pos - in` characters of `inp` followed by `rep`. -/
def mystrduprep (inp pattern rep : List Char) : Option (List Char) :=
  match strstr inp pattern with
  | none => none
  | some pos => some (inp.take pos ++ rep)

/-- The output name that `main` asks for. -/
def out_name (inname : String) : Option String :=
  (mystrduprep inname.toList (".dem").toList ("_processed.dem").toList).map String.mk

/-! ## Record lists at the edges of the passes -/

/-- Sixty-one timed records with the rolls 0 to 60; the time message has kind 7. -/
def short_timed : List (block ieee) :=
  (List.range 61).map (fun k => ⟨.zero false, .zero false, round32 (k : ℚ), [⟨7, []⟩]⟩)

/-- The records of `short_timed` followed by one untimed record. -/
def short_stream : List (block ieee) :=
  short_timed ++ [⟨.zero false, .zero false, .zero false, []⟩]

/-- A record with an update of entity 1 that carries y and z and omits x (mask 0x0C). -/
def update_without_x (y z : Int) : block Unit :=
  ⟨(), (), (), [⟨7, []⟩, ⟨0x8C, [1, lo_byte y, hi_byte y, lo_byte z, hi_byte z]⟩]⟩

/-- Sixty-four records with an update of entity 1 each, all at (100, 5, 7): the updates
of the even records carry x, y and z, those of the odd records omit x; and a record
without update. -/
def omitted_x : List (block Unit) :=
  (List.range 64).map (fun k => if k % 2 = 0 then update_record 100 5 7 else update_without_x 5 7)
    ++ [empty_record]

/-- A single timed record; the time message has kind 7. -/
def single_timed : List (block ieee) := [⟨.zero false, .zero false, .zero false, [⟨7, []⟩]⟩]

/-! ## The constant signal -/

/-- Every element of every payload is a byte. -/
def bytes_ok {F : Type} (bs : List (block F)) : Prop :=
  ∀ blk ∈ bs, ∀ m ∈ blk.messages, ∀ v ∈ m.data, v < 256

instance bytes_ok_decidable {F : Type} (bs : List (block F)) : Decidable (bytes_ok bs) := by
  unfold bytes_ok
  infer_instance

/-- Sixty-four samples at (5, -6, 7) and a record without update. -/
def standing_still : List (block Unit) :=
  List.replicate 64 (update_record 5 (-6) 7) ++ [empty_record]

/-! ## Rounding, value by value -/

/-- The spacing of the format with `p` significand bits and least exponent `emin` at the
magnitude of `q ≠ 0`, as `ieee_round` takes it. -/
def ulp (p : Nat) (emin : Int) (q : ℚ) : ℚ := pow2 (max (floor_log2 q) emin - p + 1)

/-- The multiple of the spacing nearest to `q ≠ 0`, as `ieee_round` takes it. -/
def round_value (p : Nat) (emin : Int) (q : ℚ) : ℚ :=
  (round_half_even (q / ulp p emin q) : ℚ) * ulp p emin q

/-- The rational `a` is a multiple of the spacing of the format at its own magnitude. -/
def on_grid (p : Nat) (emin : Int) (a : ℚ) : Prop := ∃ k : Int, a = (k : ℚ) * ulp p emin a

/-- The rational value `w` of a floating-point value that lies between `lo` and `hi`. -/
def ieee.within (z : ieee) (lo hi : ℚ) : Prop := ∃ w, z.value = some w ∧ lo ≤ w ∧ w ≤ hi

/-! ## The roll under a steady heading -/

/-- The yaw difference is a finite `float` within [-0.3, 0.3]. -/
def steady_delta (dy : ieee) : Prop :=
  ∃ d, dy.value = some d ∧ on_grid 24 (-126) d ∧ -3 / 10 ≤ d ∧ d ≤ 3 / 10

/-- Every record of the list has a steady yaw difference to the record before it, the
first one to the yaw `p`. -/
def steady_run : ieee → List (block ieee) → Prop
  | _, [] => True
  | p, blk :: rest => steady_delta (ieee_arith.fsub p blk.angles1) ∧ steady_run blk.angles1 rest

/-- The roll after `k` records of steady heading, the roll before the first of them being
exactly 10: `k` turns of the loop body of `add_roll` with `curr_dy = 0`. -/
def decay_traj : Nat → ieee
  | 0 => round32 10
  | k + 1 => roll_update ieee_arith (.zero false) (decay_traj k)

/-- The records of `yaw_ramp`, whose yaw goes down from 60 to 0, followed by 55 records
with yaw 0. -/
def ramp_then_steady : List (block ieee) :=
  yaw_ramp ++ List.replicate 55 ⟨.zero false, .zero false, .zero false, []⟩

/-! ## The yaw average across the wraparound -/

/-- The `double` that `yaw_radians` computes for the yaw 350: `(350 - 180) * M_PI / 180`. -/
def wrap_angle : ℚ := 417576533973901 / 140737488355328

/-- A table of `math.h` values that covers the yaw values 350 and 10: the sine and the
cosine of `wrap_angle` and of its negation are the `double` values nearest to
0.17364817766693041 and -0.98480775301220802 (with the sign of the angle for the sine),
a zero has sine itself and cosine 1, and `atan2` of +0 and a value with the sign bit set
is `M_PI`; every other entry is a NaN. -/
def table_libm : float_libm ieee where
  sin x :=
    match x with
    | .num v =>
      if v = wrap_angle then .num (1564083736468707 / 9007199254740992)
      else if v = -wrap_angle then .num (-1564083736468707 / 9007199254740992)
      else .nan
    | .zero s => .zero s
    | _ => .nan
  cos x :=
    match x with
    | .num v =>
      if v = wrap_angle ∨ v = -wrap_angle then .num (-8870359658994711 / 9007199254740992)
      else .nan
    | .zero _ => .num 1
    | _ => .nan
  atan2 y x := if y = .zero false ∧ x.sign = true then M_PI ieee_arith else .nan

/-! ## The frame of the motion pass -/

/-- Byte `off` of the payload of message `mi` of record `b`; 0 where there is none. -/
def byte_of {F : Type} (mem : List (block F)) (b mi off : Nat) : Nat :=
  match mem[b]? with
  | some blk =>
    match blk.messages[mi]? with
    | some m => byte_at m.data off
    | none => 0
  | none => 0

/-- What a record list holds besides its payload bytes: the orientation of every record
and the kind tag and payload length of every message. -/
def shape {F : Type} (mem : List (block F)) : List (F × F × F × List (Nat × Nat)) :=
  mem.map (fun blk => (blk.angles0, blk.angles1, blk.angles2,
    blk.messages.map (fun m => (m.type, m.data.length))))

/-- The pointer `p` is not null and byte `off` of message `mi` is one of the two bytes it
points to. -/
def covers (p : Option field_ptr) (mi off : Nat) : Prop :=
  ∃ q, p = some q ∧ q.m = mi ∧ (off = q.off ∨ off = q.off + 1)

/-- The sample `a` is what `get_next_location` decodes from record `a.b` of `bs`, with
some `prev`. -/
def decoded {F : Type} (char_signed : Bool) (bs : List (block F)) (a : location_info) : Prop :=
  ∃ blk prev, bs[a.b]? = some blk ∧
    scan_messages char_signed 1 a.b prev blk.messages 0 = some a

/-- Byte `off` of message `mi` of record `b` lies under a write-back pointer of the sample
decoded from record `b`. -/
def writable {F : Type} (char_signed : Bool) (bs : List (block F)) (b mi off : Nat) : Prop :=
  ∃ loc, decoded char_signed bs loc ∧ loc.b = b ∧
    (covers loc.x_ptr mi off ∨ covers loc.y_ptr mi off ∨ covers loc.z_ptr mi off)

/-- The memory `mem` differs from `bs` in bytes under write-back pointers only. -/
def frame_kept {F : Type} (char_signed : Bool) (bs mem : List (block F)) : Prop :=
  shape mem = shape bs ∧
    ∀ b mi off, byte_of mem b mi off ≠ byte_of bs b mi off → writable char_signed bs b mi off

/-- The history held by a state of `smooth_motion`. -/
def motion_state.hist {F : Type} : motion_state F → List location_info
  | .steady _ h => h
  | _ => []

/-- Invariant of `smooth_motion` for its frame: the invariant `motion_inv`, the memory
differs from `bs` under write-back pointers only, and the history holds samples decoded
from `bs`. -/
def frame_inv {F : Type} (char_signed : Bool) (bs : List (block F)) (s : motion_state F) : Prop :=
  motion_inv char_signed bs s ∧ frame_kept char_signed bs s.mem ∧
    ∀ a ∈ s.hist, decoded char_signed bs a

/-- Invariant of `smooth_motion` on a record list `bs` that the pass does not change: the
memory is `bs` and the history holds samples of `bs`. -/
def const_inv {F : Type} (char_signed : Bool) (bs : List (block F)) : motion_state F → Prop
  | .restart mem _ => mem = bs
  | .steady mem h => mem = bs ∧ ∀ a ∈ h, a ∈ samples char_signed bs
  | .finish mem => mem = bs
  | .undef mem => mem = bs

end Demsmooth

namespace Demsmooth

/-! ## Lemmas on bytes -/

theorem to_i16_of_range (x : Int) (h1 : -32768 ≤ x) (h2 : x < 32768) : to_i16 x = x := by
  unfold to_i16
  simp only
  split <;> omega

theorem byte_at_append (pre rest : List Nat) (i : Nat) :
    byte_at (pre ++ rest) (pre.length + i) = byte_at rest i := by
  induction pre with
  | nil => simp
  | cons a pre ih =>
    have e : (a :: pre).length + i = (pre.length + i) + 1 := by simp; omega
    rw [e]
    simpa [byte_at] using ih

theorem byte_at_cons_zero (a : Nat) (rest : List Nat) : byte_at (a :: rest) 0 = a % 256 := rfl

theorem byte_at_cons_succ (a : Nat) (rest : List Nat) (i : Nat) :
    byte_at (a :: rest) (i + 1) = byte_at rest i := rfl

theorem read_i16_bytes (pre : List Nat) (x : Int) (rest : List Nat) :
    read_i16 (pre ++ lo_byte x :: hi_byte x :: rest) pre.length = to_i16 x := by
  unfold read_i16 read_u16
  have h0 := byte_at_append pre (lo_byte x :: hi_byte x :: rest) 0
  have h1 := byte_at_append pre (lo_byte x :: hi_byte x :: rest) 1
  rw [Nat.add_zero] at h0
  rw [h0, h1, byte_at_cons_zero, byte_at_cons_succ, byte_at_cons_zero]
  unfold to_i16 lo_byte hi_byte
  simp only
  have hu : (x % 65536).toNat < 65536 := by omega
  have e : (((x % 65536).toNat % 256 % 256 + 256 * ((x % 65536).toNat / 256 % 256) : Nat) : Int)
      = x % 65536 := by
    omega
  rw [e]
  simp

/-! ## Lemmas on the scans of `get_next_location` -/

theorem scan_messages_append_none (cs : Bool) (camera b : Nat) (prev : Option location_info)
    (pre rest : List message) (mi : Nat)
    (h : ∀ k (hk : k < pre.length), decode_message cs camera b (mi + k) pre[k] prev = none) :
    scan_messages cs camera b prev (pre ++ rest) mi
      = scan_messages cs camera b prev rest (mi + pre.length) := by
  induction pre generalizing mi with
  | nil => simp
  | cons m pre ih =>
    have h0 := h 0 (by simp)
    simp only [List.getElem_cons_zero, Nat.add_zero] at h0
    rw [List.cons_append]
    simp only [scan_messages, h0]
    rw [ih (mi + 1)]
    · congr 1
      simp; omega
    · intro k hk
      have := h (k + 1) (by simp; omega)
      simpa [Nat.add_assoc, Nat.add_comm 1 k] using this

theorem get_next_location_step {F : Type} (cs : Bool) (camera : Nat) (bs : List (block F))
    (start : Nat) (prev : Option location_info) (h : start < bs.length) :
    get_next_location cs camera bs start prev =
      (scan_messages cs camera start prev bs[start].messages 0).orElse
        (fun _ => get_next_location cs camera bs (start + 1) prev) := by
  unfold get_next_location
  rw [List.drop_eq_getElem_cons h]
  simp only [scan_blocks]
  cases scan_messages cs camera start prev bs[start].messages 0 <;> rfl

theorem get_next_location_null {F : Type} (cs : Bool) (camera : Nat) (bs : List (block F))
    (start : Nat) (prev : Option location_info) (h : bs.length ≤ start) :
    get_next_location cs camera bs start prev = none := by
  unfold get_next_location
  rw [List.drop_eq_nil_of_le h]
  rfl

theorem decode_message_not_candidate (cs : Bool) (camera b mi : Nat) (m : message)
    (prev : Option location_info) (h : m.type < 0x80) :
    decode_message cs camera b mi m prev = none := by
  unfold decode_message
  rw [if_neg (by omega)]

/-! ## Decode round trip -/

/-- C2: for signed 16-bit `x`, `y`, `z` and a one-byte camera id, a message with kind tag
`0x8E` and payload `[camera, x low, x high, y low, y high, z low, z high]`, met as the
first candidate of the start record, makes `get_next_location` succeed with exactly
`x`, `y`, `z`, whatever the previous sample, and with write-back targets at payload
offsets 1, 3 and 5 of that message. -/
theorem decode_round_trip {F : Type} (cs : Bool) (camera : Nat) (x y z : Int)
    (bs : List (block F)) (start : Nat) (blk : block F) (pre post : List message)
    (prev : Option location_info)
    (hcam : camera < 256)
    (hx : -32768 ≤ x ∧ x < 32768) (hy : -32768 ≤ y ∧ y < 32768) (hz : -32768 ≤ z ∧ z < 32768)
    (hblk : bs[start]? = some blk)
    (hmsg : blk.messages = pre ++
      ⟨0x8E, [camera, lo_byte x, hi_byte x, lo_byte y, hi_byte y, lo_byte z, hi_byte z]⟩ :: post)
    (hpre : ∀ m ∈ pre, m.type < 0x80) :
    get_next_location cs camera bs start prev =
      some ⟨start, x, y, z, some ⟨start, pre.length, 1⟩, some ⟨start, pre.length, 3⟩,
        some ⟨start, pre.length, 5⟩⟩ := by
  obtain ⟨hlt, hget⟩ := List.getElem?_eq_some_iff.mp hblk
  rw [get_next_location_step cs camera bs start prev hlt, hget, hmsg,
    scan_messages_append_none]
  · have e1 : read_i16 [camera, lo_byte x, hi_byte x, lo_byte y, hi_byte y, lo_byte z, hi_byte z] 1
        = x := by
      have := read_i16_bytes [camera] x [lo_byte y, hi_byte y, lo_byte z, hi_byte z]
      rw [to_i16_of_range x hx.1 hx.2] at this
      simpa using this
    have e2 : read_i16 [camera, lo_byte x, hi_byte x, lo_byte y, hi_byte y, lo_byte z, hi_byte z] 3
        = y := by
      have := read_i16_bytes [camera, lo_byte x, hi_byte x] y [lo_byte z, hi_byte z]
      rw [to_i16_of_range y hy.1 hy.2] at this
      simpa using this
    have e3 : read_i16 [camera, lo_byte x, hi_byte x, lo_byte y, hi_byte y, lo_byte z, hi_byte z] 5
        = z := by
      have := read_i16_bytes [camera, lo_byte x, hi_byte x, lo_byte y, hi_byte y] z []
      rw [to_i16_of_range z hz.1 hz.2] at this
      simpa using this
    have hb : byte_at [camera, lo_byte x, hi_byte x, lo_byte y, hi_byte y, lo_byte z, hi_byte z] 0
        = camera := by
      rw [byte_at_cons_zero]; omega
    have hm : ∀ data, decode_mask cs ⟨0x8E, data⟩ = (14, 0) := by
      intro data
      simp +decide [decode_mask, extend_mask]
    have he : ∀ data, decode_entity 14 data 0 = (byte_at data 0, 1) := by
      intro data
      simp +decide [decode_entity]
    have hf : ∀ data, decode_fields start (0 + pre.length) 14 data 1 prev =
        ⟨start, read_i16 data 1, read_i16 data 3, read_i16 data 5, some ⟨start, pre.length, 1⟩,
          some ⟨start, pre.length, 3⟩, some ⟨start, pre.length, 5⟩⟩ := by
      intro data
      have c1 : count_setbits (14 &&& 15424) = 0 := by decide
      have c2 : count_setbits (14 &&& 256) = 0 := by decide
      have c3 : count_setbits (14 &&& 16) = 0 := by decide
      simp +decide [decode_fields, read_field, c1, c2, c3]
    simp only [scan_messages, decode_message, hm, he, hf, hb, e1, e2, e3]
    simp
  · intro k hk
    exact decode_message_not_candidate cs camera start (0 + k) pre[k] prev
      (hpre _ (List.getElem_mem hk))

/-- Witness of `decode_round_trip`: the sample (1000, -2, 513) behind a time message. -/
theorem decode_round_trip_witness :
    get_next_location true 1
        [(⟨(), (), (), [⟨7, []⟩, ⟨0x8E, [1, 232, 3, 254, 255, 1, 2]⟩]⟩ : block Unit)] 0 none =
      some ⟨0, 1000, -2, 513, some ⟨0, 1, 1⟩, some ⟨0, 1, 3⟩, some ⟨0, 1, 5⟩⟩ :=
  decode_round_trip true 1 1000 (-2) 513
    [(⟨(), (), (), [⟨7, []⟩, ⟨0x8E, [1, 232, 3, 254, 255, 1, 2]⟩]⟩ : block Unit)] 0
    ⟨(), (), (), [⟨7, []⟩, ⟨0x8E, [1, 232, 3, 254, 255, 1, 2]⟩]⟩ [⟨7, []⟩] [] none
    (by decide) (by decide) (by decide) (by decide) rfl rfl (by decide)

end Demsmooth

namespace Demsmooth

/-! ## `count_setbits` counts the set bits -/

theorem land_pred_bit (m : Nat) (hm : m ≠ 0) :
    (m &&& (m - 1)) % 2 = 0 ∧
      (m &&& (m - 1)) / 2 = if m % 2 = 1 then m / 2 else (m / 2) &&& (m / 2 - 1) := by
  obtain ⟨b, t, rfl⟩ : ∃ b t, m = Nat.bit b t := ⟨m.bodd, m.div2, (Nat.bit_decomp m).symm⟩
  cases b with
  | true =>
    have e : Nat.bit true t - 1 = Nat.bit false t := by simp [Nat.bit_val]
    rw [e, Nat.land_bit]
    simp only [Nat.bit_mod_two, Nat.bit_div_two, Bool.and_false, Bool.toNat_false,
      Bool.toNat_true, if_true, Nat.and_self, and_self]
  | false =>
    have ht : t ≠ 0 := by
      intro h
      apply hm
      simp [Nat.bit_val, h]
    have e : Nat.bit false t - 1 = Nat.bit true (t - 1) := by
      simp [Nat.bit_val]
      omega
    rw [e, Nat.land_bit]
    simp only [Nat.bit_mod_two, Nat.bit_div_two]
    simp

theorem popcount_bits_land_pred (k : Nat) : ∀ m : Nat, m ≠ 0 → m < 2 ^ k →
    popcount_bits k (m &&& (m - 1)) + 1 = popcount_bits k m := by
  induction k with
  | zero =>
    intro m hm hlt
    simp at hlt
    exact absurd hlt hm
  | succ k ih =>
    intro m hm hlt
    obtain ⟨h0, h1⟩ := land_pred_bit m hm
    simp only [popcount_bits, h0, h1]
    by_cases hodd : m % 2 = 1
    · rw [if_pos hodd, hodd]
      omega
    · rw [if_neg hodd]
      have hm2 : m / 2 ≠ 0 := by omega
      have hlt2 : m / 2 < 2 ^ k := by
        rw [pow_succ] at hlt
        omega
      have := ih (m / 2) hm2 hlt2
      omega

theorem popcount_bits_zero (k : Nat) : popcount_bits k 0 = 0 := by
  induction k with
  | zero => rfl
  | succ k ih => simp [popcount_bits, ih]

theorem popcount_bits_le (k : Nat) : ∀ m : Nat, popcount_bits k m ≤ k := by
  induction k with
  | zero => intro m; simp [popcount_bits]
  | succ k ih =>
    intro m
    have := ih (m / 2)
    simp only [popcount_bits]
    omega

theorem count_setbits_loop_eq (k : Nat) (n : Nat) : ∀ m c : Nat, m < 2 ^ k →
    popcount_bits k m ≤ n → count_setbits_loop n m c = c + popcount_bits k m := by
  induction n with
  | zero =>
    intro m c _ hle
    simp only [count_setbits_loop]
    omega
  | succ n ih =>
    intro m c hlt hle
    by_cases hm : m = 0
    · subst hm
      simp [count_setbits_loop, popcount_bits_zero]
    · simp only [count_setbits_loop, if_neg hm]
      have hk := popcount_bits_land_pred k m hm hlt
      have hlt2 : m &&& (m - 1) < 2 ^ k := lt_of_le_of_lt Nat.and_le_left hlt
      rw [ih (m &&& (m - 1)) (c + 1) hlt2 (by omega)]
      omega

/-- The loop of `count_setbits` returns the number of set bits of every 32-bit mask. -/
theorem count_setbits_eq_popcount (m : Nat) (h : m < 2 ^ 32) : count_setbits m = popcount m := by
  unfold count_setbits popcount
  rw [count_setbits_loop_eq 32 32 m 0 h (popcount_bits_le 32 m)]
  simp

theorem count_setbits_and (mask c : Nat) (hc : c < 2 ^ 32) :
    count_setbits (mask &&& c) = popcount (mask &&& c) :=
  count_setbits_eq_popcount _ (Nat.and_lt_two_pow mask hc)

theorem count_setbits_single (mask i : Nat) (hi : i < 32) :
    count_setbits (mask &&& 2 ^ i) = if mask &&& 2 ^ i ≠ 0 then 1 else 0 := by
  rw [Nat.and_two_pow]
  cases mask.testBit i with
  | false => simp; decide
  | true =>
    simp only [Bool.toNat_true, Nat.one_mul]
    have hpos : 2 ^ i ≠ 0 := by positivity
    rw [if_pos hpos]
    interval_cases i <;> decide

/-! ## Layout of the byte cursor -/

theorem decode_message_some (cs : Bool) (camera b mi : Nat) (m : message)
    (prev : Option location_info) (loc : location_info)
    (h : decode_message cs camera b mi m prev = some loc) :
    0x80 ≤ m.type ∧
      (decode_entity (decode_mask cs m).1 m.data (decode_mask cs m).2).1 = camera ∧
      loc = decode_fields b mi (decode_mask cs m).1 m.data
        (decode_entity (decode_mask cs m).1 m.data (decode_mask cs m).2).2 prev := by
  unfold decode_message at h
  by_cases ht : 0x80 ≤ m.type
  · rw [if_pos ht] at h
    by_cases he : (decode_entity (decode_mask cs m).1 m.data (decode_mask cs m).2).1 = camera
    · simp only [he, ne_eq, not_true_eq_false, if_false, Option.some.injEq] at h
      exact ⟨ht, he, h.symm⟩
    · simp only [ne_eq, he, not_false_eq_true, if_true] at h
      exact absurd h (by simp)
  · rw [if_neg ht] at h
    exact absurd h (by simp)

theorem decode_entity_next (mask : Nat) (data : List Nat) (pos : Nat) :
    (decode_entity mask data pos).2 = pos + (if mask &&& 0x4000 ≠ 0 then 2 else 1) := by
  unfold decode_entity
  split <;> rfl

theorem decode_fields_layout (b mi mask : Nat) (data : List Nat) (h : Nat)
    (prev : Option location_info) :
    decode_fields b mi mask data (decode_entity mask data h).2 prev =
      ⟨b,
        if mask &&& 0x0002 ≠ 0 then read_i16 data (layout_x mask h)
          else inherited_field prev (fun p => p.x),
        if mask &&& 0x0004 ≠ 0 then read_i16 data (layout_y mask h)
          else inherited_field prev (fun p => p.y),
        if mask &&& 0x0008 ≠ 0 then read_i16 data (layout_z mask h)
          else inherited_field prev (fun p => p.z),
        if mask &&& 0x0002 ≠ 0 then some ⟨b, mi, layout_x mask h⟩ else none,
        if mask &&& 0x0004 ≠ 0 then some ⟨b, mi, layout_y mask h⟩ else none,
        if mask &&& 0x0008 ≠ 0 then some ⟨b, mi, layout_z mask h⟩ else none⟩ := by
  have c1 : count_setbits (mask &&& 0x3C40) = popcount (mask &&& 0x3C40) :=
    count_setbits_and mask 0x3C40 (by decide)
  have c2 : count_setbits (mask &&& 0x0100) = if mask &&& 0x0100 ≠ 0 then 1 else 0 :=
    count_setbits_single mask 8 (by decide)
  have c3 : count_setbits (mask &&& 0x0010) = if mask &&& 0x0010 ≠ 0 then 1 else 0 :=
    count_setbits_single mask 4 (by decide)
  have hx : (decode_entity mask data h).2 + count_setbits (mask &&& 0x3C40) = layout_x mask h := by
    rw [decode_entity_next, c1]
    rfl
  simp only [decode_fields, hx, c2, c3, layout_z, layout_y]
  generalize layout_x mask h = cx
  by_cases h2 : mask &&& 0x0002 = 0 <;> by_cases h4 : mask &&& 0x0004 = 0 <;>
    by_cases h8 : mask &&& 0x0008 = 0 <;> simp [read_field, h2, h4, h8]

/-- C3: for every message that `get_next_location` decodes as an update of the tracked
entity, with final mask `m`, `h` mask-extension bytes consumed and an id of `d` bytes
(2 if `m & 0x4000`, else 1): the x pointer, when bit 0x0002 is set, is at offset
`h + d + popcount (m & 0x3C40)`; the y pointer, when bit 0x0004 is set, is at that offset
plus 2 if bit 0x0002 is set plus 1 if bit 0x0100 is set; the z pointer, when bit 0x0008
is set, is at the y cursor plus 2 if bit 0x0004 is set plus 1 if bit 0x0010 is set; a
present coordinate is the signed little-endian 16-bit value at its offset and an absent
one has a null pointer. -/
theorem decoder_cursor_layout (cs : Bool) (camera b mi : Nat) (m : message)
    (prev : Option location_info) (loc : location_info)
    (hdec : decode_message cs camera b mi m prev = some loc) :
    (if (decode_mask cs m).1 &&& 0x0002 ≠ 0 then
        loc.x_ptr = some ⟨b, mi, layout_x (decode_mask cs m).1 (decode_mask cs m).2⟩ ∧
        loc.x = read_i16 m.data (layout_x (decode_mask cs m).1 (decode_mask cs m).2)
      else loc.x_ptr = none) ∧
    (if (decode_mask cs m).1 &&& 0x0004 ≠ 0 then
        loc.y_ptr = some ⟨b, mi, layout_y (decode_mask cs m).1 (decode_mask cs m).2⟩ ∧
        loc.y = read_i16 m.data (layout_y (decode_mask cs m).1 (decode_mask cs m).2)
      else loc.y_ptr = none) ∧
    (if (decode_mask cs m).1 &&& 0x0008 ≠ 0 then
        loc.z_ptr = some ⟨b, mi, layout_z (decode_mask cs m).1 (decode_mask cs m).2⟩ ∧
        loc.z = read_i16 m.data (layout_z (decode_mask cs m).1 (decode_mask cs m).2)
      else loc.z_ptr = none) := by
  obtain ⟨_, _, hloc⟩ := decode_message_some cs camera b mi m prev loc hdec
  rw [decode_fields_layout] at hloc
  subst hloc
  generalize (decode_mask cs m).1 = mask
  generalize (decode_mask cs m).2 = h
  refine ⟨?_, ?_, ?_⟩ <;> split <;> simp_all

/-- Witness of `decoder_cursor_layout`: in `example_update` the coordinates 5, 6, 7 sit at
offsets 3, 6 and 8. -/
theorem decoder_cursor_layout_witness :
    decode_message true 1 0 0 example_update none =
        some ⟨0, 5, 6, 7, some ⟨0, 0, 3⟩, some ⟨0, 0, 6⟩, some ⟨0, 0, 8⟩⟩ ∧
      layout_x (decode_mask true example_update).1 (decode_mask true example_update).2 = 3 ∧
      layout_y (decode_mask true example_update).1 (decode_mask true example_update).2 = 6 ∧
      layout_z (decode_mask true example_update).1 (decode_mask true example_update).2 = 8 ∧
      ((if (decode_mask true example_update).1 &&& 0x0008 ≠ 0 then
        (some ⟨0, 0, 8⟩ : Option field_ptr) = some ⟨0, 0,
            layout_z (decode_mask true example_update).1 (decode_mask true example_update).2⟩ ∧
          (7 : Int) = read_i16 example_update.data
            (layout_z (decode_mask true example_update).1 (decode_mask true example_update).2)
        else (some ⟨0, 0, 8⟩ : Option field_ptr) = none)) :=
  ⟨by decide, by decide, by decide, by decide,
    (decoder_cursor_layout true 1 0 0 example_update none
      ⟨0, 5, 6, 7, some ⟨0, 0, 3⟩, some ⟨0, 0, 6⟩, some ⟨0, 0, 8⟩⟩ (by decide)).2.2⟩

end Demsmooth

namespace Demsmooth

/-! ## Mask extension -/

theorem and_two_pow_eq_zero_of_lt (x j : Nat) (h : x < 2 ^ j) : x &&& 2 ^ j = 0 := by
  rw [Nat.and_two_pow, Nat.testBit_lt_two_pow h]
  simp

theorem to_u32_byte_shift (b k : Nat) (hb : b < 256) (hk : k ≤ 24) :
    to_u32 (char_value false (b % 256) * 2 ^ k) = b <<< k := by
  have hb2 : b % 256 = b := Nat.mod_eq_of_lt hb
  have hpow : (2 : Nat) ^ k ≤ 2 ^ 24 := Nat.pow_le_pow_right (by decide) hk
  have hlt : b * 2 ^ k < 4294967296 := by
    calc b * 2 ^ k ≤ 255 * 2 ^ 24 := Nat.mul_le_mul (by omega) hpow
      _ < 4294967296 := by decide
  have e : char_value false (b % 256) * 2 ^ k = ((b * 2 ^ k : Nat) : Int) := by
    simp [char_value, hb2]
  rw [e, to_u32, Nat.shiftLeft_eq]
  have : ((b * 2 ^ k : Nat) : Int) % 4294967296 = ((b * 2 ^ k : Nat) : Int) := by
    apply Int.emod_eq_of_lt
    · positivity
    · exact_mod_cast hlt
  rw [this, Int.toNat_natCast]

/-- On a platform with unsigned plain `char` the decoder computes the mask of the claim
on the mask extension. -/
theorem decode_mask_unsigned_char (t b0 b1 b2 : Nat) (rest : List Nat)
    (h0 : b0 < 256) (h1 : b1 < 256) (h2 : b2 < 256) :
    decode_mask false ⟨t, b0 :: b1 :: b2 :: rest⟩ = mask_spec t b0 b1 b2 := by
  have s0 := to_u32_byte_shift b0 8 h0 (by decide)
  have s1 := to_u32_byte_shift b1 16 h1 (by decide)
  have s2 := to_u32_byte_shift b2 24 h2 (by decide)
  have hsmall : t &&& 0x7F < 2 ^ 7 := Nat.and_lt_two_pow t (by decide)
  have hb0 : b0 <<< 8 < 2 ^ 16 := by
    rw [Nat.shiftLeft_eq]
    omega
  have hm1 : (t &&& 0x7F ||| b0 <<< 8) < 2 ^ 16 :=
    Nat.or_lt_two_pow (lt_of_lt_of_le hsmall (by decide)) hb0
  unfold decode_mask mask_spec
  by_cases c0 : t &&& 0x7F &&& 0x01 = 0
  · have c1 : t &&& 0x7F &&& 0x8000 = 0 :=
      and_two_pow_eq_zero_of_lt _ 15 (lt_of_lt_of_le hsmall (by decide))
    have c2 : t &&& 0x7F &&& 0x800000 = 0 :=
      and_two_pow_eq_zero_of_lt _ 23 (lt_of_lt_of_le hsmall (by decide))
    simp [extend_mask, c0, c1, c2]
  · simp only [extend_mask, ne_eq, c0, not_false_eq_true, if_true, if_false, byte_at_cons_zero, s0]
    by_cases c1 : (t &&& 0x7F ||| b0 <<< 8) &&& 0x8000 = 0
    · have c2 : (t &&& 0x7F ||| b0 <<< 8) &&& 0x800000 = 0 :=
        and_two_pow_eq_zero_of_lt _ 23 (lt_of_lt_of_le hm1 (by decide))
      simp [c1, c2]
    · simp only [c1, not_false_eq_true, if_true, if_false, byte_at_cons_succ, byte_at_cons_zero, s1]
      by_cases c2 : (t &&& 0x7F ||| b0 <<< 8 ||| b1 <<< 16) &&& 0x800000 = 0
      · simp [c2]
      · simp only [c2, not_false_eq_true, if_true, if_false, byte_at_cons_succ,
          byte_at_cons_zero, s2]

/-- C4 (evaluation at the failing input): with signed plain `char`, tag 0x81 and payload
bytes 0x80, 0x00, 0x01 give the mask 0xFFFF8001 and consume three extension bytes, where
the mask of the claim is 0x8001 with two extension bytes; the entity id is then read one
byte too far and the update of entity 1 in that message is not found. -/
theorem mask_extension_sign_extends :
    decode_mask true ⟨0x81, [0x80, 0x00, 0x01, 0x02]⟩ = (0xFFFF8001, 3) ∧
      mask_spec 0x81 0x80 0x00 0x01 = (0x8001, 2) ∧
      decode_mask false ⟨0x81, [0x80, 0x00, 0x01, 0x02]⟩ = (0x8001, 2) ∧
      decode_message true 1 0 0 ⟨0x81, [0x80, 0x00, 0x01, 0x02]⟩ none = none ∧
      decode_message false 1 0 0 ⟨0x81, [0x80, 0x00, 0x01, 0x02]⟩ none
        = some ⟨0, 0, 0, 0, none, none, none⟩ := by
  decide

/-! ## Entity selection -/

theorem decode_entity_fst (cs : Bool) (m : message) :
    (decode_entity (decode_mask cs m).1 m.data (decode_mask cs m).2).1 = entity_id cs m := by
  unfold decode_entity entity_id read_u16
  split <;> rfl

theorem decode_message_eq_none_iff (cs : Bool) (camera b mi : Nat) (m : message)
    (prev : Option location_info) :
    decode_message cs camera b mi m prev = none ↔ ¬ is_update_of cs camera m := by
  unfold decode_message is_update_of
  rw [← decode_entity_fst]
  by_cases ht : 0x80 ≤ m.type
  · by_cases he : (decode_entity (decode_mask cs m).1 m.data (decode_mask cs m).2).1 = camera
    · simp [ht, he]
    · simp [ht, he]
  · simp [ht]

theorem scan_messages_eq_none_iff (cs : Bool) (camera b : Nat) (prev : Option location_info)
    (ms : List message) (mi : Nat) :
    scan_messages cs camera b prev ms mi = none ↔ ∀ m ∈ ms, ¬ is_update_of cs camera m := by
  induction ms generalizing mi with
  | nil => simp [scan_messages]
  | cons m ms ih =>
    simp only [scan_messages, List.mem_cons, forall_eq_or_imp]
    cases hd : decode_message cs camera b mi m prev with
    | none =>
      rw [decode_message_eq_none_iff] at hd
      simp only [ih (mi + 1)]
      exact ⟨fun h => ⟨hd, h⟩, fun h => h.2⟩
    | some loc =>
      have : ¬ ¬ is_update_of cs camera m := by
        rw [← decode_message_eq_none_iff cs camera b mi m prev, hd]
        simp
      simp [this]

theorem scan_messages_eq_some (cs : Bool) (camera b : Nat) (prev : Option location_info)
    (ms : List message) (mi : Nat) (loc : location_info)
    (h : scan_messages cs camera b prev ms mi = some loc) :
    ∃ j m, ms[j]? = some m ∧ decode_message cs camera b (mi + j) m prev = some loc ∧
      ∀ j2 m2, j2 < j → ms[j2]? = some m2 → ¬ is_update_of cs camera m2 := by
  induction ms generalizing mi with
  | nil => simp [scan_messages] at h
  | cons m ms ih =>
    simp only [scan_messages] at h
    cases hd : decode_message cs camera b mi m prev with
    | some l =>
      rw [hd] at h
      simp only [Option.some.injEq] at h
      subst h
      exact ⟨0, m, by simp, hd, fun j2 m2 hj => absurd hj (Nat.not_lt_zero _)⟩
    | none =>
      rw [hd] at h
      obtain ⟨j, m1, hj, hdec, hfirst⟩ := ih (mi + 1) h
      refine ⟨j + 1, m1, by simpa using hj, ?_, ?_⟩
      · rw [← hdec]
        congr 1
        omega
      · intro j2 m2 hlt hget
        cases j2 with
        | zero =>
          simp only [List.getElem?_cons_zero, Option.some.injEq] at hget
          subst hget
          exact (decode_message_eq_none_iff cs camera b mi m prev).mp hd
        | succ j2 =>
          exact hfirst j2 m2 (by omega) (by simpa using hget)

theorem decode_message_b (cs : Bool) (camera b mi : Nat) (m : message)
    (prev : Option location_info) (loc : location_info)
    (h : decode_message cs camera b mi m prev = some loc) : loc.b = b := by
  obtain ⟨_, _, hloc⟩ := decode_message_some cs camera b mi m prev loc h
  rw [hloc]
  rfl

theorem scan_blocks_eq_none_iff {F : Type} (cs : Bool) (camera : Nat)
    (prev : Option location_info) (l : List (block F)) (b : Nat) :
    scan_blocks cs camera prev l b = none ↔
      ∀ blk ∈ l, ∀ m ∈ blk.messages, ¬ is_update_of cs camera m := by
  induction l generalizing b with
  | nil => simp [scan_blocks]
  | cons blk rest ih =>
    simp only [scan_blocks, List.mem_cons, forall_eq_or_imp]
    cases hs : scan_messages cs camera b prev blk.messages 0 with
    | none =>
      rw [scan_messages_eq_none_iff] at hs
      simp only [ih (b + 1)]
      exact ⟨fun h => ⟨hs, h⟩, fun h => h.2⟩
    | some loc =>
      have : ¬ ∀ m ∈ blk.messages, ¬ is_update_of cs camera m := by
        rw [← scan_messages_eq_none_iff cs camera b prev blk.messages 0, hs]
        simp
      simp [this]

theorem scan_blocks_eq_some {F : Type} (cs : Bool) (camera : Nat)
    (prev : Option location_info) (l : List (block F)) (b : Nat) (loc : location_info)
    (h : scan_blocks cs camera prev l b = some loc) :
    ∃ i j blk m, loc.b = b + i ∧ l[i]? = some blk ∧ blk.messages[j]? = some m ∧
      decode_message cs camera (b + i) j m prev = some loc ∧
      (∀ j2 m2, j2 < j → blk.messages[j2]? = some m2 → ¬ is_update_of cs camera m2) ∧
      (∀ i2 blk2, i2 < i → l[i2]? = some blk2 →
        ∀ m2 ∈ blk2.messages, ¬ is_update_of cs camera m2) := by
  induction l generalizing b with
  | nil => simp [scan_blocks] at h
  | cons blk rest ih =>
    simp only [scan_blocks] at h
    cases hs : scan_messages cs camera b prev blk.messages 0 with
    | some l1 =>
      rw [hs] at h
      simp only [Option.some.injEq] at h
      subst h
      obtain ⟨j, m, hj, hdec, hfirst⟩ := scan_messages_eq_some cs camera b prev _ 0 _ hs
      rw [Nat.zero_add] at hdec
      refine ⟨0, j, blk, m, ?_, by simp, hj, hdec, hfirst, ?_⟩
      · rw [decode_message_b cs camera b j m prev _ hdec]
        rfl
      · intro i2 blk2 hlt
        exact absurd hlt (Nat.not_lt_zero _)
    | none =>
      rw [hs] at h
      obtain ⟨i, j, blk1, m, hb, hi, hj, hdec, hfirst, hearlier⟩ := ih (b + 1) h
      have e : b + 1 + i = b + (i + 1) := by omega
      refine ⟨i + 1, j, blk1, m, by omega, by simpa using hi, hj, e ▸ hdec, hfirst, ?_⟩
      intro i2 blk2 hlt hget
      cases i2 with
      | zero =>
        simp only [List.getElem?_cons_zero, Option.some.injEq] at hget
        subst hget
        exact (scan_messages_eq_none_iff cs camera b prev _ 0).mp hs
      | succ i2 =>
        exact hearlier i2 blk2 (by omega) (by simpa using hget)

/-- C5: for every start record, `get_next_location` fails iff no message at or after the
start record is an update of the tracked entity (kind tag at least 0x80 and entity id
equal to the tracked id, the id being the 2-byte little-endian value when mask bit
0x4000 is set and the single byte otherwise); and when it succeeds the sample is the
decoding of the first such message in record order, then message order: its owning
record is the record of that message and every message met earlier is no update of the
tracked entity. -/
theorem entity_selection {F : Type} (cs : Bool) (camera : Nat) (bs : List (block F))
    (start : Nat) (prev : Option location_info) :
    (get_next_location cs camera bs start prev = none ↔
      ∀ i blk, start ≤ i → bs[i]? = some blk →
        ∀ m ∈ blk.messages, ¬ is_update_of cs camera m) ∧
    (∀ loc, get_next_location cs camera bs start prev = some loc →
      ∃ j blk m, start ≤ loc.b ∧ bs[loc.b]? = some blk ∧ blk.messages[j]? = some m ∧
        is_update_of cs camera m ∧
        decode_message cs camera loc.b j m prev = some loc ∧
        (∀ j2 m2, j2 < j → blk.messages[j2]? = some m2 → ¬ is_update_of cs camera m2) ∧
        (∀ i2 blk2, start ≤ i2 → i2 < loc.b → bs[i2]? = some blk2 →
          ∀ m2 ∈ blk2.messages, ¬ is_update_of cs camera m2)) := by
  constructor
  · unfold get_next_location
    rw [scan_blocks_eq_none_iff]
    constructor
    · intro h i blk hle hget
      apply h blk
      have : (bs.drop start)[i - start]? = some blk := by
        rw [List.getElem?_drop]
        rw [← hget]
        congr 1
        omega
      exact List.getElem?_mem this
    · intro h blk hmem
      obtain ⟨k, hk⟩ := List.getElem?_of_mem hmem
      rw [List.getElem?_drop] at hk
      exact h (start + k) blk (by omega) hk
  · intro loc h
    unfold get_next_location at h
    obtain ⟨i, j, blk, m, hb, hi, hj, hdec, hfirst, hearlier⟩ :=
      scan_blocks_eq_some cs camera prev _ start loc h
    rw [List.getElem?_drop] at hi
    rw [← hb] at hdec hi
    refine ⟨j, blk, m, by omega, hi, hj, ?_, hdec, hfirst, ?_⟩
    · by_contra hnot
      rw [(decode_message_eq_none_iff cs camera loc.b j m prev).mpr hnot] at hdec
      exact absurd hdec (by simp)
    · intro i2 blk2 hle hlt hget
      apply hearlier (i2 - start) blk2 (by omega)
      rw [List.getElem?_drop, ← hget]
      congr 1
      omega

end Demsmooth

namespace Demsmooth

/-! ## The distance of two samples -/

theorem isqrt_bits_spec (s : Nat) (k : Nat) : ∀ r : Nat, r * r ≤ s →
    s < (r + 2 ^ k) * (r + 2 ^ k) →
    isqrt_bits s k r * isqrt_bits s k r ≤ s ∧
      s < (isqrt_bits s k r + 1) * (isqrt_bits s k r + 1) := by
  induction k with
  | zero =>
    intro r h1 h2
    simpa [isqrt_bits] using And.intro h1 h2
  | succ k ih =>
    intro r h1 h2
    simp only [isqrt_bits]
    split
    · rename_i hle
      apply ih (r + 2 ^ k) hle
      have e : r + 2 ^ k + 2 ^ k = r + 2 ^ (k + 1) := by rw [pow_succ]; omega
      rw [e]
      exact h2
    · rename_i hlt
      exact ih r h1 (by omega)

theorem int_sqrt_lt_iff (s : Int) (h0 : 0 ≤ s) (h1 : s < 4294967296) (n : Nat) :
    int_sqrt s < n ↔ s < (n : Int) * n := by
  unfold int_sqrt
  rw [if_pos h0]
  obtain ⟨u, rfl⟩ := Int.eq_ofNat_of_zero_le h0
  simp only [Int.toNat_ofNat]
  have hu : u < 65536 * 65536 := by omega
  obtain ⟨ha, hb⟩ := isqrt_bits_spec u 16 0 (by simp) (by simpa using hu)
  generalize isqrt_bits u 16 0 = t at ha hb
  constructor
  · intro hlt
    have hlt2 : t + 1 ≤ n := by exact_mod_cast hlt
    have : u < n * n := lt_of_lt_of_le hb (Nat.mul_le_mul hlt2 hlt2)
    exact_mod_cast this
  · intro hlt
    have hlt2 : u < n * n := by exact_mod_cast hlt
    have : t < n := by
      by_contra hge
      push_neg at hge
      have := Nat.mul_le_mul hge hge
      omega
    exact_mod_cast this

theorem to_i32_of_range (v : Int) (h0 : -2147483648 ≤ v) (h1 : v < 2147483648) : to_i32 v = v := by
  unfold to_i32
  simp only
  split <;> omega

/-- Where the squares and their sum fit in 32 bits, `location_distance` is below the
restart limit exactly when the squared Euclidean distance is below 40000. -/
theorem location_distance_lt_iff (a b : location_info)
    (hsum : (a.x - b.x) * (a.x - b.x) + (a.y - b.y) * (a.y - b.y) + (a.z - b.z) * (a.z - b.z)
      < 2147483648) :
    location_distance a b < MOTION_SMOOTH_RESTART_LIMIT ↔
      (a.x - b.x) * (a.x - b.x) + (a.y - b.y) * (a.y - b.y) + (a.z - b.z) * (a.z - b.z)
        < 40000 := by
  have hx := mul_self_nonneg (a.x - b.x)
  have hy := mul_self_nonneg (a.y - b.y)
  have hz := mul_self_nonneg (a.z - b.z)
  unfold location_distance MOTION_SMOOTH_RESTART_LIMIT
  simp only
  rw [to_i32_of_range ((a.x - b.x) * (a.x - b.x)) (by omega) (by omega),
    to_i32_of_range ((a.y - b.y) * (a.y - b.y)) (by omega) (by omega),
    to_i32_of_range ((a.z - b.z) * (a.z - b.z)) (by omega) (by omega),
    to_i32_of_range ((a.x - b.x) * (a.x - b.x) + (a.y - b.y) * (a.y - b.y)) (by omega) (by omega),
    to_i32_of_range _ (by omega) (by omega)]
  have := int_sqrt_lt_iff
    ((a.x - b.x) * (a.x - b.x) + (a.y - b.y) * (a.y - b.y) + (a.z - b.z) * (a.z - b.z))
    (by omega) (by omega) 200
  simpa using this

/-- C9 (evaluation at the failing input): for the samples (32767, 363, 0) and
(-32768, 0, 0), with dx = 65535, dy = 363, dz = 0, the squared distance is far above
40000 but `location_distance` returns 26, because `dx * dx` wraps in 32-bit `int`; in
`jump_with_overflow` the slide step therefore appends the sample behind the jump, and the
average written to sample 31 is -31693 where the samples before the jump are all
at -32768. -/
theorem location_distance_overflow :
    location_distance ⟨0, 32767, 363, 0, none, none, none⟩ ⟨0, -32768, 0, 0, none, none, none⟩
        = 26 ∧
      ¬ ((65535 : Int) * 65535 + 363 * 363 + 0 * 0 < 40000) ∧
      (smooth_motion true jump_with_overflow).st = status.finished ∧
      (sample_xs true (smooth_motion true jump_with_overflow).blocks)[31]? = some (-31693) := by
  decide!

/-! ## A jump inside the populate loop -/

/-- C8 (evaluation at the failing input): in `jump_in_fill` sample 0 is at x = 0 and
sample 1 at x = 300, more than 200 apart; the populate loop takes both into the history
without a distance check, and the pass writes to sample 30 the average 295 of the x
values of samples 0 to 60, a window that holds both sides of the jump. -/
theorem jump_inside_fill_is_averaged :
    (sample_xs true jump_in_fill)[0]? = some 0 ∧
      (sample_xs true jump_in_fill)[1]? = some 300 ∧
      (sample_xs true jump_in_fill)[30]? = some 300 ∧
      (smooth_motion true jump_in_fill).st = status.finished ∧
      (sample_xs true (smooth_motion true jump_in_fill).blocks)[30]? = some 295 ∧
      Int.tdiv ((sample_xs true jump_in_fill).take 61).sum 61 = 295 := by
  decide!

end Demsmooth

namespace Demsmooth

/-! ## The roll under a steady turn -/

theorem round32_one : round32 1 = .num 1 := by decide!

/-- The float difference of two finite yaw values that differ by exactly 1 is 1. -/
theorem fsub_step (p c : ieee) (v : ℚ) (hp : p.value = some v) (hc : c.value = some (v - 1)) :
    ieee_arith.fsub p c = .num 1 := by
  have h1 := round32_one
  cases p with
  | nan => simp [ieee.value] at hp
  | inf s => simp [ieee.value] at hp
  | zero s =>
    simp only [ieee.value, Option.some.injEq] at hp
    subst hp
    cases c with
    | nan => simp [ieee.value] at hc
    | inf t => simp [ieee.value] at hc
    | zero t => simp [ieee.value] at hc
    | num w =>
      simp only [ieee.value, Option.some.injEq] at hc
      subst hc
      simpa [ieee_arith, ieee.neg, ieee.add] using h1
  | num a =>
    simp only [ieee.value, Option.some.injEq] at hp
    subst hp
    cases c with
    | nan => simp [ieee.value] at hc
    | inf t => simp [ieee.value] at hc
    | zero t =>
      simp only [ieee.value, Option.some.injEq] at hc
      have ha : a = 1 := by linarith
      subst ha
      simpa [ieee_arith, ieee.neg, ieee.add] using h1
    | num w =>
      simp only [ieee.value, Option.some.injEq] at hc
      subst hc
      simpa [ieee_arith, ieee.neg, ieee.add] using h1

theorem fsub_self (y : ieee) (v : ℚ) (hy : y.value = some v) :
    ieee_arith.fsub y y = .zero false := by
  cases y with
  | nan => simp [ieee.value] at hy
  | inf s => simp [ieee.value] at hy
  | zero s => cases s <;> rfl
  | num a =>
    have : ieee.add round32 (ieee.num a) (ieee.num (-a)) = round32 (a + -a) := rfl
    simp only [ieee_arith, ieee.neg, this, add_neg_cancel]
    decide!

theorem roll_update_first :
    roll_update ieee_arith (.zero false) (ieee_arith.to_float (ieee_arith.d_lit 0))
      = .zero false := by
  decide!

theorem add_roll_loop_steps (n : Nat) : ∀ (rest : List (block ieee)) (p : ieee) (j : Nat),
    yaw_steps n p rest → ∀ i, i < n →
      ((add_roll_loop ieee_arith rest p (roll_traj j))[i]?).map (fun blk => blk.angles2)
        = some (roll_traj (j + 1 + i)) := by
  induction n with
  | zero => intro rest p j _ i hi; exact absurd hi (Nat.not_lt_zero _)
  | succ n ih =>
    intro rest p j hs i hi
    cases rest with
    | nil => exact absurd hs (by simp [yaw_steps])
    | cons blk rest =>
      obtain ⟨⟨v, hp, hc⟩, hrest⟩ := hs
      have hz : roll_update ieee_arith (ieee_arith.fsub p blk.angles1) (roll_traj j)
          = roll_traj (j + 1) := by
        rw [fsub_step p blk.angles1 v hp hc]
        rfl
      simp only [add_roll_loop, hz]
      cases i with
      | zero => simp
      | succ i =>
        have := ih rest blk.angles1 (j + 1) hrest i (by omega)
        simp only [List.getElem?_cons_succ]
        rw [this]
        congr 2
        omega

theorem yaw_steps_of_yaw_at (n : Nat) : ∀ (blk : block ieee) (rest : List (block ieee)),
    (∀ k, k < n → ∃ v, yaw_at (blk :: rest) k = some v ∧ yaw_at (blk :: rest) (k + 1) = some (v - 1)) →
    yaw_steps n blk.angles1 rest := by
  induction n with
  | zero => intro blk rest _; trivial
  | succ n ih =>
    intro blk rest h
    obtain ⟨v, h0, h1⟩ := h 0 (by omega)
    cases rest with
    | nil => simp [yaw_at] at h1
    | cons b2 rest =>
      refine ⟨⟨v, by simpa [yaw_at] using h0, by simpa [yaw_at] using h1⟩, ?_⟩
      apply ih
      intro k hk
      obtain ⟨w, hw0, hw1⟩ := h (k + 1) (by omega)
      exact ⟨w, by simpa [yaw_at] using hw0, by simpa [yaw_at] using hw1⟩

/-- Under IEEE 754 arithmetic, when the yaw goes down by exactly 1 degree from each record
to the next over the first `n` steps, `add_roll` writes `roll_traj k` to record `k`. -/
theorem add_roll_on_ramp (n : Nat) (bs : List (block ieee))
    (h : ∀ k, k < n → ∃ v, yaw_at bs k = some v ∧ yaw_at bs (k + 1) = some (v - 1))
    (hn : 0 < n) (k : Nat) (hk : k ≤ n) :
    ((add_roll ieee_arith bs)[k]?).map (fun blk => blk.angles2) = some (roll_traj k) := by
  cases bs with
  | nil =>
    obtain ⟨v, h0, _⟩ := h 0 hn
    simp [yaw_at] at h0
  | cons blk rest =>
    have hs := yaw_steps_of_yaw_at n blk rest h
    obtain ⟨v, h0, _⟩ := h 0 hn
    have hv : blk.angles1.value = some v := by simpa [yaw_at] using h0
    have hz : roll_update ieee_arith (ieee_arith.fsub blk.angles1 blk.angles1)
        (ieee_arith.to_float (ieee_arith.d_lit 0)) = roll_traj 0 := by
      rw [fsub_self blk.angles1 v hv, roll_update_first]
      rfl
    simp only [add_roll, add_roll_loop, hz]
    cases k with
    | zero => simp
    | succ k =>
      have := add_roll_loop_steps n rest blk.angles1 0 hs k (by omega)
      simp only [List.getElem?_cons_succ]
      rw [this]
      congr 2
      omega

theorem roll_at_eq (bs : List (block ieee)) (k : Nat) (z : ieee)
    (h : (bs[k]?).map (fun blk => blk.angles2) = some z) :
    roll_at bs k = z.value.getD (-1000) := by
  unfold roll_at
  cases hb : bs[k]? with
  | none => simp [hb] at h
  | some blk =>
    simp only [hb, Option.map_some', Option.some.injEq] at h
    simp [h]

theorem roll_traj_values :
    ∀ k, k < 61 →
      ((roll_traj k).value.getD (-1000) ≤ 10) ∧
      (k = 0 → (roll_traj k).value.getD (-1000) = 0) ∧
      (1 ≤ k → k ≤ 50 → |(roll_traj k).value.getD (-1000) - 2 / 10 * (k : ℚ)| < 1 / 100000 ∧
        (roll_traj k).value.getD (-1000) < 10) ∧
      (51 ≤ k → (roll_traj k).value.getD (-1000) = 10) := by
  decide!

/-- C10 (as amended): under IEEE 754 arithmetic (`float` binary32, `double` binary64), for
every record list whose yaw goes down by exactly 1 degree from each record to the next
over 60 consecutive steps from the first record, `add_roll` writes roll 0 to the first
record; to the record after the k-th step, 1 ≤ k ≤ 50, a roll within 0.00001 of
`0.2 * k` and strictly below 10; and exactly 10 to the records after the 51st to 60th
step.  The roll is never above 10. -/
theorem roll_clamp_trajectory (bs : List (block ieee))
    (h : ∀ k, k < 60 → ∃ v, yaw_at bs k = some v ∧ yaw_at bs (k + 1) = some (v - 1)) :
    roll_at (add_roll ieee_arith bs) 0 = 0 ∧
      (∀ k, 1 ≤ k → k ≤ 50 →
        |roll_at (add_roll ieee_arith bs) k - 2 / 10 * (k : ℚ)| < 1 / 100000 ∧
        roll_at (add_roll ieee_arith bs) k < 10) ∧
      (∀ k, 51 ≤ k → k ≤ 60 → roll_at (add_roll ieee_arith bs) k = 10) ∧
      (∀ k, k ≤ 60 → roll_at (add_roll ieee_arith bs) k ≤ 10) := by
  have hr : ∀ k, k ≤ 60 →
      roll_at (add_roll ieee_arith bs) k = (roll_traj k).value.getD (-1000) := fun k hk =>
    roll_at_eq _ k _ (add_roll_on_ramp 60 bs h (by decide) k hk)
  refine ⟨?_, ?_, ?_, ?_⟩
  · rw [hr 0 (by decide)]
    exact (roll_traj_values 0 (by decide)).2.1 rfl
  · intro k h1 h2
    rw [hr k (by omega)]
    exact (roll_traj_values k (by omega)).2.2.1 h1 h2
  · intro k h1 h2
    rw [hr k h2]
    exact (roll_traj_values k (by omega)).2.2.2 h1
  · intro k hk
    rw [hr k hk]
    exact (roll_traj_values k (by omega)).1

theorem yaw_ramp_steps :
    ∀ k, k < 60 → yaw_at yaw_ramp k = some (60 - (k : ℚ)) ∧
      yaw_at yaw_ramp (k + 1) = some (60 - (k : ℚ) - 1) := by
  decide!

/-- Witness of `roll_clamp_trajectory`: the record list `yaw_ramp`. -/
theorem roll_clamp_trajectory_witness :
    roll_at (add_roll ieee_arith yaw_ramp) 0 = 0 ∧
      (∀ k, 1 ≤ k → k ≤ 50 →
        |roll_at (add_roll ieee_arith yaw_ramp) k - 2 / 10 * (k : ℚ)| < 1 / 100000 ∧
        roll_at (add_roll ieee_arith yaw_ramp) k < 10) ∧
      (∀ k, 51 ≤ k → k ≤ 60 → roll_at (add_roll ieee_arith yaw_ramp) k = 10) ∧
      (∀ k, k ≤ 60 → roll_at (add_roll ieee_arith yaw_ramp) k ≤ 10) :=
  roll_clamp_trajectory yaw_ramp (fun k hk =>
    ⟨60 - (k : ℚ), (yaw_ramp_steps k hk).1, (yaw_ramp_steps k hk).2⟩)

/-- C10 (counterexample): on `yaw_ramp`, whose yaw goes down from 60 by exactly 1 degree per
record, the roll written after the first step is the `float` nearest to 0.2 and not 0.2,
and the roll written after the 50th step is 9.99999523162841796875, not
`min (0.2 * 50) 10 = 10`. -/
theorem roll_clamp_not_exact :
    (∀ k, k < 60 → yaw_at yaw_ramp k = some (60 - (k : ℚ)) ∧
      yaw_at yaw_ramp (k + 1) = some (60 - (k : ℚ) - 1)) ∧
    roll_at (add_roll ieee_arith yaw_ramp) 1 = 13421773 / 67108864 ∧
    roll_at (add_roll ieee_arith yaw_ramp) 1 ≠ min (2 / 10 * 1) 10 ∧
    roll_at (add_roll ieee_arith yaw_ramp) 50 = 10485755 / 1048576 ∧
    roll_at (add_roll ieee_arith yaw_ramp) 50 ≠ min (2 / 10 * 50) 10 := by
  decide!

end Demsmooth

namespace Demsmooth

/-! ## Lemmas on the writes of a camera pass -/

theorem length_modify_nth {α : Type} (f : α → α) (l : List α) (i : Nat) :
    (modify_nth f l i).length = l.length := by
  induction l generalizing i with
  | nil => rfl
  | cons a l ih =>
    cases i with
    | zero => rfl
    | succ i => simp [modify_nth, ih]

theorem getElem?_modify_nth {α : Type} (f : α → α) (l : List α) (i j : Nat) :
    (modify_nth f l i)[j]? = if j = i then (l[j]?).map f else l[j]? := by
  induction l generalizing i j with
  | nil => simp [modify_nth]
  | cons a l ih =>
    cases i with
    | zero =>
      cases j with
      | zero => simp [modify_nth]
      | succ j => simp [modify_nth]
    | succ i =>
      cases j with
      | zero => simp [modify_nth]
      | succ j => simp [modify_nth, ih]

theorem drop_modify_nth {α : Type} (f : α → α) (l : List α) (i : Nat) :
    (modify_nth f l i).drop (i + 1) = l.drop (i + 1) := by
  induction l generalizing i with
  | nil => simp [modify_nth]
  | cons a l ih =>
    cases i with
    | zero => simp [modify_nth]
    | succ i => simp [modify_nth, ih]

/-- The records `0 .. k` of a list are untimed. -/
theorem getElem?_fill_untimed {F : Type} (TIME : Nat) (w : block F → block F)
    (l : List (block F)) (k : Nat) :
    ((∀ i blk, i ≤ k → l[i]? = some blk → block_is_timed TIME blk = false) →
      (fill_untimed TIME w l)[k]? = (l[k]?).map w) ∧
    ((¬ ∀ i blk, i ≤ k → l[i]? = some blk → block_is_timed TIME blk = false) →
      (fill_untimed TIME w l)[k]? = l[k]?) := by
  induction l generalizing k with
  | nil => simp [fill_untimed]
  | cons a l ih =>
    by_cases ha : block_is_timed TIME a = true
    · have hno : ¬ ∀ i blk, i ≤ k → (a :: l)[i]? = some blk → block_is_timed TIME blk = false := by
        intro h
        have := h 0 a (Nat.zero_le _) (by simp)
        rw [ha] at this
        exact absurd this (by simp)
      simp only [fill_untimed, ha, if_true]
      exact ⟨fun h => absurd h hno, fun _ => trivial⟩
    · have ha2 : block_is_timed TIME a = false := by simpa using ha
      simp only [fill_untimed, ha2, Bool.false_eq_true, if_false]
      cases k with
      | zero =>
        have hyes : ∀ i blk, i ≤ 0 → (a :: l)[i]? = some blk → block_is_timed TIME blk = false := by
          intro i blk hi hget
          have hi0 : i = 0 := by omega
          subst hi0
          simp only [List.getElem?_cons_zero, Option.some.injEq] at hget
          rw [← hget]
          exact ha2
        exact ⟨fun _ => by simp, fun h => absurd hyes h⟩
      | succ k =>
        simp only [List.getElem?_cons_succ]
        have hiff : (∀ i blk, i ≤ k → l[i]? = some blk → block_is_timed TIME blk = false) ↔
            (∀ i blk, i ≤ k + 1 → (a :: l)[i]? = some blk →
              block_is_timed TIME blk = false) := by
          constructor
          · intro h i blk hi hget
            cases i with
            | zero =>
              simp only [List.getElem?_cons_zero, Option.some.injEq] at hget
              rw [← hget]
              exact ha2
            | succ i => exact h i blk (by omega) (by simpa using hget)
          · intro h i blk hi hget
            exact h (i + 1) blk (by omega) (by simpa using hget)
        exact ⟨fun h => (ih k).1 (hiff.mpr h), fun h => (ih k).2 (fun h2 => h (hiff.mp h2))⟩

theorem getElem?_write_center {F : Type} (TIME : Nat)
    (w : block F → block F) (bs : List (block F)) (c j : Nat) (hc : c < bs.length) :
    (follows TIME bs c j → (write_center TIME w bs c)[j]? = (bs[j]?).map w) ∧
    (¬ follows TIME bs c j → (write_center TIME w bs c)[j]? = bs[j]?) := by
  unfold write_center follows
  have hlen : ((modify_nth w bs c).take (c + 1)).length = c + 1 := by
    rw [List.length_take, length_modify_nth]
    omega
  by_cases hj : j < c + 1
  · rw [List.getElem?_append_left (by omega), List.getElem?_take_of_lt hj, getElem?_modify_nth]
    by_cases hjc : j = c
    · subst hjc
      rw [if_pos rfl]
      exact ⟨fun _ => rfl, fun h => absurd ⟨le_refl _, fun i blk h1 h2 => absurd h1 (by omega)⟩ h⟩
    · rw [if_neg hjc]
      exact ⟨fun h => by omega, fun _ => rfl⟩
  · rw [List.getElem?_append_right (by omega), hlen, drop_modify_nth]
    have e : ∀ k, (bs.drop (c + 1))[k]? = bs[c + 1 + k]? := fun k => List.getElem?_drop bs (c + 1) k
    have hiff : (∀ i blk, i ≤ j - (c + 1) → (bs.drop (c + 1))[i]? = some blk →
        block_is_timed TIME blk = false) ↔
        (c ≤ j ∧ ∀ i blk, c < i → i ≤ j → bs[i]? = some blk →
          block_is_timed TIME blk = false) := by
      constructor
      · intro h
        refine ⟨by omega, fun i blk h1 h2 hget => ?_⟩
        apply h (i - (c + 1)) blk (by omega)
        rw [e]
        rw [← hget]
        congr 1
        omega
      · intro h i blk hi hget
        rw [e] at hget
        exact h.2 (c + 1 + i) blk (by omega) (by omega) hget
    have e2 : (bs.drop (c + 1))[j - (c + 1)]? = bs[j]? := by
      rw [e]
      congr 1
      omega
    have := getElem?_fill_untimed TIME w (bs.drop (c + 1)) (j - (c + 1))
    rw [e2] at this
    exact ⟨fun h => this.1 (hiff.mpr h), fun h => this.2 (fun h2 => h (hiff.mp h2))⟩

/-! ## Counting records -/

theorem count_upto_split {α : Type} (p : α → Bool) (l : List α) (i j : Nat) (h : i ≤ j) :
    count_upto p l j = count_upto p l i + (((l.take (j + 1)).drop (i + 1)).filter p).length := by
  unfold count_upto
  have e : l.take (j + 1) = l.take (i + 1) ++ (l.take (j + 1)).drop (i + 1) := by
    have := (List.take_append_drop (i + 1) (l.take (j + 1))).symm
    rw [List.take_take, Nat.min_eq_left (by omega)] at this
    exact this
  conv_lhs => rw [e]
  rw [List.filter_append, List.length_append]

theorem count_upto_mono {α : Type} (p : α → Bool) (l : List α) (i j : Nat) (h : i ≤ j) :
    count_upto p l i ≤ count_upto p l j := by
  rw [count_upto_split p l i j h]
  omega

theorem count_upto_lt {α : Type} (p : α → Bool) (l : List α) (i j : Nat) (a : α) (h : i < j)
    (hget : l[j]? = some a) (hp : p a = true) :
    count_upto p l i + 1 ≤ count_upto p l j := by
  rw [count_upto_split p l i j (by omega)]
  have hmem : a ∈ ((l.take (j + 1)).drop (i + 1)).filter p := by
    rw [List.mem_filter]
    refine ⟨?_, hp⟩
    apply List.getElem?_mem (n := j - (i + 1))
    rw [List.getElem?_drop, List.getElem?_take_of_lt (by omega), ← hget]
    congr 1
    omega
  have := List.length_pos_of_mem hmem
  omega

theorem count_upto_pos {α : Type} (p : α → Bool) (l : List α) (j : Nat) (a : α)
    (hget : l[j]? = some a) (hp : p a = true) : 1 ≤ count_upto p l j := by
  unfold count_upto
  have hmem : a ∈ (l.take (j + 1)).filter p := by
    rw [List.mem_filter]
    refine ⟨?_, hp⟩
    apply List.getElem?_mem (n := j)
    rw [List.getElem?_take_of_lt (by omega), hget]
  exact List.length_pos_of_mem hmem

/-- The `k`-th element of a list of positions that increase and all have the property `p`
has at least `k + 1` elements with the property up to it. -/
theorem count_upto_of_increasing {α β : Type} (p : α → Bool) (l : List α) (pos : β → Nat)
    (h : List β) (hinc : h.Pairwise (fun a a2 => pos a < pos a2))
    (hp : ∀ a ∈ h, ∃ x, l[pos a]? = some x ∧ p x = true) :
    ∀ k a, h[k]? = some a → k + 1 ≤ count_upto p l (pos a) := by
  intro k
  induction k with
  | zero =>
    intro a ha
    obtain ⟨x, hx, hpx⟩ := hp a (List.getElem?_mem ha)
    exact count_upto_pos p l (pos a) x hx hpx
  | succ k ih =>
    intro a ha
    have hk : k + 1 < h.length := (List.getElem?_eq_some_iff.mp ha).1
    have ha2 : h[k + 1] = a := (List.getElem?_eq_some_iff.mp ha).2
    have hprev := ih h[k] (List.getElem?_eq_getElem (by omega))
    obtain ⟨x, hx, hpx⟩ := hp a (List.getElem?_mem ha)
    have hlt : pos h[k] < pos a := by
      rw [← ha2]
      exact List.pairwise_iff_getElem.mp hinc k (k + 1) (by omega) hk (by omega)
    have := count_upto_lt p l (pos h[k]) (pos a) x hlt hx hpx
    omega

/-! ## `get_next_angle` -/

theorem scan_timed_some {F : Type} (TIME : Nat) (l : List (block F)) (b : Nat) (a : angle_info F)
    (h : scan_timed TIME l b = some a) :
    ∃ i blk, a.b = b + i ∧ l[i]? = some blk ∧ block_is_timed TIME blk = true ∧
      (∀ i2 blk2, i2 < i → l[i2]? = some blk2 → block_is_timed TIME blk2 = false) := by
  induction l generalizing b with
  | nil => simp [scan_timed] at h
  | cons blk rest ih =>
    simp only [scan_timed] at h
    by_cases ht : block_is_timed TIME blk = true
    · rw [if_pos ht] at h
      simp only [Option.some.injEq] at h
      subst h
      exact ⟨0, blk, rfl, by simp, ht, fun i2 blk2 hlt => absurd hlt (Nat.not_lt_zero _)⟩
    · rw [if_neg ht] at h
      obtain ⟨i, blk1, hb, hget, htimed, hfirst⟩ := ih (b + 1) h
      refine ⟨i + 1, blk1, by omega, by simpa using hget, htimed, ?_⟩
      intro i2 blk2 hlt hget2
      cases i2 with
      | zero =>
        simp only [List.getElem?_cons_zero, Option.some.injEq] at hget2
        subst hget2
        simpa using ht
      | succ i2 => exact hfirst i2 blk2 (by omega) (by simpa using hget2)

theorem get_next_angle_some {F : Type} (TIME : Nat) (mem : List (block F)) (s : Nat)
    (a : angle_info F) (h : get_next_angle TIME mem s = some a) :
    s ≤ a.b ∧ (∃ blk, mem[a.b]? = some blk ∧ block_is_timed TIME blk = true) ∧
      (∀ i blk, s ≤ i → i < a.b → mem[i]? = some blk → block_is_timed TIME blk = false) := by
  unfold get_next_angle at h
  obtain ⟨i, blk, hb, hget, htimed, hfirst⟩ := scan_timed_some TIME _ s a h
  rw [List.getElem?_drop] at hget
  refine ⟨by omega, ⟨blk, by rw [hb]; exact hget, htimed⟩, ?_⟩
  intro i2 blk2 h1 h2 hget2
  apply hfirst (i2 - s) blk2 (by omega)
  rw [List.getElem?_drop, ← hget2]
  congr 1
  omega

/-! ## Record lists with the same messages -/

theorem block_is_timed_congr {F : Type} (TIME : Nat) (blk blk2 : block F)
    (h : blk.messages = blk2.messages) : block_is_timed TIME blk = block_is_timed TIME blk2 := by
  unfold block_is_timed
  rw [h]

theorem same_msgs_getElem? {F : Type} (bs mem : List (block F)) (h : same_msgs bs mem) (i : Nat) :
    (mem[i]?).map (fun blk => blk.messages) = (bs[i]?).map (fun blk => blk.messages) := by
  unfold same_msgs at h
  rw [← List.getElem?_map, ← List.getElem?_map, h]

theorem same_msgs_length {F : Type} (bs mem : List (block F)) (h : same_msgs bs mem) :
    mem.length = bs.length := by
  unfold same_msgs at h
  have := congrArg List.length h
  simpa using this

theorem same_msgs_timed {F : Type} (TIME : Nat) (bs mem : List (block F)) (h : same_msgs bs mem)
    (i : Nat) (blk : block F) (hget : mem[i]? = some blk) :
    ∃ blk0, bs[i]? = some blk0 ∧ block_is_timed TIME blk0 = block_is_timed TIME blk := by
  have := same_msgs_getElem? bs mem h i
  rw [hget] at this
  cases hb : bs[i]? with
  | none => simp [hb] at this
  | some blk0 =>
    rw [hb] at this
    simp only [Option.map_some', Option.some.injEq] at this
    exact ⟨blk0, rfl, block_is_timed_congr TIME blk0 blk this.symm⟩

theorem same_msgs_symm {F : Type} (bs mem : List (block F)) (h : same_msgs bs mem) :
    same_msgs mem bs := by
  unfold same_msgs at *
  exact h.symm

theorem follows_congr {F : Type} (TIME : Nat) (bs mem : List (block F)) (h : same_msgs bs mem)
    (c j : Nat) : follows TIME mem c j ↔ follows TIME bs c j := by
  unfold follows
  constructor
  · rintro ⟨h1, h2⟩
    refine ⟨h1, fun i blk hc hj hget => ?_⟩
    obtain ⟨blk0, hget0, ht⟩ := same_msgs_timed TIME mem bs (same_msgs_symm bs mem h) i blk hget
    rw [← ht]
    exact h2 i blk0 hc hj hget0
  · rintro ⟨h1, h2⟩
    refine ⟨h1, fun i blk hc hj hget => ?_⟩
    obtain ⟨blk0, hget0, ht⟩ := same_msgs_timed TIME bs mem h i blk hget
    rw [← ht]
    exact h2 i blk0 hc hj hget0

end Demsmooth

namespace Demsmooth

/-! ## The invariant of the camera passes -/

theorem fill_angles_ok {F : Type} (TIME : Nat) (bs mem : List (block F))
    (hsm : same_msgs bs mem) (n : Nat) :
    ∀ (b_start : Nat) (h h2 : List (angle_info F)),
      fill_angles TIME mem n b_start h = some h2 →
      hist_ok TIME bs h → (∀ a ∈ h, a.b < b_start) →
      hist_ok TIME bs h2 ∧ (∀ a ∈ h2, a ∈ h ∨ b_start ≤ a.b) := by
  induction n with
  | zero =>
    intro b_start h h2 hfill hok _
    simp only [fill_angles, Option.some.injEq] at hfill
    subst hfill
    exact ⟨hok, fun a ha => Or.inl ha⟩
  | succ n ih =>
    intro b_start h h2 hfill hok hlt
    simp only [fill_angles] at hfill
    by_cases hb : b_start < mem.length
    · rw [if_pos hb] at hfill
      cases hg : get_next_angle TIME mem b_start with
      | none => rw [hg] at hfill; exact absurd hfill (by simp)
      | some a =>
        rw [hg] at hfill
        obtain ⟨hle, ⟨blk, hget, htimed⟩, _⟩ := get_next_angle_some TIME mem b_start a hg
        obtain ⟨blk0, hget0, ht0⟩ := same_msgs_timed TIME bs mem hsm a.b blk hget
        have hok2 : hist_ok TIME bs (h ++ [a]) := by
          refine ⟨?_, ?_⟩
          · rw [List.pairwise_append]
            refine ⟨hok.1, List.pairwise_singleton _ _, ?_⟩
            intro x hx y hy
            simp only [List.mem_singleton] at hy
            subst hy
            exact lt_of_lt_of_le (hlt x hx) hle
          · intro x hx
            rw [List.mem_append, List.mem_singleton] at hx
            rcases hx with hx | hx
            · exact hok.2 x hx
            · subst hx
              exact ⟨blk0, hget0, by rw [ht0]; exact htimed⟩
        have hlt2 : ∀ x ∈ h ++ [a], x.b < a.b + 1 := by
          intro x hx
          rw [List.mem_append, List.mem_singleton] at hx
          rcases hx with hx | hx
          · have := hlt x hx
            omega
          · subst hx
            omega
        obtain ⟨r1, r2⟩ := ih (a.b + 1) (h ++ [a]) h2 hfill hok2 hlt2
        refine ⟨r1, fun x hx => ?_⟩
        rcases r2 x hx with hm | hm
        · rw [List.mem_append, List.mem_singleton] at hm
          rcases hm with hm | hm
          · exact Or.inl hm
          · subst hm
            exact Or.inr hle
        · exact Or.inr (by omega)
    · rw [if_neg hb] at hfill
      simp only [Option.some.injEq] at hfill
      subst hfill
      exact ⟨hok, fun a ha => Or.inl ha⟩

theorem mem_ok_write {F : Type} (TIME : Nat) (bs mem : List (block F))
    (past : List (Nat × (block F → block F))) (c : Nat) (w : block F → block F)
    (hmem : mem_ok TIME bs past mem) (hfront : ∀ c2 w2, (c2, w2) ∈ past → c2 < c)
    (htimed : ∃ blk, bs[c]? = some blk ∧ block_is_timed TIME blk = true)
    (hcount : CAMERA_SMOOTH_CURRENT + 1 ≤ timed_count TIME bs c)
    (hw : ∀ blk, (w blk).messages = blk.messages) :
    mem_ok TIME bs (past ++ [(c, w)]) (write_center TIME w mem c) := by
  obtain ⟨hsm, hreg, hcent⟩ := hmem
  obtain ⟨cblk, hcget, hctimed⟩ := htimed
  have hclt : c < mem.length := by
    rw [same_msgs_length bs mem hsm]
    exact (List.getElem?_eq_some_iff.mp hcget).1
  have hwr := fun j => getElem?_write_center TIME w mem c j hclt
  have hnot : ∀ c2 w2 j, (c2, w2) ∈ past → follows TIME bs c2 j → ¬ follows TIME bs c j := by
    intro c2 w2 j hin hf2 hf
    have hlt := hfront c2 w2 hin
    have := hf2.2 c cblk hlt hf.1 hcget
    rw [hctimed] at this
    exact absurd this (by simp)
  refine ⟨?_, ?_, ?_⟩
  · unfold same_msgs
    apply List.ext_getElem?
    intro j
    rw [List.getElem?_map, List.getElem?_map, ← same_msgs_getElem? bs mem hsm j]
    by_cases hf : follows TIME mem c j
    · rw [(hwr j).1 hf]
      cases mem[j]? with
      | none => rfl
      | some blk => simp [hw]
    · rw [(hwr j).2 hf]
  · intro j
    constructor
    · intro c2 w2 hin hf
      rw [List.mem_append, List.mem_singleton] at hin
      rcases hin with hin | hin
      · have hn : ¬ follows TIME mem c j := fun h =>
          hnot c2 w2 j hin hf ((follows_congr TIME bs mem hsm c j).mp h)
        rw [(hwr j).2 hn]
        exact (hreg j).1 c2 w2 hin hf
      · simp only [Prod.mk.injEq] at hin
        obtain ⟨rfl, rfl⟩ := hin
        rw [(hwr j).1 ((follows_congr TIME bs mem hsm c2 j).mpr hf)]
        rw [(hreg j).2 (fun c3 w3 hin3 hf3 => hnot c3 w3 j hin3 hf3 hf)]
    · intro hno
      have hn : ¬ follows TIME mem c j := fun h =>
        hno c w (by simp) ((follows_congr TIME bs mem hsm c j).mp h)
      rw [(hwr j).2 hn]
      exact (hreg j).2 (fun c2 w2 hin => hno c2 w2 (by simp [hin]))
  · intro c2 w2 hin
    rw [List.mem_append, List.mem_singleton] at hin
    rcases hin with hin | hin
    · exact hcent c2 w2 hin
    · simp only [Prod.mk.injEq] at hin
      obtain ⟨rfl, rfl⟩ := hin
      exact ⟨⟨cblk, hcget, hctimed⟩, hcount⟩

theorem hist_le_of_index {F : Type} (h : List (angle_info F))
    (hinc : h.Pairwise (fun a a2 => a.b < a2.b)) (k k2 : Nat) (a a2 : angle_info F)
    (hk : h[k]? = some a) (hk2 : h[k2]? = some a2) :
    (k < k2 → a.b < a2.b) ∧ (k ≤ k2 → a.b ≤ a2.b) := by
  obtain ⟨h1, e1⟩ := List.getElem?_eq_some_iff.mp hk
  obtain ⟨h2, e2⟩ := List.getElem?_eq_some_iff.mp hk2
  have hlt : k < k2 → a.b < a2.b := by
    intro hlt
    rw [← e1, ← e2]
    exact List.pairwise_iff_getElem.mp hinc k k2 h1 h2 hlt
  refine ⟨hlt, fun hle => ?_⟩
  rcases Nat.lt_or_eq_of_le hle with h3 | h3
  · exact le_of_lt (hlt h3)
  · subst h3
    rw [hk] at hk2
    simp only [Option.some.injEq] at hk2
    rw [hk2]

theorem hist_ok_tail {F : Type} (TIME : Nat) (bs : List (block F)) (h : List (angle_info F))
    (hok : hist_ok TIME bs h) : hist_ok TIME bs h.tail :=
  ⟨List.Pairwise.sublist (List.tail_sublist h) hok.1,
    fun a ha => hok.2 a (List.mem_of_mem_tail ha)⟩

theorem hist_ok_slide {F : Type} (TIME : Nat) (bs : List (block F)) (h : List (angle_info F))
    (last fut : angle_info F) (hok : hist_ok TIME bs h) (hlast : h.getLast? = some last)
    (hlt : last.b < fut.b) (htimed : ∃ blk, bs[fut.b]? = some blk ∧ block_is_timed TIME blk = true) :
    hist_ok TIME bs (h.tail ++ [fut]) := by
  have hlast2 : h[h.length - 1]? = some last := by rw [← List.getLast?_eq_getElem?]; exact hlast
  refine ⟨?_, ?_⟩
  · rw [List.pairwise_append]
    refine ⟨(hist_ok_tail TIME bs h hok).1, List.pairwise_singleton _ _, ?_⟩
    intro x hx y hy
    simp only [List.mem_singleton] at hy
    subst hy
    obtain ⟨k, hk⟩ := List.getElem?_of_mem (List.mem_of_mem_tail hx)
    have hk1 := (List.getElem?_eq_some_iff.mp hk).1
    have := (hist_le_of_index h hok.1 k (h.length - 1) x last hk hlast2).2 (by omega)
    omega
  · intro x hx
    rw [List.mem_append, List.mem_singleton] at hx
    rcases hx with hx | hx
    · exact hok.2 x (List.mem_of_mem_tail hx)
    · subst hx
      exact htimed

/-- Every transition of a camera pass keeps the invariant, with the centre it writes
added to the writes made so far. -/
theorem camera_step_inv {F : Type} (TIME : Nat) (agg : List (angle_info F) → block F → block F)
    (hagg : ∀ h blk, (agg h blk).messages = blk.messages) (bs : List (block F))
    (past : List (Nat × (block F → block F))) (s : camera_state F)
    (hinv : camera_inv TIME bs past s) :
    camera_inv TIME bs (past ++ camera_center agg s) (camera_step TIME agg s) := by
  cases s with
  | finish mem => simpa [camera_center, camera_step, camera_inv] using hinv
  | undef mem => simpa [camera_center, camera_step, camera_inv] using hinv
  | restart mem b_start =>
    obtain ⟨hmem, hfront⟩ := hinv
    simp only [camera_center, List.append_nil, camera_step]
    cases hf : fill_angles TIME mem CAMERA_SMOOTH_HISTORY_SIZE b_start [] with
    | none => exact hmem
    | some h2 =>
      obtain ⟨hok, hge⟩ := fill_angles_ok TIME bs mem hmem.1 _ b_start [] h2 hf
        ⟨List.Pairwise.nil, fun a ha => absurd ha (List.not_mem_nil a)⟩
        (fun a ha => absurd ha (List.not_mem_nil a))
      have hge2 : ∀ a ∈ h2, b_start ≤ a.b := fun a ha => by
        rcases hge a ha with h0 | h0
        · exact absurd h0 (List.not_mem_nil a)
        · exact h0
      refine ⟨hmem, hok, fun c w hin => ⟨fun k a _ hk => ?_, fun a ha => ?_⟩⟩
      · have := hge2 a (List.getElem?_mem hk)
        have := hfront c w hin
        omega
      · have := hge2 a (List.mem_of_mem_getLast? ha)
        have := hfront c w hin
        omega
  | steady mem h =>
    obtain ⟨hmem, hok, hfront⟩ := hinv
    by_cases hsize : h.length < CAMERA_SMOOTH_CURRENT + 1
    · simp only [camera_center, camera_step, if_pos hsize, List.append_nil]
      cases hl : h.getLast? with
      | none => exact hmem
      | some last =>
        exact ⟨hmem, fun c w hin => Nat.lt_succ_of_le ((hfront c w hin).2 last hl)⟩
    · simp only [camera_center, camera_step, if_neg hsize]
      have hlen : CAMERA_SMOOTH_CURRENT < h.length := by omega
      have hcur : h[CAMERA_SMOOTH_CURRENT]? = some h[CAMERA_SMOOTH_CURRENT] :=
        List.getElem?_eq_getElem hlen
      obtain ⟨last, hlast⟩ : ∃ last, h.getLast? = some last := by
        rw [List.getLast?_eq_getElem?]
        exact ⟨h[h.length - 1], List.getElem?_eq_getElem (by omega)⟩
      have hlast2 : h[h.length - 1]? = some last := by
        rw [← List.getLast?_eq_getElem?]; exact hlast
      generalize hcdef : h[CAMERA_SMOOTH_CURRENT] = cur at hcur
      rw [hcur, hlast]
      simp only
      have hcl : cur.b ≤ last.b :=
        (hist_le_of_index h hok.1 _ _ cur last hcur hlast2).2 (by omega)
      have hctimed := hok.2 cur (List.getElem?_mem hcur)
      have hcount : CAMERA_SMOOTH_CURRENT + 1 ≤ timed_count TIME bs cur.b :=
        count_upto_of_increasing (block_is_timed TIME) bs (fun (a : angle_info F) => a.b) h
          hok.1 hok.2 CAMERA_SMOOTH_CURRENT cur hcur
      have hmem2 := mem_ok_write TIME bs mem past cur.b (agg h) hmem
        (fun c2 w2 hin => (hfront c2 w2 hin).1 CAMERA_SMOOTH_CURRENT cur (le_refl _) hcur)
        hctimed hcount (hagg h)
      have htail : ∀ k a, h.tail[k]? = some a → h[k + 1]? = some a := fun k a hk => by
        rw [← List.getElem?_tail]; exact hk
      have hfront_tail : ∀ c w, (c, w) ∈ past ++ [(cur.b, agg h)] →
          (∀ k a, CAMERA_SMOOTH_CURRENT ≤ k → h.tail[k]? = some a → c < a.b) ∧ c ≤ last.b := by
        intro c w hin
        rw [List.mem_append, List.mem_singleton] at hin
        rcases hin with hin | hin
        · exact ⟨fun k a hk hget => (hfront c w hin).1 (k + 1) a (by omega) (htail k a hget),
            (hfront c w hin).2 last hlast⟩
        · simp only [Prod.mk.injEq] at hin
          obtain ⟨rfl, rfl⟩ := hin
          exact ⟨fun k a hk hget =>
            (hist_le_of_index h hok.1 _ _ cur a hcur (htail k a hget)).1 (by omega), hcl⟩
      have hlast_tail : ∀ a, h.tail.getLast? = some a → a = last := by
        intro a ha
        rw [List.getLast?_eq_getElem?, List.getElem?_tail, List.length_tail] at ha
        have e : h.length - 1 - 1 + 1 = h.length - 1 := by
          unfold CAMERA_SMOOTH_CURRENT CAMERA_SMOOTH_SIZE at hlen
          omega
        rw [e, hlast2] at ha
        simp only [Option.some.injEq] at ha
        exact ha.symm
      cases hg : get_next_angle TIME (write_center TIME (agg h) mem cur.b) (last.b + 1) with
      | none =>
        refine ⟨hmem2, hist_ok_tail TIME bs h hok, fun c w hin => ⟨(hfront_tail c w hin).1, ?_⟩⟩
        intro a ha
        rw [hlast_tail a ha]
        exact (hfront_tail c w hin).2
      | some fut =>
        obtain ⟨hle, ⟨blk, hget, htimed⟩, _⟩ := get_next_angle_some TIME _ (last.b + 1) fut hg
        obtain ⟨blk0, hget0, ht0⟩ := same_msgs_timed TIME bs _ hmem2.1 fut.b blk hget
        refine ⟨hmem2, hist_ok_slide TIME bs h last fut hok hlast (by omega)
          ⟨blk0, hget0, by rw [ht0]; exact htimed⟩, fun c w hin => ⟨?_, ?_⟩⟩
        · intro k a hk hget2
          rw [List.getElem?_append] at hget2
          by_cases hkl : k < h.tail.length
          · rw [if_pos hkl] at hget2
            exact (hfront_tail c w hin).1 k a hk hget2
          · rw [if_neg hkl] at hget2
            have ha : a = fut := by
              have hm := List.getElem?_mem hget2
              simpa using hm
            rw [ha]
            have := (hfront_tail c w hin).2
            omega
        · intro a ha
          rw [List.getLast?_concat] at ha
          simp only [Option.some.injEq] at ha
          rw [← ha]
          have := (hfront_tail c w hin).2
          omega

theorem camera_run_inv {F : Type} (TIME : Nat) (agg : List (angle_info F) → block F → block F)
    (hagg : ∀ h blk, (agg h blk).messages = blk.messages) (bs : List (block F)) (n : Nat) :
    ∀ (past : List (Nat × (block F → block F))) (s : camera_state F),
      camera_inv TIME bs past s →
      camera_inv TIME bs (camera_centers TIME agg n s past) (camera_run TIME agg n s) := by
  induction n with
  | zero =>
    intro past s hinv
    simpa [camera_centers, camera_run] using hinv
  | succ n ih =>
    intro past s hinv
    cases s with
    | finish mem => simpa [camera_centers, camera_run] using hinv
    | undef mem => simpa [camera_centers, camera_run] using hinv
    | restart mem b =>
      simp only [camera_centers, camera_run]
      exact ih _ _ (camera_step_inv TIME agg hagg bs past _ hinv)
    | steady mem h =>
      simp only [camera_centers, camera_run]
      exact ih _ _ (camera_step_inv TIME agg hagg bs past _ hinv)

theorem camera_inv_mem_ok {F : Type} (TIME : Nat) (bs : List (block F))
    (past : List (Nat × (block F → block F))) (s : camera_state F)
    (hinv : camera_inv TIME bs past s) : mem_ok TIME bs past (camera_result s).blocks := by
  cases s with
  | restart mem b => exact hinv.1
  | steady mem h => exact hinv.1
  | finish mem => exact hinv
  | undef mem => exact hinv

/-- The record list left by a camera pass is the input with the writes of its centres. -/
theorem camera_pass_mem_ok {F : Type} (TIME : Nat)
    (agg : List (angle_info F) → block F → block F)
    (hagg : ∀ h blk, (agg h blk).messages = blk.messages) (bs : List (block F)) :
    mem_ok TIME bs (pass_centers TIME agg bs) (camera_pass TIME agg bs).blocks := by
  have h0 : camera_inv TIME bs [] (camera_state.restart bs 0) := by
    refine ⟨⟨rfl, fun j => ⟨?_, fun _ => rfl⟩, ?_⟩, ?_⟩
    · intro c w hin
      exact absurd hin (List.not_mem_nil _)
    · intro c w hin
      exact absurd hin (List.not_mem_nil _)
    · intro c w hin
      exact absurd hin (List.not_mem_nil _)
  have := camera_run_inv TIME agg hagg bs (128 * (bs.length + 1)) [] _ h0
  exact camera_inv_mem_ok TIME bs _ _ this

theorem camera_pass_startup {F : Type} (TIME : Nat)
    (agg : List (angle_info F) → block F → block F)
    (hagg : ∀ h blk, (agg h blk).messages = blk.messages) (bs : List (block F)) (i : Nat)
    (hi : timed_count TIME bs i ≤ CAMERA_SMOOTH_SIZE) :
    (camera_pass TIME agg bs).blocks[i]? = bs[i]? := by
  obtain ⟨_, hreg, hcent⟩ := camera_pass_mem_ok TIME agg hagg bs
  apply (hreg i).2
  intro c w hin hf
  have h1 := (hcent c w hin).2
  have h2 : timed_count TIME bs c ≤ timed_count TIME bs i :=
    count_upto_mono (block_is_timed TIME) bs c i hf.1
  unfold CAMERA_SMOOTH_CURRENT at h1
  omega

theorem follows_unique {F : Type} (TIME : Nat) (bs : List (block F)) (c t j : Nat)
    (hc : ∃ blk, bs[c]? = some blk ∧ block_is_timed TIME blk = true)
    (ht : ∃ blk, bs[t]? = some blk ∧ block_is_timed TIME blk = true)
    (hfc : follows TIME bs c j) (hft : follows TIME bs t j) : c = t := by
  obtain ⟨cb, hcb, hct⟩ := hc
  obtain ⟨tb, htb, htt⟩ := ht
  rcases Nat.lt_trichotomy c t with h | h | h
  · have := hfc.2 t tb h hft.1 htb
    rw [htt] at this
    exact absurd this (by simp)
  · exact h
  · have := hft.2 c cb h hfc.1 hcb
    rw [hct] at this
    exact absurd this (by simp)

/-- Forward fill of a camera pass: a record that follows a written centre holds the
assignment made to the centre, and the records that follow a timed record that was
never a centre are as in the input. -/
theorem camera_pass_forward_fill {F : Type} (TIME : Nat)
    (agg : List (angle_info F) → block F → block F)
    (hagg : ∀ h blk, (agg h blk).messages = blk.messages) (bs : List (block F)) :
    (∀ c w, (c, w) ∈ pass_centers TIME agg bs → ∀ j, follows TIME bs c j →
      (camera_pass TIME agg bs).blocks[j]? = (bs[j]?).map w) ∧
    (∀ t blk, bs[t]? = some blk → block_is_timed TIME blk = true →
      (∀ w, (t, w) ∉ pass_centers TIME agg bs) → ∀ j, follows TIME bs t j →
      (camera_pass TIME agg bs).blocks[j]? = bs[j]?) := by
  obtain ⟨_, hreg, hcent⟩ := camera_pass_mem_ok TIME agg hagg bs
  refine ⟨fun c w hin j hf => (hreg j).1 c w hin hf, ?_⟩
  intro t blk hget htimed hnot j hf
  apply (hreg j).2
  intro c w hin hfc
  have := follows_unique TIME bs c t j (hcent c w hin).1 ⟨blk, hget, htimed⟩ hfc hf
  subst this
  exact hnot w hin

theorem camera_center_agg {F : Type} (agg : List (angle_info F) → block F → block F)
    (s : camera_state F) (c : Nat) (w : block F → block F) (hin : (c, w) ∈ camera_center agg s) :
    ∃ h, w = agg h := by
  cases s with
  | steady mem h =>
    simp only [camera_center] at hin
    split at hin
    · exact absurd hin (List.not_mem_nil _)
    · split at hin
      · simp only [List.mem_singleton, Prod.mk.injEq] at hin
        exact ⟨h, hin.2⟩
      · exact absurd hin (List.not_mem_nil _)
  | restart mem b => simp [camera_center] at hin
  | finish mem => simp [camera_center] at hin
  | undef mem => simp [camera_center] at hin

theorem camera_centers_agg {F : Type} (TIME : Nat)
    (agg : List (angle_info F) → block F → block F) (n : Nat) :
    ∀ (s : camera_state F) (acc : List (Nat × (block F → block F))),
      (∀ c w, (c, w) ∈ acc → ∃ h, w = agg h) →
      ∀ c w, (c, w) ∈ camera_centers TIME agg n s acc → ∃ h, w = agg h := by
  induction n with
  | zero => intro s acc hacc c w hin; exact hacc c w hin
  | succ n ih =>
    intro s acc hacc c w hin
    have hstep : ∀ c w, (c, w) ∈ acc ++ camera_center agg s → ∃ h, w = agg h := by
      intro c2 w2 hin2
      rw [List.mem_append] at hin2
      rcases hin2 with h2 | h2
      · exact hacc c2 w2 h2
      · exact camera_center_agg agg s c2 w2 h2
    cases s with
    | finish mem => exact hacc c w hin
    | undef mem => exact hacc c w hin
    | restart mem b => exact ih _ _ hstep c w hin
    | steady mem h => exact ih _ _ hstep c w hin

end Demsmooth

namespace Demsmooth

/-! ## Lemmas on the writes of the motion pass -/

theorem length_store_i16 {F : Type} (mem : List (block F)) (p : field_ptr) (v : Int) :
    (store_i16 mem p v).length = mem.length := by
  unfold store_i16
  exact length_modify_nth _ _ _

theorem getElem?_store_i16_ne {F : Type} (mem : List (block F)) (p : field_ptr) (v : Int)
    (i : Nat) (h : i ≠ p.b) : (store_i16 mem p v)[i]? = mem[i]? := by
  unfold store_i16
  rw [getElem?_modify_nth, if_neg h]

theorem length_store_opt {F : Type} (mem : List (block F)) (q : Option field_ptr) (v : Int) :
    (store_opt mem q v).length = mem.length := by
  cases q with
  | none => rfl
  | some p => exact length_store_i16 mem p v

theorem getElem?_store_opt_ne {F : Type} (mem : List (block F)) (q : Option field_ptr) (v : Int)
    (b i : Nat) (hq : ptr_in q b) (h : i ≠ b) : (store_opt mem q v)[i]? = mem[i]? := by
  cases q with
  | none => rfl
  | some p =>
    have := hq p rfl
    exact getElem?_store_i16_ne mem p v i (by omega)

theorem drop_eq_of_getElem? {α : Type} (l l2 : List α) (s : Nat)
    (h : ∀ i, s ≤ i → l[i]? = l2[i]?) : l.drop s = l2.drop s := by
  apply List.ext_getElem?
  intro k
  rw [List.getElem?_drop, List.getElem?_drop]
  exact h (s + k) (by omega)

theorem getElem?_of_drop_eq {α : Type} (l l2 : List α) (s i : Nat) (h : l.drop s = l2.drop s)
    (hi : s ≤ i) : l[i]? = l2[i]? := by
  have := congrArg (fun x => x[i - s]?) h
  simp only [List.getElem?_drop] at this
  have e : s + (i - s) = i := by omega
  rwa [e] at this

theorem drop_eq_mono {α : Type} (l l2 : List α) (s s2 : Nat) (h : l.drop s = l2.drop s)
    (hs : s ≤ s2) : l.drop s2 = l2.drop s2 :=
  drop_eq_of_getElem? l l2 s2 (fun i hi => getElem?_of_drop_eq l l2 s i h (by omega))

theorem get_next_location_congr {F : Type} (cs : Bool) (camera : Nat) (mem bs : List (block F))
    (s : Nat) (prev : Option location_info) (h : mem.drop s = bs.drop s) :
    get_next_location cs camera mem s prev = get_next_location cs camera bs s prev := by
  unfold get_next_location
  rw [h]

/-! ## `get_next_location` and the records with an update -/

theorem has_update_iff {F : Type} (cs : Bool) (blk : block F) :
    has_update cs blk = true ↔ ∃ m ∈ blk.messages, is_update_of cs 1 m := by
  unfold has_update
  rw [Option.isSome_iff_ne_none, ne_eq, scan_messages_eq_none_iff]
  push_neg
  rfl

theorem ptr_in_ite (c : Prop) [Decidable c] (b mi off : Nat) :
    ptr_in (if c then some ⟨b, mi, off⟩ else none) b := by
  intro q hq
  split at hq
  · simp only [Option.some.injEq] at hq
    rw [← hq]
  · exact absurd hq (by simp)

theorem decode_message_ptr_in (cs : Bool) (camera b mi : Nat) (m : message)
    (prev : Option location_info) (loc : location_info)
    (h : decode_message cs camera b mi m prev = some loc) :
    ptr_in loc.x_ptr b ∧ ptr_in loc.y_ptr b ∧ ptr_in loc.z_ptr b := by
  obtain ⟨_, _, hloc⟩ := decode_message_some cs camera b mi m prev loc h
  rw [decode_fields_layout] at hloc
  subst hloc
  exact ⟨ptr_in_ite _ _ _ _, ptr_in_ite _ _ _ _, ptr_in_ite _ _ _ _⟩

theorem get_next_location_some {F : Type} (cs : Bool) (bs : List (block F)) (s : Nat)
    (prev : Option location_info) (loc : location_info)
    (h : get_next_location cs 1 bs s prev = some loc) :
    s ≤ loc.b ∧ (∃ blk, bs[loc.b]? = some blk ∧ has_update cs blk = true) ∧
      ptr_in loc.x_ptr loc.b ∧ ptr_in loc.y_ptr loc.b ∧ ptr_in loc.z_ptr loc.b := by
  unfold get_next_location at h
  obtain ⟨i, j, blk, m, hb, hi, hj, hdec, _, _⟩ := scan_blocks_eq_some cs 1 prev _ s loc h
  rw [List.getElem?_drop] at hi
  rw [← hb] at hdec hi
  refine ⟨by omega, ⟨blk, hi, ?_⟩, decode_message_ptr_in cs 1 loc.b j m prev loc hdec⟩
  rw [has_update_iff]
  refine ⟨m, List.getElem?_mem hj, ?_⟩
  by_contra hnot
  rw [(decode_message_eq_none_iff cs 1 loc.b j m prev).mpr hnot] at hdec
  exact absurd hdec (by simp)

/-! ## The invariant of the motion pass -/

theorem fill_motion_ok {F : Type} (cs : Bool) (bs mem : List (block F)) (n : Nat) :
    ∀ (b_start : Nat) (h h2 : List location_info),
      fill_motion cs mem n b_start h = some h2 →
      mem.drop b_start = bs.drop b_start →
      hist_ok_m cs bs h → (∀ a ∈ h, a.b < b_start) →
      hist_ok_m cs bs h2 ∧ (∀ a ∈ h2, a ∈ h ∨ b_start ≤ a.b) := by
  induction n with
  | zero =>
    intro b_start h h2 hfill _ hok _
    simp only [fill_motion, Option.some.injEq] at hfill
    subst hfill
    exact ⟨hok, fun a ha => Or.inl ha⟩
  | succ n ih =>
    intro b_start h h2 hfill hdrop hok hlt
    simp only [fill_motion] at hfill
    by_cases hb : b_start < mem.length
    · rw [if_pos hb] at hfill
      cases hg : get_next_location cs 1 mem b_start none with
      | none => rw [hg] at hfill; exact absurd hfill (by simp)
      | some a =>
        rw [hg] at hfill
        rw [get_next_location_congr cs 1 mem bs b_start none hdrop] at hg
        obtain ⟨hle, hupd, hptr⟩ := get_next_location_some cs bs b_start none a hg
        have hok2 : hist_ok_m cs bs (h ++ [a]) := by
          refine ⟨?_, ?_⟩
          · rw [List.pairwise_append]
            refine ⟨hok.1, List.pairwise_singleton _ _, ?_⟩
            intro x hx y hy
            simp only [List.mem_singleton] at hy
            subst hy
            exact lt_of_lt_of_le (hlt x hx) hle
          · intro x hx
            rw [List.mem_append, List.mem_singleton] at hx
            rcases hx with hx | hx
            · exact hok.2 x hx
            · subst hx
              exact ⟨hupd, hptr⟩
        have hlt2 : ∀ x ∈ h ++ [a], x.b < a.b + 1 := by
          intro x hx
          rw [List.mem_append, List.mem_singleton] at hx
          rcases hx with hx | hx
          · have := hlt x hx
            omega
          · subst hx
            omega
        obtain ⟨r1, r2⟩ := ih (a.b + 1) (h ++ [a]) h2 hfill
          (drop_eq_mono mem bs b_start (a.b + 1) hdrop (by omega)) hok2 hlt2
        refine ⟨r1, fun x hx => ?_⟩
        rcases r2 x hx with hm | hm
        · rw [List.mem_append, List.mem_singleton] at hm
          rcases hm with hm | hm
          · exact Or.inl hm
          · subst hm
            exact Or.inr hle
        · exact Or.inr (by omega)
    · rw [if_neg hb] at hfill
      simp only [Option.some.injEq] at hfill
      subst hfill
      exact ⟨hok, fun a ha => Or.inl ha⟩

theorem hist_m_le_of_index (h : List location_info)
    (hinc : h.Pairwise (fun a a2 => a.b < a2.b)) (k k2 : Nat) (a a2 : location_info)
    (hk : h[k]? = some a) (hk2 : h[k2]? = some a2) :
    (k < k2 → a.b < a2.b) ∧ (k ≤ k2 → a.b ≤ a2.b) := by
  obtain ⟨h1, e1⟩ := List.getElem?_eq_some_iff.mp hk
  obtain ⟨h2, e2⟩ := List.getElem?_eq_some_iff.mp hk2
  have hlt : k < k2 → a.b < a2.b := by
    intro hlt
    rw [← e1, ← e2]
    exact List.pairwise_iff_getElem.mp hinc k k2 h1 h2 hlt
  refine ⟨hlt, fun hle => ?_⟩
  rcases Nat.lt_or_eq_of_le hle with h3 | h3
  · exact le_of_lt (hlt h3)
  · subst h3
    rw [hk] at hk2
    simp only [Option.some.injEq] at hk2
    rw [hk2]

theorem hist_ok_m_tail {F : Type} (cs : Bool) (bs : List (block F)) (h : List location_info)
    (hok : hist_ok_m cs bs h) : hist_ok_m cs bs h.tail :=
  ⟨List.Pairwise.sublist (List.tail_sublist h) hok.1,
    fun a ha => hok.2 a (List.mem_of_mem_tail ha)⟩

theorem hist_ok_m_slide {F : Type} (cs : Bool) (bs : List (block F)) (h : List location_info)
    (last fut : location_info) (hok : hist_ok_m cs bs h) (hlast : h.getLast? = some last)
    (hlt : last.b < fut.b)
    (hfut : (∃ blk, bs[fut.b]? = some blk ∧ has_update cs blk = true) ∧
      ptr_in fut.x_ptr fut.b ∧ ptr_in fut.y_ptr fut.b ∧ ptr_in fut.z_ptr fut.b) :
    hist_ok_m cs bs (h.tail ++ [fut]) := by
  have hlast2 : h[h.length - 1]? = some last := by rw [← List.getLast?_eq_getElem?]; exact hlast
  refine ⟨?_, ?_⟩
  · rw [List.pairwise_append]
    refine ⟨(hist_ok_m_tail cs bs h hok).1, List.pairwise_singleton _ _, ?_⟩
    intro x hx y hy
    simp only [List.mem_singleton] at hy
    subst hy
    obtain ⟨k, hk⟩ := List.getElem?_of_mem (List.mem_of_mem_tail hx)
    have hk1 := (List.getElem?_eq_some_iff.mp hk).1
    have := (hist_m_le_of_index h hok.1 k (h.length - 1) x last hk hlast2).2 (by omega)
    omega
  · intro x hx
    rw [List.mem_append, List.mem_singleton] at hx
    rcases hx with hx | hx
    · exact hok.2 x (List.mem_of_mem_tail hx)
    · subst hx
      exact hfut

/-- Every transition of `smooth_motion` keeps the invariant. -/
theorem motion_step_inv {F : Type} (cs : Bool) (bs : List (block F)) (s : motion_state F)
    (hinv : motion_inv cs bs s) : motion_inv cs bs (motion_step cs s) := by
  cases s with
  | finish mem => exact hinv
  | undef mem => exact hinv
  | restart mem b_start =>
    obtain ⟨hlen, hdrop, hkept⟩ := hinv
    simp only [motion_step]
    cases hf : fill_motion cs mem MOTION_SMOOTH_HISTORY_SIZE b_start [] with
    | none => exact hkept
    | some h2 =>
      obtain ⟨hok, hge⟩ := fill_motion_ok cs bs mem _ b_start [] h2 hf hdrop
        ⟨List.Pairwise.nil, fun a ha => absurd ha (List.not_mem_nil a)⟩
        (fun a ha => absurd ha (List.not_mem_nil a))
      refine ⟨hlen, hok, fun last hl => ?_, hkept⟩
      rcases hge last (List.mem_of_mem_getLast? hl) with h0 | h0
      · exact absurd h0 (List.not_mem_nil _)
      · exact drop_eq_mono mem bs b_start _ hdrop (by omega)
  | steady mem h =>
    obtain ⟨hlen, hok, hdrop, hkept⟩ := hinv
    by_cases hsize : h.length < MOTION_SMOOTH_CURRENT + 1
    · simp only [motion_step, if_pos hsize]
      cases hl : h.getLast? with
      | none => exact hkept
      | some last => exact ⟨hlen, hdrop last hl, hkept⟩
    · simp only [motion_step, if_neg hsize]
      have hlen2 : MOTION_SMOOTH_CURRENT < h.length := by omega
      have hcur : h[MOTION_SMOOTH_CURRENT]? = some h[MOTION_SMOOTH_CURRENT] :=
        List.getElem?_eq_getElem hlen2
      obtain ⟨last, hlast⟩ : ∃ last, h.getLast? = some last := by
        rw [List.getLast?_eq_getElem?]
        exact ⟨h[h.length - 1], List.getElem?_eq_getElem (by omega)⟩
      have hlast2 : h[h.length - 1]? = some last := by
        rw [← List.getLast?_eq_getElem?]; exact hlast
      generalize hcdef : h[MOTION_SMOOTH_CURRENT] = cur at hcur
      rw [hcur, hlast]
      simp only
      have hcl : cur.b ≤ last.b :=
        (hist_m_le_of_index h hok.1 _ _ cur last hcur hlast2).2 (by omega)
      obtain ⟨hcupd, hpx, hpy, hpz⟩ := hok.2 cur (List.getElem?_mem hcur)
      have hcount : MOTION_SMOOTH_CURRENT + 1 ≤ update_count cs bs cur.b :=
        count_upto_of_increasing (has_update cs) bs (fun (a : location_info) => a.b) h
          hok.1 (fun a ha => (hok.2 a ha).1) MOTION_SMOOTH_CURRENT cur hcur
      generalize motion_average (fun l => l.x) h = vx
      generalize motion_average (fun l => l.y) h = vy
      generalize motion_average (fun l => l.z) h = vz
      have hget3 : ∀ i, i ≠ cur.b →
          (store_opt (store_opt (store_opt mem cur.x_ptr vx) cur.y_ptr vy) cur.z_ptr vz)[i]?
            = mem[i]? := by
        intro i hi
        rw [getElem?_store_opt_ne _ _ _ cur.b i hpz hi, getElem?_store_opt_ne _ _ _ cur.b i hpy hi,
          getElem?_store_opt_ne _ _ _ cur.b i hpx hi]
      have hlen3 :
          (store_opt (store_opt (store_opt mem cur.x_ptr vx) cur.y_ptr vy) cur.z_ptr vz).length
            = bs.length := by
        rw [length_store_opt, length_store_opt, length_store_opt, hlen]
      generalize store_opt (store_opt (store_opt mem cur.x_ptr vx) cur.y_ptr vy) cur.z_ptr vz
        = mem3 at hget3 hlen3
      have hdrop3 : mem3.drop (last.b + 1) = bs.drop (last.b + 1) := by
        rw [← hdrop last hlast]
        exact drop_eq_of_getElem? _ _ _ (fun i hi => hget3 i (by omega))
      have hkept3 : startup_kept cs bs mem3 := by
        intro i hi
        have hne : i ≠ cur.b := by
          intro he
          subst he
          unfold MOTION_SMOOTH_CURRENT at hcount
          omega
        rw [hget3 i hne]
        exact hkept i hi
      have hlast_tail : ∀ a, h.tail.getLast? = some a → a = last := by
        intro a ha
        rw [List.getLast?_eq_getElem?, List.getElem?_tail, List.length_tail] at ha
        have e : h.length - 1 - 1 + 1 = h.length - 1 := by
          unfold MOTION_SMOOTH_CURRENT MOTION_SMOOTH_SIZE at hlen2
          omega
        rw [e, hlast2] at ha
        simp only [Option.some.injEq] at ha
        exact ha.symm
      have hshrink : motion_inv cs bs (motion_state.steady mem3 h.tail) := by
        refine ⟨hlen3, hist_ok_m_tail cs bs h hok, fun a ha => ?_, hkept3⟩
        rw [hlast_tail a ha]
        exact hdrop3
      cases hg : get_next_location cs 1 mem3 (last.b + 1) (some last) with
      | none => exact hshrink
      | some fut =>
        simp only
        split
        · have hg2 := hg
          rw [get_next_location_congr cs 1 mem3 bs _ _ hdrop3] at hg2
          obtain ⟨hle, hfut⟩ := get_next_location_some cs bs (last.b + 1) (some last) fut hg2
          refine ⟨hlen3, hist_ok_m_slide cs bs h last fut hok hlast (by omega) hfut,
            fun a ha => ?_, hkept3⟩
          rw [List.getLast?_concat] at ha
          simp only [Option.some.injEq] at ha
          rw [← ha]
          exact drop_eq_mono mem3 bs (last.b + 1) _ hdrop3 (by omega)
        · exact hshrink

theorem motion_run_inv {F : Type} (cs : Bool) (bs : List (block F)) (n : Nat) :
    ∀ s : motion_state F, motion_inv cs bs s → motion_inv cs bs (motion_run cs n s) := by
  induction n with
  | zero => intro s h; exact h
  | succ n ih =>
    intro s h
    cases s with
    | finish mem => exact h
    | undef mem => exact h
    | restart mem b => exact ih _ (motion_step_inv cs bs _ h)
    | steady mem hist => exact ih _ (motion_step_inv cs bs _ h)

theorem smooth_motion_startup {F : Type} (cs : Bool) (bs : List (block F)) :
    startup_kept cs bs (smooth_motion cs bs).blocks := by
  have h0 : motion_inv cs bs (motion_state.restart bs 0) := ⟨rfl, rfl, fun i _ => rfl⟩
  have := motion_run_inv cs bs (64 * (bs.length + 1)) _ h0
  unfold smooth_motion
  generalize motion_run cs (64 * (bs.length + 1)) (motion_state.restart bs 0) = s at this
  cases s with
  | restart mem b => exact this.2.2
  | steady mem h => exact this.2.2.2
  | finish mem => exact this
  | undef mem => exact this

end Demsmooth

namespace Demsmooth

/-! ## Forward fill -/

/-- C6: after `smooth_camera_xy`, for every timed record `c` that was written as a window
centre there are values `x`, `y` (the values written to it) such that record `c` and every
untimed record that follows it, up to but excluding the next timed record, has yaw and
pitch `x`, `y` and is otherwise as in the input; the records that follow a timed record
that was never a centre are as in the input.  The same holds for `smooth_camera_z` and
the z angle. -/
theorem forward_fill {F D : Type} (TIME : Nat) (ops : float_arith F D) (lib : float_libm D)
    (bs : List (block F)) :
    (∀ c w, (c, w) ∈ pass_centers TIME (assign_xy ops lib) bs →
      ∃ x y, ∀ j blk, follows TIME bs c j → bs[j]? = some blk →
        (smooth_camera_xy TIME ops lib bs).blocks[j]?
          = some ⟨x, y, blk.angles2, blk.messages⟩) ∧
    (∀ t blk, bs[t]? = some blk → block_is_timed TIME blk = true →
      (∀ w, (t, w) ∉ pass_centers TIME (assign_xy ops lib) bs) →
      ∀ j, follows TIME bs t j → (smooth_camera_xy TIME ops lib bs).blocks[j]? = bs[j]?) ∧
    (∀ c w, (c, w) ∈ pass_centers TIME (assign_z ops) bs →
      ∃ z, ∀ j blk, follows TIME bs c j → bs[j]? = some blk →
        (smooth_camera_z TIME ops bs).blocks[j]?
          = some ⟨blk.angles0, blk.angles1, z, blk.messages⟩) ∧
    (∀ t blk, bs[t]? = some blk → block_is_timed TIME blk = true →
      (∀ w, (t, w) ∉ pass_centers TIME (assign_z ops) bs) →
      ∀ j, follows TIME bs t j → (smooth_camera_z TIME ops bs).blocks[j]? = bs[j]?) := by
  have hxy := camera_pass_forward_fill TIME (assign_xy ops lib) (fun _ _ => rfl) bs
  have hz := camera_pass_forward_fill TIME (assign_z ops) (fun _ _ => rfl) bs
  refine ⟨?_, hxy.2, ?_, hz.2⟩
  · intro c w hin
    obtain ⟨h, rfl⟩ := camera_centers_agg TIME (assign_xy ops lib) _ _ []
      (fun c w h => absurd h (List.not_mem_nil _)) c w hin
    refine ⟨float_mean ops (h.map (fun a => a.x)), yaw_mean ops lib (h.map (fun a => a.y)), ?_⟩
    intro j blk hf hget
    have := hxy.1 c _ hin j hf
    rw [hget] at this
    exact this
  · intro c w hin
    obtain ⟨h, rfl⟩ := camera_centers_agg TIME (assign_z ops) _ _ []
      (fun c w h => absurd h (List.not_mem_nil _)) c w hin
    refine ⟨float_mean ops (h.map (fun a => a.z)), ?_⟩
    intro j blk hf hget
    have := hz.1 c _ hin j hf
    rw [hget] at this
    exact this

/-- On `timed_ramp`, under IEEE 754 arithmetic, `smooth_camera_z` finishes; its first
centre is record 120 (the 61st timed record), to which it writes the mean 60 of the rolls
0 to 120, and the untimed record 121 behind it receives the same value, while the
untimed record 119 keeps its roll. -/
theorem forward_fill_example :
    (smooth_camera_z 7 ieee_arith timed_ramp).st = status.finished ∧
      ((pass_centers 7 (assign_z ieee_arith) timed_ramp).map (fun p => p.1)).take 3
        = [120, 122, 124] ∧
      ((smooth_camera_z 7 ieee_arith timed_ramp).blocks.map (fun blk => blk.angles2))[120]?
        = some (.num 60) ∧
      ((smooth_camera_z 7 ieee_arith timed_ramp).blocks.map (fun blk => blk.angles2))[121]?
        = some (.num 60) ∧
      ((smooth_camera_z 7 ieee_arith timed_ramp).blocks.map (fun blk => blk.angles2))[119]?
        = some (.zero false) := by
  decide!

end Demsmooth

namespace Demsmooth

/-! ## Reading a payload after a write -/

theorem length_write_i16 (data : List Nat) (off : Nat) (v : Int) :
    (write_i16 data off v).length = data.length := by
  simp [write_i16]

theorem byte_at_write_i16_ne (data : List Nat) (off : Nat) (v : Int) (o : Nat)
    (h : o < off ∨ off + 2 ≤ o) : byte_at (write_i16 data off v) o = byte_at data o := by
  unfold byte_at write_i16
  rw [List.getD_eq_getElem?_getD, List.getD_eq_getElem?_getD, List.getElem?_set_ne (by omega),
    List.getElem?_set_ne (by omega)]

theorem lo_byte_lt (v : Int) : lo_byte v < 256 := by
  unfold lo_byte
  omega

theorem hi_byte_lt (v : Int) : hi_byte v < 256 := by
  unfold hi_byte
  omega

theorem read_i16_write_i16 (data : List Nat) (off : Nat) (v : Int) (h : off + 2 ≤ data.length) :
    read_i16 (write_i16 data off v) off = to_i16 v := by
  have h0 : byte_at (write_i16 data off v) off = lo_byte v := by
    unfold byte_at write_i16
    rw [List.getD_eq_getElem?_getD, List.getElem?_set_ne (by omega), List.getElem?_set_self (by omega)]
    simp only [Option.getD_some]
    exact Nat.mod_eq_of_lt (lo_byte_lt v)
  have h1 : byte_at (write_i16 data off v) (off + 1) = hi_byte v := by
    unfold byte_at write_i16
    rw [List.getD_eq_getElem?_getD, List.getElem?_set_self (by simp; omega)]
    simp only [Option.getD_some]
    exact Nat.mod_eq_of_lt (hi_byte_lt v)
  unfold read_i16 read_u16
  rw [h0, h1]
  unfold to_i16 lo_byte hi_byte
  simp only
  have e : (((v % 65536).toNat % 256 + 256 * ((v % 65536).toNat / 256) : Nat) : Int)
      = v % 65536 := by
    omega
  rw [e]
  simp

theorem read_i16_write_i16_ne (data : List Nat) (off : Nat) (v : Int) (o : Nat)
    (h : o + 2 ≤ off ∨ off + 2 ≤ o) : read_i16 (write_i16 data off v) o = read_i16 data o := by
  unfold read_i16 read_u16
  rw [byte_at_write_i16_ne data off v o (by omega),
    byte_at_write_i16_ne data off v (o + 1) (by omega)]

theorem to_i16_range (v : Int) : -32768 ≤ to_i16 v ∧ to_i16 v < 32768 := by
  unfold to_i16
  simp only
  split <;> omega

theorem read_i16_range (data : List Nat) (o : Nat) :
    -32768 ≤ read_i16 data o ∧ read_i16 data o < 32768 :=
  to_i16_range _

/-! ## The header of a message after a write behind it -/

theorem extend_mask_snd (cs : Bool) (data : List Nat) (bit shift : Nat) (s : Nat × Nat) :
    (extend_mask cs data bit shift s).2 = s.2 + (if s.1 &&& bit ≠ 0 then 1 else 0) := by
  unfold extend_mask
  split <;> rfl

theorem extend_mask_congr (cs : Bool) (d1 d2 : List Nat) (bit shift : Nat) (s : Nat × Nat)
    (h : s.1 &&& bit ≠ 0 → byte_at d2 s.2 = byte_at d1 s.2) :
    extend_mask cs d2 bit shift s = extend_mask cs d1 bit shift s := by
  unfold extend_mask
  by_cases hb : s.1 &&& bit ≠ 0
  · rw [if_pos hb, if_pos hb, h hb]
  · rw [if_neg hb, if_neg hb]

theorem decode_mask_congr (cs : Bool) (t : Nat) (d1 d2 : List Nat)
    (h : ∀ o, o < (decode_mask cs ⟨t, d1⟩).2 → byte_at d2 o = byte_at d1 o) :
    decode_mask cs ⟨t, d2⟩ = decode_mask cs ⟨t, d1⟩ := by
  unfold decode_mask at *
  simp only at *
  generalize hs0 : ((t &&& 0x7F, 0) : Nat × Nat) = s0 at *
  have e1 : extend_mask cs d2 0x1 8 s0 = extend_mask cs d1 0x1 8 s0 := by
    apply extend_mask_congr
    intro hb
    apply h
    rw [extend_mask_snd, extend_mask_snd, extend_mask_snd, if_pos hb]
    omega
  rw [e1]
  generalize hs1 : extend_mask cs d1 0x1 8 s0 = s1 at *
  have e2 : extend_mask cs d2 0x8000 16 s1 = extend_mask cs d1 0x8000 16 s1 := by
    apply extend_mask_congr
    intro hb
    apply h
    rw [extend_mask_snd, extend_mask_snd, if_pos hb]
    omega
  rw [e2]
  generalize hs2 : extend_mask cs d1 0x8000 16 s1 = s2 at *
  apply extend_mask_congr
  intro hb
  apply h
  rw [extend_mask_snd, if_pos hb]
  omega

theorem decode_entity_congr (mask : Nat) (d1 d2 : List Nat) (pos : Nat)
    (h : ∀ o, o < (decode_entity mask d1 pos).2 → byte_at d2 o = byte_at d1 o) :
    decode_entity mask d2 pos = decode_entity mask d1 pos := by
  unfold decode_entity read_u16 at *
  by_cases hb : mask &&& 0x4000 ≠ 0
  · rw [if_pos hb] at h ⊢
    rw [if_pos hb, h pos (by simp), h (pos + 1) (by simp)]
  · rw [if_neg hb] at h ⊢
    rw [if_neg hb, h pos (by simp)]

/-! ## Decoding a message whose coordinates were written -/

theorem layout_order (mask h : Nat) :
    h < layout_x mask h ∧
      (mask &&& 0x0002 ≠ 0 → layout_x mask h + 2 ≤ layout_y mask h) ∧
      (mask &&& 0x0004 ≠ 0 → layout_y mask h + 2 ≤ layout_z mask h) ∧
      layout_x mask h ≤ layout_y mask h ∧ layout_y mask h ≤ layout_z mask h := by
  unfold layout_z layout_y layout_x
  refine ⟨?_, ?_, ?_, ?_, ?_⟩
  · split <;> omega
  · intro hb
    rw [if_pos hb]
    omega
  · intro hb
    rw [if_pos hb]
    omega
  · omega
  · omega

theorem decode_entity_snd_le (mask : Nat) (data : List Nat) (h : Nat) :
    (decode_entity mask data h).2 ≤ layout_x mask h := by
  rw [decode_entity_next]
  unfold layout_x
  omega

/-- A message of the tracked entity with all three coordinates decodes to the values at
the three offsets of the layout, whatever the previous sample. -/
theorem decode_message_all_present (cs : Bool) (camera b mi : Nat) (m : message)
    (prev : Option location_info) (hup : is_update_of cs camera m)
    (hx : (decode_mask cs m).1 &&& 0x0002 ≠ 0) (hy : (decode_mask cs m).1 &&& 0x0004 ≠ 0)
    (hz : (decode_mask cs m).1 &&& 0x0008 ≠ 0) :
    decode_message cs camera b mi m prev =
      some ⟨b, read_i16 m.data (layout_x (decode_mask cs m).1 (decode_mask cs m).2),
        read_i16 m.data (layout_y (decode_mask cs m).1 (decode_mask cs m).2),
        read_i16 m.data (layout_z (decode_mask cs m).1 (decode_mask cs m).2),
        some ⟨b, mi, layout_x (decode_mask cs m).1 (decode_mask cs m).2⟩,
        some ⟨b, mi, layout_y (decode_mask cs m).1 (decode_mask cs m).2⟩,
        some ⟨b, mi, layout_z (decode_mask cs m).1 (decode_mask cs m).2⟩⟩ := by
  cases hd : decode_message cs camera b mi m prev with
  | none =>
    exact absurd hup ((decode_message_eq_none_iff cs camera b mi m prev).mp hd)
  | some loc =>
    obtain ⟨_, _, hloc⟩ := decode_message_some cs camera b mi m prev loc hd
    rw [decode_fields_layout] at hloc
    rw [hloc]
    simp only [hx, hy, hz, ne_eq, not_false_eq_true, if_true]

/-- The three writes of the motion pass into a message of the tracked entity with all
three coordinates leave a message that decodes to the written values, with the same
pointers. -/
theorem decode_message_written (cs : Bool) (camera b mi : Nat) (t : Nat) (data : List Nat)
    (prev : Option location_info) (vx vy vz : Int) (hup : is_update_of cs camera ⟨t, data⟩)
    (hx : (decode_mask cs ⟨t, data⟩).1 &&& 0x0002 ≠ 0)
    (hy : (decode_mask cs ⟨t, data⟩).1 &&& 0x0004 ≠ 0)
    (hz : (decode_mask cs ⟨t, data⟩).1 &&& 0x0008 ≠ 0)
    (hfit : layout_z (decode_mask cs ⟨t, data⟩).1 (decode_mask cs ⟨t, data⟩).2 + 2 ≤ data.length) :
    decode_message cs camera b mi
      ⟨t, write_i16 (write_i16 (write_i16 data
        (layout_x (decode_mask cs ⟨t, data⟩).1 (decode_mask cs ⟨t, data⟩).2) vx)
        (layout_y (decode_mask cs ⟨t, data⟩).1 (decode_mask cs ⟨t, data⟩).2) vy)
        (layout_z (decode_mask cs ⟨t, data⟩).1 (decode_mask cs ⟨t, data⟩).2) vz⟩ prev =
      some ⟨b, to_i16 vx, to_i16 vy, to_i16 vz,
        some ⟨b, mi, layout_x (decode_mask cs ⟨t, data⟩).1 (decode_mask cs ⟨t, data⟩).2⟩,
        some ⟨b, mi, layout_y (decode_mask cs ⟨t, data⟩).1 (decode_mask cs ⟨t, data⟩).2⟩,
        some ⟨b, mi, layout_z (decode_mask cs ⟨t, data⟩).1 (decode_mask cs ⟨t, data⟩).2⟩⟩ := by
  obtain ⟨hlt, hxy, hyz, _, _⟩ :=
    layout_order (decode_mask cs ⟨t, data⟩).1 (decode_mask cs ⟨t, data⟩).2
  have hxy := hxy hx
  have hyz := hyz hy
  have hent := decode_entity_snd_le (decode_mask cs ⟨t, data⟩).1 data (decode_mask cs ⟨t, data⟩).2
  generalize hox : layout_x (decode_mask cs ⟨t, data⟩).1 (decode_mask cs ⟨t, data⟩).2 = ox at *
  generalize hoy : layout_y (decode_mask cs ⟨t, data⟩).1 (decode_mask cs ⟨t, data⟩).2 = oy at *
  generalize hoz : layout_z (decode_mask cs ⟨t, data⟩).1 (decode_mask cs ⟨t, data⟩).2 = oz at *
  have hbytes : ∀ o, o < ox →
      byte_at (write_i16 (write_i16 (write_i16 data ox vx) oy vy) oz vz) o = byte_at data o := by
    intro o ho
    rw [byte_at_write_i16_ne _ _ _ _ (by omega), byte_at_write_i16_ne _ _ _ _ (by omega),
      byte_at_write_i16_ne _ _ _ _ (by omega)]
  have hmask : decode_mask cs ⟨t, write_i16 (write_i16 (write_i16 data ox vx) oy vy) oz vz⟩
      = decode_mask cs ⟨t, data⟩ :=
    decode_mask_congr cs t data _ (fun o ho => hbytes o (by omega))
  have hentity : decode_entity (decode_mask cs ⟨t, data⟩).1
      (write_i16 (write_i16 (write_i16 data ox vx) oy vy) oz vz) (decode_mask cs ⟨t, data⟩).2
      = decode_entity (decode_mask cs ⟨t, data⟩).1 data (decode_mask cs ⟨t, data⟩).2 :=
    decode_entity_congr _ data _ _ (fun o ho => hbytes o (by omega))
  have hup2 : is_update_of cs camera
      ⟨t, write_i16 (write_i16 (write_i16 data ox vx) oy vy) oz vz⟩ := by
    unfold is_update_of at *
    refine ⟨hup.1, ?_⟩
    rw [← decode_entity_fst, hmask]
    simp only
    rw [hentity, ← hup.2, ← decode_entity_fst]
  have := decode_message_all_present cs camera b mi
    ⟨t, write_i16 (write_i16 (write_i16 data ox vx) oy vy) oz vz⟩ prev hup2
    (by rw [hmask]; exact hx) (by rw [hmask]; exact hy) (by rw [hmask]; exact hz)
  rw [this, hmask, hox, hoy, hoz]
  simp only
  have l1 := length_write_i16 data ox vx
  have l2 := length_write_i16 (write_i16 data ox vx) oy vy
  rw [read_i16_write_i16_ne _ oz vz ox (by omega), read_i16_write_i16_ne _ oy vy ox (by omega),
    read_i16_write_i16 data ox vx (by omega),
    read_i16_write_i16_ne _ oz vz oy (by omega), read_i16_write_i16 _ oy vy (by omega),
    read_i16_write_i16 _ oz vz (by omega)]

end Demsmooth

namespace Demsmooth

/-! ## The samples of a record list -/

theorem get_next_location_eq_some_iff {F : Type} (cs : Bool) (camera : Nat)
    (bs : List (block F)) (prev : Option location_info) (loc : location_info) :
    ∀ (d start : Nat), loc.b = start + d →
      (get_next_location cs camera bs start prev = some loc ↔
        (∃ blk, bs[loc.b]? = some blk ∧
          scan_messages cs camera loc.b prev blk.messages 0 = some loc) ∧
        ∀ i blk, start ≤ i → i < loc.b → bs[i]? = some blk →
          scan_messages cs camera i prev blk.messages 0 = none) := by
  intro d
  induction d with
  | zero =>
    intro start hb
    have hb2 : loc.b = start := by omega
    by_cases hlt : start < bs.length
    · rw [get_next_location_step cs camera bs start prev hlt]
      constructor
      · intro h
        cases hs : scan_messages cs camera start prev bs[start].messages 0 with
        | none =>
          rw [hs] at h
          simp only [Option.orElse] at h
          obtain ⟨hle, _⟩ : start + 1 ≤ loc.b ∧ True := by
            unfold get_next_location at h
            obtain ⟨i, _, _, _, hbi, _⟩ := scan_blocks_eq_some cs camera prev _ _ loc h
            exact ⟨by omega, trivial⟩
          omega
        | some l =>
          rw [hs] at h
          simp only [Option.orElse, Option.some.injEq] at h
          subst h
          refine ⟨⟨bs[start], ?_, ?_⟩, fun i blk h1 h2 => by omega⟩
          · rw [hb2]
            exact List.getElem?_eq_getElem hlt
          · rw [hb2]
            exact hs
      · rintro ⟨⟨blk, hget, hs⟩, _⟩
        rw [hb2] at hget hs
        have : bs[start] = blk := by
          have := List.getElem?_eq_getElem hlt
          rw [hget] at this
          simp only [Option.some.injEq] at this
          exact this.symm
        rw [this, hs]
        rfl
    · rw [get_next_location_null cs camera bs start prev (by omega)]
      constructor
      · intro h
        exact absurd h (by simp)
      · rintro ⟨⟨blk, hget, _⟩, _⟩
        rw [hb2] at hget
        have := (List.getElem?_eq_some_iff.mp hget).1
        omega
  | succ d ih =>
    intro start hb
    have hiff := ih (start + 1) (by omega)
    by_cases hlt : start < bs.length
    · rw [get_next_location_step cs camera bs start prev hlt]
      constructor
      · intro h
        cases hs : scan_messages cs camera start prev bs[start].messages 0 with
        | some l =>
          rw [hs] at h
          simp only [Option.orElse, Option.some.injEq] at h
          subst h
          obtain ⟨j, m, _, hdec, _⟩ := scan_messages_eq_some cs camera start prev _ 0 _ hs
          have := decode_message_b cs camera start _ m prev _ hdec
          omega
        | none =>
          rw [hs] at h
          simp only [Option.orElse] at h
          obtain ⟨h1, h2⟩ := hiff.mp h
          refine ⟨h1, fun i blk hi1 hi2 hget => ?_⟩
          by_cases hi : i = start
          · subst hi
            have : bs[i] = blk := by
              have := List.getElem?_eq_getElem hlt
              rw [hget] at this
              simp only [Option.some.injEq] at this
              exact this.symm
            rw [← this]
            exact hs
          · exact h2 i blk (by omega) hi2 hget
      · rintro ⟨h1, h2⟩
        have hs : scan_messages cs camera start prev bs[start].messages 0 = none :=
          h2 start bs[start] (le_refl _) (by omega) (List.getElem?_eq_getElem hlt)
        rw [hs]
        simp only [Option.orElse]
        exact hiff.mpr ⟨h1, fun i blk hi1 hi2 hget => h2 i blk (by omega) hi2 hget⟩
    · rw [get_next_location_null cs camera bs start prev (by omega)]
      constructor
      · intro h
        exact absurd h (by simp)
      · rintro ⟨⟨blk, hget, _⟩, _⟩
        have := (List.getElem?_eq_some_iff.mp hget).1
        omega

theorem get_next_location_eq_none_iff {F : Type} (cs : Bool) (camera : Nat)
    (bs : List (block F)) (prev : Option location_info) (start : Nat) :
    get_next_location cs camera bs start prev = none ↔
      ∀ i blk, start ≤ i → bs[i]? = some blk →
        scan_messages cs camera i prev blk.messages 0 = none := by
  unfold get_next_location
  rw [scan_blocks_eq_none_iff]
  constructor
  · intro h i blk hle hget
    rw [scan_messages_eq_none_iff]
    apply h blk
    apply List.getElem?_mem (n := i - start)
    rw [List.getElem?_drop, ← hget]
    congr 1
    omega
  · intro h blk hmem
    obtain ⟨k, hk⟩ := List.getElem?_of_mem hmem
    rw [List.getElem?_drop] at hk
    rw [← scan_messages_eq_none_iff cs camera (start + k) prev blk.messages 0]
    exact h (start + k) blk (by omega) hk

theorem get_next_location_le {F : Type} (cs : Bool) (camera : Nat) (bs : List (block F))
    (start : Nat) (prev : Option location_info) (loc : location_info)
    (h : get_next_location cs camera bs start prev = some loc) :
    start ≤ loc.b ∧ loc.b < bs.length := by
  unfold get_next_location at h
  obtain ⟨i, _, blk, _, hb, hi, _⟩ := scan_blocks_eq_some cs camera prev _ start loc h
  rw [List.getElem?_drop] at hi
  have := (List.getElem?_eq_some_iff.mp hi).1
  omega

theorem sample_list_stream {F : Type} (cs : Bool) (bs : List (block F)) (n : Nat) :
    ∀ start, bs.length ≤ start + n → stream_from cs bs start (sample_list cs bs n start) := by
  induction n with
  | zero =>
    intro start h
    exact get_next_location_null cs 1 bs start none (by omega)
  | succ n ih =>
    intro start h
    simp only [sample_list]
    cases hg : get_next_location cs 1 bs start none with
    | none => exact hg
    | some loc =>
      have := (get_next_location_le cs 1 bs start none loc hg).1
      exact ⟨hg, ih (loc.b + 1) (by omega)⟩

/-- The list `samples` is the list of all samples from the first record on. -/
theorem samples_stream {F : Type} (cs : Bool) (bs : List (block F)) :
    stream_from cs bs 0 (samples cs bs) :=
  sample_list_stream cs bs bs.length 0 (by omega)

theorem stream_from_length {F : Type} (cs : Bool) (bs : List (block F)) (L : List location_info) :
    ∀ start, stream_from cs bs start L → L ≠ [] → start + L.length ≤ bs.length := by
  induction L with
  | nil => intro start _ h; exact absurd rfl h
  | cons loc L ih =>
    intro start hs _
    obtain ⟨hg, hrest⟩ := hs
    obtain ⟨h1, h2⟩ := get_next_location_le cs 1 bs start none loc hg
    cases L with
    | nil => simp; omega
    | cons l2 L2 =>
      have := ih (loc.b + 1) hrest (by simp)
      simp only [List.length_cons] at this ⊢
      omega

theorem sample_list_of_stream {F : Type} (cs : Bool) (bs : List (block F))
    (L : List location_info) :
    ∀ start n, stream_from cs bs start L → L.length ≤ n → sample_list cs bs n start = L := by
  induction L with
  | nil =>
    intro start n hs _
    cases n with
    | zero => rfl
    | succ n =>
      simp only [sample_list]
      rw [show get_next_location cs 1 bs start none = none from hs]
  | cons loc L ih =>
    intro start n hs hn
    cases n with
    | zero => simp at hn
    | succ n =>
      obtain ⟨hg, hrest⟩ := hs
      simp only [sample_list, hg]
      rw [ih (loc.b + 1) n hrest (by simpa using hn)]

theorem samples_of_stream {F : Type} (cs : Bool) (bs : List (block F)) (L : List location_info)
    (hs : stream_from cs bs 0 L) : samples cs bs = L := by
  apply sample_list_of_stream cs bs L 0 bs.length hs
  by_cases hL : L = []
  · rw [hL]
    exact Nat.zero_le _
  · have := stream_from_length cs bs L 0 hs hL
    omega

/-! ## Counting the records with an update along the samples -/

theorem has_update_eq_false_iff {F : Type} (cs : Bool) (blk : block F) (b : Nat)
    (prev : Option location_info) :
    has_update cs blk = false ↔ scan_messages cs 1 b prev blk.messages 0 = none := by
  rw [scan_messages_eq_none_iff, ← Bool.not_eq_true, has_update_iff]
  push_neg
  rfl

theorem filter_segment_one {α : Type} (p : α → Bool) (l : List α) (a j : Nat) (x : α)
    (haj : a ≤ j) (hget : l[j]? = some x) (hp : p x = true)
    (hnone : ∀ t y, a ≤ t → t < j → l[t]? = some y → p y = false) :
    (((l.drop a).take (j + 1 - a)).filter p).length = 1 := by
  have e : j + 1 - a = (j - a) + 1 := by omega
  have hj : j < l.length := (List.getElem?_eq_some_iff.mp hget).1
  have hx : l[j] = x := (List.getElem?_eq_some_iff.mp hget).2
  rw [e, List.take_add, List.filter_append, List.length_append]
  have h1 : ((l.drop a).take (j - a)).filter p = [] := by
    rw [List.filter_eq_nil_iff]
    intro y hy
    obtain ⟨k, hk⟩ := List.getElem?_of_mem hy
    have hklt : k < j - a := by
      have := (List.getElem?_eq_some_iff.mp hk).1
      rw [List.length_take] at this
      omega
    rw [List.getElem?_take_of_lt hklt, List.getElem?_drop] at hk
    have := hnone (a + k) y (by omega) (by omega) hk
    simp [this]
  have h2 : ((l.drop a).drop (j - a)).take 1 = [x] := by
    rw [List.drop_drop]
    have e2 : a + (j - a) = j := by omega
    rw [e2, List.drop_eq_getElem_cons hj, hx]
    simp
  rw [h1, h2]
  simp [hp]

theorem stream_update_count {F : Type} (cs : Bool) (bs : List (block F))
    (L : List location_info) :
    ∀ (start k : Nat) (loc : location_info), stream_from cs bs start L → L[k]? = some loc →
      start ≤ loc.b ∧
        (((bs.drop start).take (loc.b + 1 - start)).filter (has_update cs)).length = k + 1 := by
  induction L with
  | nil => intro start k loc _ h; simp at h
  | cons l0 L ih =>
    intro start k loc hs hk
    obtain ⟨hg, hrest⟩ := hs
    obtain ⟨hle, hlt⟩ := get_next_location_le cs 1 bs start none l0 hg
    obtain ⟨⟨blk, hget, hscan⟩, hbefore⟩ :=
      (get_next_location_eq_some_iff cs 1 bs none l0 (l0.b - start) start (by omega)).mp hg
    have hup : has_update cs blk = true := by
      by_contra hno
      have := (has_update_eq_false_iff cs blk l0.b none).mp (by simpa using hno)
      rw [this] at hscan
      exact absurd hscan (by simp)
    have hfirst : (((bs.drop start).take (l0.b + 1 - start)).filter (has_update cs)).length = 1 :=
      filter_segment_one (has_update cs) bs start l0.b blk hle hget hup
        (fun t y h1 h2 hy => (has_update_eq_false_iff cs y t none).mpr (hbefore t y h1 h2 hy))
    cases k with
    | zero =>
      simp only [List.getElem?_cons_zero, Option.some.injEq] at hk
      subst hk
      exact ⟨hle, hfirst⟩
    | succ k =>
      simp only [List.getElem?_cons_succ] at hk
      obtain ⟨hle2, hcount⟩ := ih (l0.b + 1) k loc hrest hk
      refine ⟨by omega, ?_⟩
      have e : loc.b + 1 - start = (l0.b + 1 - start) + (loc.b + 1 - (l0.b + 1)) := by omega
      rw [e, List.take_add, List.filter_append, List.length_append, hfirst, List.drop_drop]
      have e2 : start + (l0.b + 1 - start) = l0.b + 1 := by omega
      rw [e2, hcount]
      omega

/-- The record of sample `k` is the `(k + 1)`-th record with an update of entity 1. -/
theorem samples_update_count {F : Type} (cs : Bool) (bs : List (block F)) (k : Nat)
    (loc : location_info) (h : (samples cs bs)[k]? = some loc) :
    update_count cs bs loc.b = k + 1 := by
  have := (stream_update_count cs bs _ 0 k loc (samples_stream cs bs) h).2
  simpa [update_count, count_upto] using this

end Demsmooth

namespace Demsmooth

/-! ## Startup suppression -/

/-- C7: for every record list, `smooth_camera_xy` and `smooth_camera_z` leave unchanged
every record with at most 60 timed records up to it, that is the first 60 timed records
and every record that precedes the 61st timed record; `smooth_motion` leaves unchanged
every record with at most 30 records holding an update of the tracked entity up to it,
in particular the records of the first 30 samples. -/
theorem startup_suppression {F D : Type} (TIME : Nat) (ops : float_arith F D)
    (lib : float_libm D) (cs : Bool) (bs : List (block F)) :
    (∀ i, timed_count TIME bs i ≤ 60 → (smooth_camera_xy TIME ops lib bs).blocks[i]? = bs[i]?) ∧
    (∀ i, timed_count TIME bs i ≤ 60 → (smooth_camera_z TIME ops bs).blocks[i]? = bs[i]?) ∧
    (∀ i, update_count cs bs i ≤ 30 → (smooth_motion cs bs).blocks[i]? = bs[i]?) ∧
    (∀ k loc, k < 30 → (samples cs bs)[k]? = some loc →
      (smooth_motion cs bs).blocks[loc.b]? = bs[loc.b]?) := by
  refine ⟨fun i hi => ?_, fun i hi => ?_, fun i hi => ?_, fun k loc hk hget => ?_⟩
  · exact camera_pass_startup TIME (assign_xy ops lib) (fun _ _ => rfl) bs i hi
  · exact camera_pass_startup TIME (assign_z ops) (fun _ _ => rfl) bs i hi
  · exact smooth_motion_startup cs bs i hi
  · apply smooth_motion_startup cs bs loc.b
    rw [samples_update_count cs bs k loc hget]
    unfold MOTION_SMOOTH_SIZE
    omega

end Demsmooth

namespace Demsmooth

/-! ## Samples that carry all three coordinates -/

theorem scan_messages_of_first (cs : Bool) (camera b : Nat) (prev : Option location_info)
    (msgs : List message) (j : Nat) (m : message) (l : location_info)
    (hget : msgs[j]? = some m)
    (hfirst : ∀ j2 m2, j2 < j → msgs[j2]? = some m2 → ¬ is_update_of cs camera m2)
    (hdec : decode_message cs camera b j m prev = some l) :
    scan_messages cs camera b prev msgs 0 = some l := by
  have hj : j < msgs.length := (List.getElem?_eq_some_iff.mp hget).1
  have hm : msgs[j] = m := (List.getElem?_eq_some_iff.mp hget).2
  have e : msgs = msgs.take j ++ m :: msgs.drop (j + 1) := by
    rw [← hm, ← List.drop_eq_getElem_cons hj, List.take_append_drop]
  rw [e, scan_messages_append_none]
  · have hl : (msgs.take j).length = j := by
      rw [List.length_take]
      omega
    simp only [scan_messages, Nat.zero_add, hl, hdec]
  · intro k hk
    rw [decode_message_eq_none_iff]
    have hk2 : k < j := by
      rw [List.length_take] at hk
      omega
    apply hfirst k _ hk2
    rw [List.getElem_take]
    exact List.getElem?_eq_getElem (by omega)

theorem decode_message_bits (cs : Bool) (camera b mi : Nat) (m : message)
    (prev : Option location_info) (loc : location_info)
    (h : decode_message cs camera b mi m prev = some loc) :
    (loc.x_ptr ≠ none → (decode_mask cs m).1 &&& 0x0002 ≠ 0) ∧
    (loc.y_ptr ≠ none → (decode_mask cs m).1 &&& 0x0004 ≠ 0) ∧
    (loc.z_ptr ≠ none → (decode_mask cs m).1 &&& 0x0008 ≠ 0) := by
  obtain ⟨_, _, hloc⟩ := decode_message_some cs camera b mi m prev loc h
  rw [decode_fields_layout] at hloc
  subst hloc
  refine ⟨?_, ?_, ?_⟩ <;> intro hp <;> by_contra hb <;> simp [hb] at hp

/-- What the decoder finds for a sample with all three coordinates: the message, its
place, and its form. -/
theorem sample_message {F : Type} (cs : Bool) (bs : List (block F)) (start : Nat)
    (prev : Option location_info) (loc : location_info)
    (hg : get_next_location cs 1 bs start prev = some loc)
    (hx : loc.x_ptr ≠ none) (hy : loc.y_ptr ≠ none) (hz : loc.z_ptr ≠ none) :
    ∃ blk j m, bs[loc.b]? = some blk ∧ blk.messages[j]? = some m ∧ is_update_of cs 1 m ∧
      (∀ j2 m2, j2 < j → blk.messages[j2]? = some m2 → ¬ is_update_of cs 1 m2) ∧
      (decode_mask cs m).1 &&& 0x0002 ≠ 0 ∧ (decode_mask cs m).1 &&& 0x0004 ≠ 0 ∧
      (decode_mask cs m).1 &&& 0x0008 ≠ 0 ∧
      loc = ⟨loc.b, read_i16 m.data (layout_x (decode_mask cs m).1 (decode_mask cs m).2),
        read_i16 m.data (layout_y (decode_mask cs m).1 (decode_mask cs m).2),
        read_i16 m.data (layout_z (decode_mask cs m).1 (decode_mask cs m).2),
        some ⟨loc.b, j, layout_x (decode_mask cs m).1 (decode_mask cs m).2⟩,
        some ⟨loc.b, j, layout_y (decode_mask cs m).1 (decode_mask cs m).2⟩,
        some ⟨loc.b, j, layout_z (decode_mask cs m).1 (decode_mask cs m).2⟩⟩ := by
  have hle := (get_next_location_le cs 1 bs start prev loc hg).1
  obtain ⟨⟨blk, hget, hscan⟩, _⟩ :=
    (get_next_location_eq_some_iff cs 1 bs prev loc (loc.b - start) start (by omega)).mp hg
  obtain ⟨j, m, hj, hdec, hfirst⟩ := scan_messages_eq_some cs 1 loc.b prev _ 0 loc hscan
  rw [Nat.zero_add] at hdec
  obtain ⟨bx, by2, bz⟩ := decode_message_bits cs 1 loc.b j m prev loc hdec
  have hup : is_update_of cs 1 m := by
    by_contra hnot
    rw [(decode_message_eq_none_iff cs 1 loc.b j m prev).mpr hnot] at hdec
    exact absurd hdec (by simp)
  refine ⟨blk, j, m, hget, hj, hup, hfirst, bx hx, by2 hy, bz hz, ?_⟩
  have := decode_message_all_present cs 1 loc.b j m prev hup (bx hx) (by2 hy) (bz hz)
  rw [hdec] at this
  simp only [Option.some.injEq] at this
  exact this

/-- A sample with all three coordinates does not depend on the previous sample. -/
theorem get_next_location_prev {F : Type} (cs : Bool) (bs : List (block F)) (start : Nat)
    (loc : location_info) (prev : Option location_info)
    (hg : get_next_location cs 1 bs start none = some loc)
    (hx : loc.x_ptr ≠ none) (hy : loc.y_ptr ≠ none) (hz : loc.z_ptr ≠ none) :
    get_next_location cs 1 bs start prev = some loc := by
  have hle := (get_next_location_le cs 1 bs start none loc hg).1
  obtain ⟨blk, j, m, hget, hj, hup, hfirst, bx, by2, bz, hloc⟩ :=
    sample_message cs bs start none loc hg hx hy hz
  obtain ⟨_, hbefore⟩ :=
    (get_next_location_eq_some_iff cs 1 bs none loc (loc.b - start) start (by omega)).mp hg
  rw [get_next_location_eq_some_iff cs 1 bs prev loc (loc.b - start) start (by omega)]
  refine ⟨⟨blk, hget, ?_⟩, ?_⟩
  · apply scan_messages_of_first cs 1 loc.b prev blk.messages j m loc hj hfirst
    rw [decode_message_all_present cs 1 loc.b j m prev hup bx by2 bz]
    exact congrArg some hloc.symm
  · intro i blk2 h1 h2 hget2
    have := hbefore i blk2 h1 h2 hget2
    rw [scan_messages_eq_none_iff] at this ⊢
    exact this

theorem get_next_location_none_prev {F : Type} (cs : Bool) (bs : List (block F)) (start : Nat)
    (prev : Option location_info) (hg : get_next_location cs 1 bs start none = none) :
    get_next_location cs 1 bs start prev = none := by
  rw [get_next_location_eq_none_iff] at hg ⊢
  intro i blk h1 h2
  have := hg i blk h1 h2
  rw [scan_messages_eq_none_iff] at this ⊢
  exact this

/-! ## The stream of samples -/

theorem stream_drop {F : Type} (cs : Bool) (bs : List (block F)) (L : List location_info) :
    ∀ (start k : Nat) (loc : location_info), stream_from cs bs start L → L[k]? = some loc →
      stream_from cs bs (loc.b + 1) (L.drop (k + 1)) := by
  induction L with
  | nil => intro start k loc _ h; simp at h
  | cons l0 L ih =>
    intro start k loc hs hk
    cases k with
    | zero =>
      simp only [List.getElem?_cons_zero, Option.some.injEq] at hk
      subst hk
      simpa using hs.2
    | succ k =>
      simp only [List.getElem?_cons_succ] at hk
      simpa using ih (l0.b + 1) k loc hs.2 hk

theorem stream_mem {F : Type} (cs : Bool) (bs : List (block F)) (L : List location_info) :
    ∀ (start : Nat), stream_from cs bs start L → ∀ loc ∈ L,
      ∃ s, start ≤ s ∧ get_next_location cs 1 bs s none = some loc := by
  induction L with
  | nil => intro start _ loc h; exact absurd h (List.not_mem_nil _)
  | cons l0 L ih =>
    intro start hs loc hmem
    rw [List.mem_cons] at hmem
    rcases hmem with h | h
    · subst h
      exact ⟨start, le_refl _, hs.1⟩
    · obtain ⟨s, hle, hg⟩ := ih (l0.b + 1) hs.2 loc h
      have := (get_next_location_le cs 1 bs start none l0 hs.1).1
      exact ⟨s, by omega, hg⟩

theorem stream_sorted {F : Type} (cs : Bool) (bs : List (block F)) (L : List location_info) :
    ∀ (start : Nat), stream_from cs bs start L →
      L.Pairwise (fun a a2 => a.b < a2.b) ∧ ∀ loc ∈ L, start ≤ loc.b := by
  induction L with
  | nil => intro start _; exact ⟨List.Pairwise.nil, fun loc h => absurd h (List.not_mem_nil _)⟩
  | cons l0 L ih =>
    intro start hs
    obtain ⟨h1, h2⟩ := ih (l0.b + 1) hs.2
    have hle := (get_next_location_le cs 1 bs start none l0 hs.1).1
    refine ⟨List.Pairwise.cons (fun a ha => ?_) h1, fun loc hmem => ?_⟩
    · have := h2 a ha
      omega
    · rw [List.mem_cons] at hmem
      rcases hmem with h | h
      · subst h
        exact hle
      · have := h2 loc h
        omega

theorem stream_hist_ok {F : Type} (cs : Bool) (bs : List (block F)) (L : List location_info)
    (start : Nat) (hs : stream_from cs bs start L) : hist_ok_m cs bs L := by
  refine ⟨(stream_sorted cs bs L start hs).1, fun a ha => ?_⟩
  obtain ⟨s, _, hg⟩ := stream_mem cs bs L start hs a ha
  exact (get_next_location_some cs bs s none a hg).2

/-! ## The populate loop on the stream of samples -/

theorem fill_motion_stream {F : Type} (cs : Bool) (bs mem : List (block F))
    (hlen : mem.length = bs.length) (n : Nat) :
    ∀ (start : Nat) (h L : List location_info), stream_from cs bs start L →
      mem.drop start = bs.drop start → n ≤ L.length →
      fill_motion cs mem n start h = some (h ++ L.take n) := by
  induction n with
  | zero => intro start h L _ _ _; simp [fill_motion]
  | succ n ih =>
    intro start h L hs hdrop hn
    cases L with
    | nil => simp at hn
    | cons loc L =>
      obtain ⟨hg, hrest⟩ := hs
      obtain ⟨h1, h2⟩ := get_next_location_le cs 1 bs start none loc hg
      simp only [fill_motion]
      rw [if_pos (by omega), get_next_location_congr cs 1 mem bs start none hdrop, hg]
      simp only
      rw [ih (loc.b + 1) (h ++ [loc]) L hrest (drop_eq_mono mem bs start _ hdrop (by omega))
        (by simpa using hn)]
      simp

theorem fill_motion_end {F : Type} (cs : Bool) (bs mem : List (block F)) (n : Nat) (start : Nat)
    (h : List location_info) (hs : stream_from cs bs start [])
    (hdrop : mem.drop start = bs.drop start) (hlt : start < mem.length) :
    fill_motion cs mem (n + 1) start h = none := by
  simp only [fill_motion]
  rw [if_pos hlt, get_next_location_congr cs 1 mem bs start none hdrop,
    show get_next_location cs 1 bs start none = none from hs]

/-! ## The windows of the history -/

theorem window_length (S : List location_info) (lo : Nat) :
    (window S lo).length = min MOTION_SMOOTH_HISTORY_SIZE (S.length - lo) := by
  simp [window]

theorem window_getElem? (S : List location_info) (lo k : Nat)
    (hk : k < MOTION_SMOOTH_HISTORY_SIZE) : (window S lo)[k]? = S[lo + k]? := by
  unfold window
  rw [List.getElem?_take_of_lt hk, List.getElem?_drop]

theorem tail_take_succ {α : Type} (T : List α) (n : Nat) :
    (T.take (n + 1)).tail = T.tail.take n := by
  cases T <;> simp

theorem take_one_eq {α : Type} (T : List α) : T.take 1 = (T[0]?).toList := by
  cases T <;> simp

theorem window_succ (S : List location_info) (lo : Nat) :
    (window S lo).tail ++ (S[lo + MOTION_SMOOTH_HISTORY_SIZE]?).toList = window S (lo + 1) := by
  unfold window MOTION_SMOOTH_HISTORY_SIZE MOTION_SMOOTH_SIZE
  have e1 : (List.take (2 * 30 + 1) (List.drop lo S)).tail = (S.drop (lo + 1)).take 60 := by
    rw [show 2 * 30 + 1 = 60 + 1 from rfl, tail_take_succ, List.tail_drop]
  have e2 : List.take (2 * 30 + 1) (List.drop (lo + 1) S)
      = (S.drop (lo + 1)).take 60 ++ ((S.drop (lo + 1)).drop 60).take 1 := by
    rw [show 2 * 30 + 1 = 60 + 1 from rfl, List.take_add]
  rw [e1, e2, take_one_eq, List.drop_drop, List.getElem?_drop]

end Demsmooth

namespace Demsmooth

/-! ## The transitions of `smooth_motion` on a regular stream of samples -/

theorem field_fits_ne_none {F : Type} (bs : List (block F)) (p : Option field_ptr)
    (h : field_fits bs p = true) : p ≠ none := by
  intro hp
  subst hp
  simp [field_fits] at h

theorem sample_complete_ptrs {F : Type} (bs : List (block F)) (loc : location_info)
    (h : sample_complete bs loc = true) :
    loc.x_ptr ≠ none ∧ loc.y_ptr ≠ none ∧ loc.z_ptr ≠ none := by
  unfold sample_complete at h
  simp only [Bool.and_eq_true] at h
  exact ⟨field_fits_ne_none bs _ h.1.1, field_fits_ne_none bs _ h.1.2,
    field_fits_ne_none bs _ h.2⟩

theorem length_write_back {F : Type} (mem : List (block F)) (cur : location_info)
    (h : List location_info) : (write_back mem cur h).length = mem.length := by
  unfold write_back
  rw [length_store_opt, length_store_opt, length_store_opt]

theorem getElem?_write_back_ne {F : Type} (mem : List (block F)) (cur : location_info)
    (h : List location_info) (i : Nat)
    (hp : ptr_in cur.x_ptr cur.b ∧ ptr_in cur.y_ptr cur.b ∧ ptr_in cur.z_ptr cur.b)
    (hi : i ≠ cur.b) : (write_back mem cur h)[i]? = mem[i]? := by
  unfold write_back
  rw [getElem?_store_opt_ne _ _ _ cur.b i hp.2.2 hi, getElem?_store_opt_ne _ _ _ cur.b i hp.2.1 hi,
    getElem?_store_opt_ne _ _ _ cur.b i hp.1 hi]

/-- One turn of the `while (1)` loop on the window that starts at sample `lo`, when all
samples carry x, y, z and consecutive samples are close: the centre is written and the
window moves on by one sample. -/
theorem motion_step_window {F : Type} (cs : Bool) (bs : List (block F))
    (S : List location_info) (hS : stream_from cs bs 0 S)
    (hcomplete : ∀ loc ∈ S, sample_complete bs loc = true)
    (hclose : ∀ k a b, S[k]? = some a → S[k + 1]? = some b → close_samples b a)
    (lo : Nat) (cur : location_info) (hcur : S[lo + MOTION_SMOOTH_CURRENT]? = some cur)
    (mem : List (block F))
    (hdrop : ∀ last, (window S lo).getLast? = some last →
      mem.drop (last.b + 1) = bs.drop (last.b + 1)) :
    motion_step cs (motion_state.steady mem (window S lo)) =
        motion_state.steady (write_back mem cur (window S lo)) (window S (lo + 1)) ∧
      (∀ last, (window S (lo + 1)).getLast? = some last →
        (write_back mem cur (window S lo)).drop (last.b + 1) = bs.drop (last.b + 1)) := by
  have hN : lo + 30 < S.length := (List.getElem?_eq_some_iff.mp hcur).1
  have hok := stream_hist_ok cs bs S 0 hS
  have hwl := window_length S lo
  have hsize : ¬ (window S lo).length < MOTION_SMOOTH_CURRENT + 1 := by
    rw [hwl]
    unfold MOTION_SMOOTH_HISTORY_SIZE MOTION_SMOOTH_CURRENT MOTION_SMOOTH_SIZE
    omega
  have hwcur : (window S lo)[MOTION_SMOOTH_CURRENT]? = some cur := by
    rw [window_getElem? S lo _ (by decide)]
    exact hcur
  -- the tail of the window
  obtain ⟨last, hlast⟩ : ∃ last, (window S lo).getLast? = some last := by
    rw [List.getLast?_eq_getElem?]
    exact ⟨(window S lo)[(window S lo).length - 1], List.getElem?_eq_getElem (by omega)⟩
  have hlast2 : S[lo + ((window S lo).length - 1)]? = some last := by
    rw [← window_getElem? S lo _ (by
      rw [hwl]; unfold MOTION_SMOOTH_HISTORY_SIZE MOTION_SMOOTH_SIZE; omega),
      ← List.getLast?_eq_getElem?]
    exact hlast
  have hcl : cur.b ≤ last.b :=
    (hist_m_le_of_index S hok.1 _ _ cur last hcur hlast2).2 (by
      rw [hwl]
      unfold MOTION_SMOOTH_HISTORY_SIZE MOTION_SMOOTH_CURRENT MOTION_SMOOTH_SIZE
      omega)
  have hptr := (hok.2 cur (List.getElem?_mem hcur)).2
  have hdrop3 : (write_back mem cur (window S lo)).drop (last.b + 1) = bs.drop (last.b + 1) := by
    rw [← hdrop last hlast]
    exact drop_eq_of_getElem? _ _ _
      (fun i hi => getElem?_write_back_ne mem cur _ i hptr (by omega))
  have hstream := stream_drop cs bs S 0 _ last hS hlast2
  have hstep : motion_step cs (motion_state.steady mem (window S lo)) =
      match get_next_location cs 1 (write_back mem cur (window S lo)) (last.b + 1) (some last) with
      | some location_future =>
        if location_distance location_future last < MOTION_SMOOTH_RESTART_LIMIT then
          motion_state.steady (write_back mem cur (window S lo))
            ((window S lo).tail ++ [location_future])
        else motion_state.steady (write_back mem cur (window S lo)) (window S lo).tail
      | none => motion_state.steady (write_back mem cur (window S lo)) (window S lo).tail := by
    simp only [motion_step, if_neg hsize, hwcur, hlast]
    rfl
  rw [hstep, get_next_location_congr cs 1 _ bs _ _ hdrop3]
  have hsucc := window_succ S lo
  by_cases hfull : lo + MOTION_SMOOTH_HISTORY_SIZE < S.length
  · -- a further sample exists
    have hwl2 : (window S lo).length = MOTION_SMOOTH_HISTORY_SIZE := by
      rw [hwl]
      omega
    have hidx : lo + ((window S lo).length - 1) + 1 = lo + MOTION_SMOOTH_HISTORY_SIZE := by
      rw [hwl2]
      unfold MOTION_SMOOTH_HISTORY_SIZE MOTION_SMOOTH_SIZE
      omega
    have hfut : S[lo + MOTION_SMOOTH_HISTORY_SIZE]? = some S[lo + MOTION_SMOOTH_HISTORY_SIZE] :=
      List.getElem?_eq_getElem hfull
    generalize S[lo + MOTION_SMOOTH_HISTORY_SIZE] = fut at hfut
    have hd : S.drop (lo + ((window S lo).length - 1) + 1) = fut :: S.drop (lo + MOTION_SMOOTH_HISTORY_SIZE + 1) := by
      rw [hidx, List.drop_eq_getElem_cons hfull]
      congr 1
      have := List.getElem?_eq_getElem hfull
      rw [hfut] at this
      simp only [Option.some.injEq] at this
      exact this.symm
    rw [hd] at hstream
    obtain ⟨hg, _⟩ := hstream
    have hfc := sample_complete_ptrs bs fut (hcomplete fut (List.getElem?_mem hfut))
    rw [get_next_location_prev cs bs _ fut (some last) hg hfc.1 hfc.2.1 hfc.2.2]
    have hcl2 : close_samples fut last := by
      apply hclose (lo + ((window S lo).length - 1)) last fut hlast2
      rw [hidx]
      exact hfut
    have hdist : location_distance fut last < MOTION_SMOOTH_RESTART_LIMIT := by
      unfold close_samples at hcl2
      rw [location_distance_lt_iff fut last (by omega)]
      exact hcl2
    simp only [if_pos hdist]
    rw [hfut] at hsucc
    simp only [Option.toList_some] at hsucc
    rw [hsucc]
    refine ⟨rfl, fun l2 hl2 => ?_⟩
    rw [← hsucc, List.getLast?_concat] at hl2
    simp only [Option.some.injEq] at hl2
    subst hl2
    have := (get_next_location_le cs 1 bs _ none _ hg).1
    exact drop_eq_mono _ bs (last.b + 1) _ hdrop3 (by omega)
  · -- the stream is exhausted
    have hnone : S[lo + MOTION_SMOOTH_HISTORY_SIZE]? = none :=
      List.getElem?_eq_none (by omega)
    have hwl2 : (window S lo).length = S.length - lo := by
      rw [hwl]
      omega
    have hd : S.drop (lo + ((window S lo).length - 1) + 1) = [] := by
      apply List.drop_eq_nil_of_le
      rw [hwl2]
      omega
    rw [hd] at hstream
    rw [get_next_location_none_prev cs bs _ (some last) hstream]
    rw [hnone] at hsucc
    simp only [Option.toList_none, List.append_nil] at hsucc
    rw [hsucc]
    refine ⟨rfl, fun l2 hl2 => ?_⟩
    have : l2 = last := by
      rw [← hsucc, List.getLast?_eq_getElem?, List.getElem?_tail, List.length_tail] at hl2
      rw [List.getLast?_eq_getElem?] at hlast
      have e : (window S lo).length - 1 - 1 + 1 = (window S lo).length - 1 := by
        rw [hwl2]
        omega
      rw [e, hlast] at hl2
      simp only [Option.some.injEq] at hl2
      exact hl2.symm
    rw [this]
    exact hdrop3

theorem motion_run_finish {F : Type} (cs : Bool) (n : Nat) (mem : List (block F)) :
    motion_run cs n (motion_state.finish mem) = motion_state.finish mem := by
  cases n <;> rfl

theorem motion_run_extend {F : Type} (cs : Bool) (k : Nat) :
    ∀ (s : motion_state F) (mem : List (block F)) (n : Nat),
      motion_run cs k s = motion_state.finish mem → k ≤ n →
      motion_run cs n s = motion_state.finish mem := by
  induction k with
  | zero =>
    intro s mem n h _
    simp only [motion_run] at h
    rw [h]
    exact motion_run_finish cs n mem
  | succ k ih =>
    intro s mem n h hn
    obtain ⟨n2, rfl⟩ : ∃ n2, n = n2 + 1 := ⟨n - 1, by omega⟩
    cases s with
    | finish m2 =>
      simp only [motion_run] at h ⊢
      exact h
    | undef m2 => simp [motion_run] at h
    | restart m2 b => exact ih _ mem n2 h (by omega)
    | steady m2 hist => exact ih _ mem n2 h (by omega)

theorem length_mem_after {F : Type} (bs : List (block F)) (S : List location_info) (lo : Nat) :
    (mem_after bs S lo).length = bs.length := by
  induction lo with
  | zero => rfl
  | succ lo ih =>
    simp only [mem_after]
    split
    · rw [length_write_back, ih]
    · exact ih

/-- From the window that starts at sample `lo` the pass writes the centres of all later
windows and reaches `finish_motion`. -/
theorem motion_run_windows {F : Type} (cs : Bool) (bs : List (block F))
    (S : List location_info) (hS : stream_from cs bs 0 S)
    (hcomplete : ∀ loc ∈ S, sample_complete bs loc = true)
    (hclose : ∀ k a b, S[k]? = some a → S[k + 1]? = some b → close_samples b a)
    (hN : MOTION_SMOOTH_CURRENT + 1 ≤ S.length)
    (htrail : ∀ last, S.getLast? = some last → last.b + 1 < bs.length) (d : Nat) :
    ∀ lo, lo + d = S.length - MOTION_SMOOTH_CURRENT →
      (∀ last, (window S lo).getLast? = some last →
        (mem_after bs S lo).drop (last.b + 1) = bs.drop (last.b + 1)) →
      motion_run cs (d + 2) (motion_state.steady (mem_after bs S lo) (window S lo)) =
        motion_state.finish (mem_after bs S (S.length - MOTION_SMOOTH_CURRENT)) := by
  unfold MOTION_SMOOTH_CURRENT MOTION_SMOOTH_SIZE at hN
  induction d with
  | zero =>
    intro lo hlo hdrop
    have hlo2 : lo = S.length - MOTION_SMOOTH_CURRENT := by omega
    have hlo3 : lo + 30 = S.length := by
      rw [hlo2]
      unfold MOTION_SMOOTH_CURRENT MOTION_SMOOTH_SIZE
      omega
    have hwl : (window S lo).length = 30 := by
      rw [window_length]
      unfold MOTION_SMOOTH_HISTORY_SIZE MOTION_SMOOTH_SIZE
      omega
    obtain ⟨last, hlast⟩ : ∃ last, (window S lo).getLast? = some last := by
      rw [List.getLast?_eq_getElem?]
      exact ⟨(window S lo)[(window S lo).length - 1], List.getElem?_eq_getElem (by omega)⟩
    have hlast2 : S[S.length - 1]? = some last := by
      have : S[lo + ((window S lo).length - 1)]? = some last := by
        rw [← window_getElem? S lo _ (by
          rw [hwl]; unfold MOTION_SMOOTH_HISTORY_SIZE MOTION_SMOOTH_SIZE; omega),
          ← List.getLast?_eq_getElem?]
        exact hlast
      rw [hwl] at this
      rw [← this]
      congr 1
      omega
    have hstream := stream_drop cs bs S 0 _ last hS hlast2
    have hd : S.drop (S.length - 1 + 1) = [] := List.drop_eq_nil_of_le (by omega)
    rw [hd] at hstream
    have htr := htrail last (by rw [List.getLast?_eq_getElem?]; exact hlast2)
    have hsize : (window S lo).length < MOTION_SMOOTH_CURRENT + 1 := by
      rw [hwl]
      decide
    have h1 : motion_step cs (motion_state.steady (mem_after bs S lo) (window S lo)) =
        motion_state.restart (mem_after bs S lo) (last.b + 1) := by
      simp only [motion_step, if_pos hsize, hlast]
    have h2 : motion_step cs (motion_state.restart (mem_after bs S lo) (last.b + 1)) =
        motion_state.finish (mem_after bs S lo) := by
      simp only [motion_step]
      rw [show MOTION_SMOOTH_HISTORY_SIZE = 60 + 1 from rfl,
        fill_motion_end cs bs _ 60 _ [] hstream (hdrop last hlast)
          (by rw [length_mem_after]; exact htr)]
    show motion_run cs 2 _ = _
    simp only [motion_run, h1, h2]
    rw [hlo2]
  | succ d ih =>
    intro lo hlo hdrop
    have hlt : lo + 30 < S.length := by
      unfold MOTION_SMOOTH_CURRENT MOTION_SMOOTH_SIZE at hlo
      omega
    have hcur : S[lo + MOTION_SMOOTH_CURRENT]? = some S[lo + 30] :=
      List.getElem?_eq_getElem hlt
    obtain ⟨hstep, hdrop2⟩ := motion_step_window cs bs S hS hcomplete hclose lo _ hcur
      (mem_after bs S lo) hdrop
    have hmem : mem_after bs S (lo + 1) = write_back (mem_after bs S lo) S[lo + 30] (window S lo) := by
      simp only [mem_after, hcur]
    show motion_run cs (d + 2 + 1) _ = _
    simp only [motion_run, hstep]
    rw [← hmem] at hdrop2 ⊢
    exact ih (lo + 1) (by omega) hdrop2

/-- On a regular stream of at least 61 samples that is followed by a record without
update, `smooth_motion` reaches `finish_motion` and leaves the memory `mem_after`. -/
theorem smooth_motion_regular {F : Type} (cs : Bool) (bs : List (block F))
    (hcomplete : ∀ loc ∈ samples cs bs, sample_complete bs loc = true)
    (hclose : ∀ k a b, (samples cs bs)[k]? = some a → (samples cs bs)[k + 1]? = some b →
      close_samples b a)
    (hN : MOTION_SMOOTH_HISTORY_SIZE ≤ (samples cs bs).length)
    (htrail : ∀ last, (samples cs bs).getLast? = some last → last.b + 1 < bs.length) :
    (smooth_motion cs bs).st = status.finished ∧
      (smooth_motion cs bs).blocks =
        mem_after bs (samples cs bs) ((samples cs bs).length - MOTION_SMOOTH_CURRENT) := by
  have hS := samples_stream cs bs
  generalize samples cs bs = S at *
  have hN2 : 61 ≤ S.length := hN
  have hfill : motion_step cs (motion_state.restart bs 0) = motion_state.steady bs (window S 0) := by
    simp only [motion_step]
    rw [fill_motion_stream cs bs bs rfl _ 0 [] S hS rfl hN]
    rfl
  have hrun := motion_run_windows cs bs S hS hcomplete hclose
    (by unfold MOTION_SMOOTH_CURRENT MOTION_SMOOTH_SIZE; omega) htrail
    (S.length - MOTION_SMOOTH_CURRENT) 0 (by omega) (fun _ _ => rfl)
  have hall : motion_run cs (S.length - MOTION_SMOOTH_CURRENT + 2 + 1) (motion_state.restart bs 0)
      = motion_state.finish (mem_after bs S (S.length - MOTION_SMOOTH_CURRENT)) := by
    simp only [motion_run, hfill]
    exact hrun
  have hlen : S.length ≤ bs.length := by
    have := stream_from_length cs bs S 0 hS (by intro h; rw [h] at hN2; simp at hN2)
    omega
  have hfuel := motion_run_extend cs _ _ _ (64 * (bs.length + 1)) hall (by
    unfold MOTION_SMOOTH_CURRENT MOTION_SMOOTH_SIZE
    omega)
  unfold smooth_motion
  rw [hfuel]
  exact ⟨rfl, rfl⟩

end Demsmooth

namespace Demsmooth

/-! ## The record of a written sample -/

theorem getElem?_store_opt_congr {F : Type} (mem mem2 : List (block F)) (q : Option field_ptr)
    (v : Int) (i : Nat) (h : mem[i]? = mem2[i]?) :
    (store_opt mem q v)[i]? = (store_opt mem2 q v)[i]? := by
  cases q with
  | none => exact h
  | some p =>
    simp only [store_opt, store_i16, getElem?_modify_nth, h]

theorem getElem?_write_back_congr {F : Type} (mem mem2 : List (block F)) (cur : location_info)
    (w : List location_info) (i : Nat) (h : mem[i]? = mem2[i]?) :
    (write_back mem cur w)[i]? = (write_back mem2 cur w)[i]? := by
  unfold write_back
  exact getElem?_store_opt_congr _ _ _ _ i
    (getElem?_store_opt_congr _ _ _ _ i (getElem?_store_opt_congr _ _ _ _ i h))

theorem modify_nth_modify_nth {α : Type} (f g : α → α) (l : List α) (i : Nat) :
    modify_nth f (modify_nth g l i) i = modify_nth (fun a => f (g a)) l i := by
  induction l generalizing i with
  | nil => rfl
  | cons a l ih =>
    cases i with
    | zero => rfl
    | succ i => simp [modify_nth, ih]

/-- The record of a sample with all three coordinates after the three stores: message
`j` holds the three written values, the rest of the record is unchanged. -/
theorem getElem?_write_back_self {F : Type} (mem : List (block F)) (b j ox oy oz : Nat)
    (x y z : Int) (w : List location_info) (blk : block F) (hget : mem[b]? = some blk) :
    (write_back mem ⟨b, x, y, z, some ⟨b, j, ox⟩, some ⟨b, j, oy⟩, some ⟨b, j, oz⟩⟩ w)[b]? =
      some ⟨blk.angles0, blk.angles1, blk.angles2,
        modify_nth (fun m => ⟨m.type,
          write_i16 (write_i16 (write_i16 m.data ox (motion_average (fun l => l.x) w))
            oy (motion_average (fun l => l.y) w)) oz (motion_average (fun l => l.z) w)⟩)
          blk.messages j⟩ := by
  simp only [write_back, store_opt, store_i16, getElem?_modify_nth, hget, if_true, Option.map_some',
    modify_nth_modify_nth]

theorem getElem?_modify_nth_self {α : Type} (f : α → α) (l : List α) (i : Nat) (a : α)
    (h : l[i]? = some a) : (modify_nth f l i)[i]? = some (f a) := by
  rw [getElem?_modify_nth, if_pos rfl, h]
  rfl

/-- The decoder on the record of a written sample finds the written values. -/
theorem scan_written {F : Type} (cs : Bool) (bs : List (block F)) (start : Nat)
    (loc : location_info) (hg : get_next_location cs 1 bs start none = some loc)
    (hc : sample_complete bs loc = true) (w : List location_info) (mem : List (block F))
    (hmem : mem[loc.b]? = bs[loc.b]?) :
    ∃ blk2, (write_back mem loc w)[loc.b]? = some blk2 ∧
      scan_messages cs 1 loc.b none blk2.messages 0 =
        some ⟨loc.b, to_i16 (motion_average (fun l => l.x) w),
          to_i16 (motion_average (fun l => l.y) w), to_i16 (motion_average (fun l => l.z) w),
          loc.x_ptr, loc.y_ptr, loc.z_ptr⟩ := by
  obtain ⟨px, py, pz⟩ := sample_complete_ptrs bs loc hc
  obtain ⟨blk, j, m, hget, hj, hup, hfirst, bx, by2, bz, hloc⟩ :=
    sample_message cs bs start none loc hg px py pz
  have hfit : layout_z (decode_mask cs m).1 (decode_mask cs m).2 + 2 ≤ m.data.length := by
    unfold sample_complete at hc
    simp only [Bool.and_eq_true] at hc
    have hz := hc.2
    rw [hloc] at hz
    simp only [field_fits, hget, hj, decide_eq_true_eq] at hz
    exact hz
  generalize hox : layout_x (decode_mask cs m).1 (decode_mask cs m).2 = ox at *
  generalize hoy : layout_y (decode_mask cs m).1 (decode_mask cs m).2 = oy at *
  generalize hoz : layout_z (decode_mask cs m).1 (decode_mask cs m).2 = oz at *
  rw [hloc]
  simp only
  have hwb := getElem?_write_back_self mem loc.b j ox oy oz
    (read_i16 m.data ox) (read_i16 m.data oy) (read_i16 m.data oz) w blk (by rw [hmem, hget])
  refine ⟨_, hwb, ?_⟩
  simp only
  apply scan_messages_of_first cs 1 loc.b none _ j _ _
    (getElem?_modify_nth_self _ blk.messages j m hj)
  · intro j2 m2 hlt hget2
    rw [getElem?_modify_nth, if_neg (by omega)] at hget2
    exact hfirst j2 m2 hlt hget2
  · have := decode_message_written cs 1 loc.b j m.type m.data none
      (motion_average (fun l => l.x) w) (motion_average (fun l => l.y) w)
      (motion_average (fun l => l.z) w) hup bx by2 bz (by rw [hoz]; exact hfit)
    rw [hox, hoy, hoz] at this
    exact this

end Demsmooth

namespace Demsmooth

/-! ## The memory after the pass, record by record -/

theorem stream_b_injective {F : Type} (cs : Bool) (bs : List (block F)) (S : List location_info)
    (hS : stream_from cs bs 0 S) (k k2 : Nat) (a a2 : location_info)
    (hk : S[k]? = some a) (hk2 : S[k2]? = some a2) (hb : a.b = a2.b) : k = k2 := by
  have hinc := (stream_sorted cs bs S 0 hS).1
  rcases Nat.lt_trichotomy k k2 with h | h | h
  · have := (hist_m_le_of_index S hinc k k2 a a2 hk hk2).1 h
    omega
  · exact h
  · have := (hist_m_le_of_index S hinc k2 k a2 a hk2 hk).1 h
    omega

theorem mem_after_other {F : Type} (cs : Bool) (bs : List (block F)) (S : List location_info)
    (hS : stream_from cs bs 0 S) (i : Nat) :
    ∀ lo, (∀ k loc, k < lo → S[k + MOTION_SMOOTH_CURRENT]? = some loc → loc.b ≠ i) →
      (mem_after bs S lo)[i]? = bs[i]? := by
  intro lo
  induction lo with
  | zero => intro _; rfl
  | succ lo ih =>
    intro h
    have hprev := ih (fun k loc hk hget => h k loc (by omega) hget)
    simp only [mem_after]
    cases hc : S[lo + MOTION_SMOOTH_CURRENT]? with
    | none => exact hprev
    | some cur =>
      simp only
      have hptr := ((stream_hist_ok cs bs S 0 hS).2 cur (List.getElem?_mem hc)).2
      rw [getElem?_write_back_ne _ cur _ i hptr (fun e => h lo cur (by omega) hc e.symm)]
      exact hprev

theorem mem_after_self {F : Type} (cs : Bool) (bs : List (block F)) (S : List location_info)
    (hS : stream_from cs bs 0 S) (k : Nat) (loc : location_info)
    (hget : S[k + MOTION_SMOOTH_CURRENT]? = some loc) :
    ∀ lo, k < lo →
      (mem_after bs S lo)[loc.b]? = (write_back bs loc (window S k))[loc.b]? := by
  intro lo
  induction lo with
  | zero => intro h; exact absurd h (Nat.not_lt_zero _)
  | succ lo ih =>
    intro hlt
    simp only [mem_after]
    by_cases hk : k = lo
    · subst hk
      rw [hget]
      simp only
      apply getElem?_write_back_congr
      apply mem_after_other cs bs S hS loc.b k
      intro k2 loc2 hk2 hget2 hb
      have := stream_b_injective cs bs S hS _ _ loc2 loc hget2 hget hb
      omega
    · have hprev := ih (by omega)
      cases hc : S[lo + MOTION_SMOOTH_CURRENT]? with
      | none => exact hprev
      | some cur =>
        simp only
        have hptr := ((stream_hist_ok cs bs S 0 hS).2 cur (List.getElem?_mem hc)).2
        rw [getElem?_write_back_ne _ cur _ loc.b hptr (fun e => by
          have := stream_b_injective cs bs S hS _ _ loc cur hget hc e
          omega)]
        exact hprev

theorem smoothed_b (S : List location_info) (k : Nat) (loc : location_info) :
    (smoothed S k loc).b = loc.b := by
  unfold smoothed
  split <;> rfl

/-- The samples of the memory after the pass are the smoothed samples. -/
theorem stream_smoothed {F : Type} (cs : Bool) (bs : List (block F)) (S : List location_info)
    (hS : stream_from cs bs 0 S) (hcomplete : ∀ loc ∈ S, sample_complete bs loc = true)
    (M : Nat) (hM : M + MOTION_SMOOTH_CURRENT = S.length) (L : List location_info) :
    ∀ (k start : Nat), L = S.drop k →
      (∀ k2 loc, k2 < k → S[k2]? = some loc → loc.b < start) →
      stream_from cs bs start L →
      stream_from cs (mem_after bs S M) start (smoothed_from S k L) := by
  have hinc := (stream_sorted cs bs S 0 hS).1
  induction L with
  | nil =>
    intro k start hL hbefore hs
    have hk : S.length ≤ k := by
      have := congrArg List.length hL
      simp only [List.length_nil, List.length_drop] at this
      omega
    show get_next_location cs 1 (mem_after bs S M) start none = none
    rw [get_next_location_eq_none_iff]
    intro i blk hi hget
    have hsame : (mem_after bs S M)[i]? = bs[i]? := by
      apply mem_after_other cs bs S hS i M
      intro k2 loc hk2 hget2 hb
      have h1 := (List.getElem?_eq_some_iff.mp hget2).1
      have := hbefore _ loc (by omega) hget2
      omega
    rw [hsame] at hget
    exact (get_next_location_eq_none_iff cs 1 bs none start).mp hs i blk hi hget
  | cons loc L ih =>
    intro k start hL hbefore hs
    obtain ⟨hg, hrest⟩ := hs
    have hklt : k < S.length := by
      have := congrArg List.length hL
      simp only [List.length_cons, List.length_drop] at this
      omega
    have hSk : S[k]? = some loc := by
      have := congrArg (fun l => l[0]?) hL
      simp only [List.getElem?_cons_zero, List.getElem?_drop, Nat.add_zero] at this
      exact this.symm
    have hL2 : L = S.drop (k + 1) := by
      have := congrArg List.tail hL
      simpa using this
    obtain ⟨hle, hlen⟩ := get_next_location_le cs 1 bs start none loc hg
    obtain ⟨⟨blk, hget, hscan⟩, hearlier⟩ :=
      (get_next_location_eq_some_iff cs 1 bs none loc (loc.b - start) start (by omega)).mp hg
    refine ⟨?_, ?_⟩
    · rw [get_next_location_eq_some_iff cs 1 _ none _ (loc.b - start) start
        (by rw [smoothed_b]; omega), smoothed_b]
      refine ⟨?_, ?_⟩
      · by_cases hk30 : k < MOTION_SMOOTH_CURRENT
        · have hsame : (mem_after bs S M)[loc.b]? = bs[loc.b]? := by
            apply mem_after_other cs bs S hS loc.b M
            intro k2 loc2 _ hget2 hb
            have := stream_b_injective cs bs S hS _ _ loc2 loc hget2 hSk hb
            omega
          refine ⟨blk, by rw [hsame]; exact hget, ?_⟩
          simp only [smoothed, if_pos hk30]
          exact hscan
        · have hidx : k - MOTION_SMOOTH_CURRENT + MOTION_SMOOTH_CURRENT = k := by omega
          have hself := mem_after_self cs bs S hS (k - MOTION_SMOOTH_CURRENT) loc
            (by rw [hidx]; exact hSk) M (by omega)
          obtain ⟨blk2, hget2, hscan2⟩ := scan_written cs bs start loc hg
            (hcomplete loc (List.getElem?_mem hSk)) (window S (k - MOTION_SMOOTH_CURRENT)) bs rfl
          refine ⟨blk2, by rw [hself]; exact hget2, ?_⟩
          simp only [smoothed, if_neg hk30]
          exact hscan2
      · intro i blk2 hi1 hi2 hget2
        have hsame : (mem_after bs S M)[i]? = bs[i]? := by
          apply mem_after_other cs bs S hS i M
          intro k2 loc2 _ hget3 hb
          by_cases hk2 : k2 + MOTION_SMOOTH_CURRENT < k
          · have := hbefore _ loc2 hk2 hget3
            omega
          · have := (hist_m_le_of_index S hinc k (k2 + MOTION_SMOOTH_CURRENT) loc loc2
              hSk hget3).2 (by omega)
            omega
        rw [hsame] at hget2
        exact hearlier i blk2 hi1 hi2 hget2
    · rw [smoothed_b]
      apply ih (k + 1) (loc.b + 1) hL2 _ hrest
      intro k2 loc2 hk2 hget2
      by_cases hk3 : k2 < k
      · have := hbefore k2 loc2 hk3 hget2
        omega
      · have hk4 : k2 = k := by omega
        subst hk4
        rw [hSk] at hget2
        simp only [Option.some.injEq] at hget2
        rw [← hget2]
        omega

theorem smoothed_from_getElem? (S : List location_info) (L : List location_info) :
    ∀ (k i : Nat), (smoothed_from S k L)[i]? = (L[i]?).map (smoothed S (k + i)) := by
  induction L with
  | nil => intro k i; simp [smoothed_from]
  | cons loc L ih =>
    intro k i
    cases i with
    | zero => simp [smoothed_from]
    | succ i =>
      simp only [smoothed_from, List.getElem?_cons_succ, ih (k + 1) i]
      rw [show k + 1 + i = k + (i + 1) by omega]

/-! ## The means of the windows -/

theorem list_sum_bounds (l : List Int) (a b : Int) (h : ∀ v ∈ l, a ≤ v ∧ v ≤ b) :
    (l.length : Int) * a ≤ l.sum ∧ l.sum ≤ (l.length : Int) * b := by
  induction l with
  | nil => simp
  | cons v l ih =>
    obtain ⟨h1, h2⟩ := ih (fun x hx => h x (List.mem_cons_of_mem _ hx))
    obtain ⟨h3, h4⟩ := h v (List.mem_cons_self _ _)
    simp only [List.length_cons, List.sum_cons, Nat.cast_add, Nat.cast_one]
    constructor <;> nlinarith

theorem tdiv_bounds (s n a b : Int) (hn : 0 < n) (ha : a ≤ 0) (hb : 0 ≤ b)
    (h1 : n * a ≤ s) (h2 : s ≤ n * b) : a ≤ Int.tdiv s n ∧ Int.tdiv s n ≤ b := by
  by_cases hs : 0 ≤ s
  · rw [Int.tdiv_eq_ediv hs (le_of_lt hn)]
    exact ⟨le_trans ha (Int.ediv_nonneg hs (le_of_lt hn)),
      Int.ediv_le_of_le_mul hn (by linarith [mul_comm n b])⟩
  · have hs2 : 0 ≤ -s := by omega
    have e : s = -(-s) := by ring
    rw [e, Int.neg_tdiv, Int.tdiv_eq_ediv hs2 (le_of_lt hn)]
    have h3 : -s / n ≤ -a := Int.ediv_le_of_le_mul hn (by linarith [mul_comm n a])
    have h4 := Int.ediv_nonneg hs2 (le_of_lt hn)
    constructor <;> omega

theorem motion_average_i16 (f : location_info → Int) (h : List location_info)
    (hne : h ≠ []) (hr : ∀ l ∈ h, -32768 ≤ f l ∧ f l < 32768) :
    to_i16 (motion_average f h) = motion_average f h := by
  unfold motion_average
  have hlen : (0 : Int) < (h.length : Int) := by
    have := List.length_pos.mpr hne
    exact_mod_cast this
  obtain ⟨h1, h2⟩ := list_sum_bounds (h.map f) (-32768) 32767 (by
    intro v hv
    obtain ⟨l, hl, rfl⟩ := List.mem_map.mp hv
    have := hr l hl
    omega)
  rw [List.length_map] at h1 h2
  obtain ⟨h3, h4⟩ := tdiv_bounds _ _ (-32768) 32767 hlen (by decide) (by decide) h1 h2
  exact to_i16_of_range _ h3 (by omega)

theorem slice_eq_range (vals : List Int) (lo : Nat) (hlo : lo < vals.length) :
    (vals.drop lo).take 61 =
      (List.range (min (lo + 60) (vals.length - 1) + 1 - lo)).map
        (fun k => vals.getD (lo + k) 0) := by
  apply List.ext_getElem?
  intro k
  rw [List.getElem?_map]
  by_cases hk : k < min (lo + 60) (vals.length - 1) + 1 - lo
  · rw [List.getElem?_range hk, List.getElem?_take_of_lt (by omega), List.getElem?_drop]
    have hlt : lo + k < vals.length := by omega
    simp only [Option.map_some', List.getD_eq_getElem?_getD, List.getElem?_eq_getElem hlt,
      Option.getD_some]
  · have h1 : ((vals.drop lo).take 61)[k]? = none :=
      List.getElem?_eq_none (by rw [List.length_take, List.length_drop]; omega)
    have h2 : (List.range (min (lo + 60) (vals.length - 1) + 1 - lo))[k]? = none :=
      List.getElem?_eq_none (by rw [List.length_range]; omega)
    rw [h1, h2]
    rfl

theorem window_mean_eq (S : List location_info) (f : location_info → Int) (i : Nat)
    (hi : 30 ≤ i) (hiN : i < S.length) :
    motion_average f (window S (i - MOTION_SMOOTH_CURRENT)) = reference_mean (S.map f) i := by
  have hlo : i - 30 < (S.map f).length := by
    rw [List.length_map]
    omega
  have hsl := slice_eq_range (S.map f) (i - 30) hlo
  have e : i - 30 + 60 = i + 30 := by omega
  rw [e] at hsl
  unfold motion_average reference_mean range_sum window MOTION_SMOOTH_HISTORY_SIZE
    MOTION_SMOOTH_CURRENT MOTION_SMOOTH_SIZE
  rw [List.map_take, List.map_drop, show 2 * 30 + 1 = 61 from rfl, hsl]
  congr 1
  have := congrArg List.length hsl
  simp only [List.length_take, List.length_drop, List.length_map, List.length_range] at this
  simp only [List.length_take, List.length_drop, List.length_map]
  rw [this]

theorem close_samples_symm (a b : location_info) (h : close_samples a b) : close_samples b a := by
  unfold close_samples at *
  have e1 : (b.x - a.x) * (b.x - a.x) = (a.x - b.x) * (a.x - b.x) := by ring
  have e2 : (b.y - a.y) * (b.y - a.y) = (a.y - b.y) * (a.y - b.y) := by ring
  have e3 : (b.z - a.z) * (b.z - a.z) = (a.z - b.z) * (a.z - b.z) := by ring
  rw [e1, e2, e3]
  exact h

theorem sample_values_range {F : Type} (cs : Bool) (bs : List (block F))
    (S : List location_info) (hS : stream_from cs bs 0 S)
    (hcomplete : ∀ loc ∈ S, sample_complete bs loc = true) (loc : location_info)
    (hmem : loc ∈ S) :
    (-32768 ≤ loc.x ∧ loc.x < 32768) ∧ (-32768 ≤ loc.y ∧ loc.y < 32768) ∧
      (-32768 ≤ loc.z ∧ loc.z < 32768) := by
  obtain ⟨s, _, hg⟩ := stream_mem cs bs S 0 hS loc hmem
  obtain ⟨px, py, pz⟩ := sample_complete_ptrs bs loc (hcomplete loc hmem)
  obtain ⟨blk, j, m, _, _, _, _, _, _, _, hloc⟩ := sample_message cs bs s none loc hg px py pz
  have hx := congrArg location_info.x hloc
  have hy := congrArg location_info.y hloc
  have hz := congrArg location_info.z hloc
  simp only at hx hy hz
  rw [hx, hy, hz]
  exact ⟨read_i16_range _ _, read_i16_range _ _, read_i16_range _ _⟩

end Demsmooth

namespace Demsmooth

/-! ## The reference definition of the motion pass -/

theorem chain_getElem? (S : List location_info) (h : S.Chain' close_samples) (k : Nat)
    (a b : location_info) (ha : S[k]? = some a) (hb : S[k + 1]? = some b) :
    close_samples a b := by
  obtain ⟨h1, e1⟩ := List.getElem?_eq_some_iff.mp ha
  obtain ⟨h2, e2⟩ := List.getElem?_eq_some_iff.mp hb
  have := List.chain'_iff_get.mp h k (by omega)
  simp only [List.get_eq_getElem] at this
  rw [e1, e2] at this
  exact this

/-- The samples of the memory left by the pass, on a regular stream. -/
theorem samples_after_pass {F : Type} (cs : Bool) (bs : List (block F))
    (hN : 61 ≤ (samples cs bs).length)
    (hcomplete : ∀ loc ∈ samples cs bs, sample_complete bs loc = true)
    (hclose : (samples cs bs).Chain' close_samples)
    (htrail : ∀ loc ∈ samples cs bs, loc.b + 1 < bs.length) :
    (smooth_motion cs bs).st = status.finished ∧
      samples cs (smooth_motion cs bs).blocks = smoothed_from (samples cs bs) 0 (samples cs bs) := by
  have hS := samples_stream cs bs
  obtain ⟨hst, hblocks⟩ := smooth_motion_regular cs bs hcomplete
    (fun k a b ha hb => close_samples_symm a b (chain_getElem? _ hclose k a b ha hb)) hN
    (fun last hl => htrail last (List.mem_of_mem_getLast? hl))
  refine ⟨hst, ?_⟩
  rw [hblocks]
  apply samples_of_stream
  apply stream_smoothed cs bs _ hS hcomplete _ _ _ 0 0 rfl _ hS
  · unfold MOTION_SMOOTH_CURRENT MOTION_SMOOTH_SIZE
    omega
  · intro k2 loc hk2
    exact absurd hk2 (Nat.not_lt_zero _)

/-- C1: for every record list that holds `N ≥ 61` samples of the tracked entity (the first
update of entity 1 of each record that has one), each with x, y and z present in its
payload, every consecutive pair closer than 200 units, and a later record behind the last
of them: `smooth_motion` finishes, the record list it leaves holds the same `N` samples,
each of the x, y, z fields of sample `i` with `30 ≤ i ≤ N - 1` is the sum of the original
values of that field over the samples `i - 30 .. min (i + 30) (N - 1)` divided by the
number of samples in that range with truncation toward zero, and the fields of the
samples 0 to 29 are unchanged. -/
theorem smooth_motion_reference {F : Type} (cs : Bool) (bs : List (block F))
    (hN : 61 ≤ (samples cs bs).length)
    (hcomplete : ∀ loc ∈ samples cs bs, sample_complete bs loc = true)
    (hclose : (samples cs bs).Chain' close_samples)
    (htrail : ∀ loc ∈ samples cs bs, loc.b + 1 < bs.length) :
    (smooth_motion cs bs).st = status.finished ∧
      (samples cs (smooth_motion cs bs).blocks).length = (samples cs bs).length ∧
      ∀ i, i < (samples cs bs).length →
        (i < 30 →
          (sample_xs cs (smooth_motion cs bs).blocks)[i]? = (sample_xs cs bs)[i]? ∧
          (sample_ys cs (smooth_motion cs bs).blocks)[i]? = (sample_ys cs bs)[i]? ∧
          (sample_zs cs (smooth_motion cs bs).blocks)[i]? = (sample_zs cs bs)[i]?) ∧
        (30 ≤ i →
          (sample_xs cs (smooth_motion cs bs).blocks)[i]?
            = some (reference_mean (sample_xs cs bs) i) ∧
          (sample_ys cs (smooth_motion cs bs).blocks)[i]?
            = some (reference_mean (sample_ys cs bs) i) ∧
          (sample_zs cs (smooth_motion cs bs).blocks)[i]?
            = some (reference_mean (sample_zs cs bs) i)) := by
  obtain ⟨hst, hsamples⟩ := samples_after_pass cs bs hN hcomplete hclose htrail
  have hS := samples_stream cs bs
  unfold sample_xs sample_ys sample_zs
  rw [hsamples]
  generalize samples cs bs = S at *
  have hget : ∀ i, (smoothed_from S 0 S)[i]? = (S[i]?).map (smoothed S i) := by
    intro i
    rw [smoothed_from_getElem?, Nat.zero_add]
  have hlen : (smoothed_from S 0 S).length = S.length := by
    apply Nat.le_antisymm
    · by_contra hgt
      have h1 := hget S.length
      rw [List.getElem?_eq_none (le_refl _), List.getElem?_eq_getElem (by omega)] at h1
      exact absurd h1 (by simp)
    · by_contra hlt
      have h1 := hget (smoothed_from S 0 S).length
      rw [List.getElem?_eq_none (le_refl _), List.getElem?_eq_getElem (by omega)] at h1
      exact absurd h1 (by simp)
  refine ⟨hst, hlen, fun i hi => ⟨fun h30 => ?_, fun h30 => ?_⟩⟩
  · have hs : ∀ loc, smoothed S i loc = loc := by
      intro loc
      unfold smoothed
      rw [if_pos (by unfold MOTION_SMOOTH_CURRENT MOTION_SMOOTH_SIZE; exact h30)]
    simp only [List.getElem?_map, hget, Option.map_map]
    refine ⟨?_, ?_, ?_⟩ <;> congr 1 <;> funext loc <;> simp [hs]
  · have hSi : S[i]? = some S[i] := List.getElem?_eq_getElem hi
    have hne : ¬ i < MOTION_SMOOTH_CURRENT := by
      unfold MOTION_SMOOTH_CURRENT MOTION_SMOOTH_SIZE
      omega
    have hwne : window S (i - MOTION_SMOOTH_CURRENT) ≠ [] := by
      intro h
      have := congrArg List.length h
      rw [window_length] at this
      unfold MOTION_SMOOTH_HISTORY_SIZE MOTION_SMOOTH_CURRENT MOTION_SMOOTH_SIZE at this
      simp only [List.length_nil] at this
      omega
    have hwr : ∀ l ∈ window S (i - MOTION_SMOOTH_CURRENT), l ∈ S := by
      intro l hl
      unfold window at hl
      exact List.mem_of_mem_drop (List.mem_of_mem_take hl)
    have hrx := motion_average_i16 (fun l => l.x) _ hwne
      (fun l hl => (sample_values_range cs bs S hS hcomplete l (hwr l hl)).1)
    have hry := motion_average_i16 (fun l => l.y) _ hwne
      (fun l hl => (sample_values_range cs bs S hS hcomplete l (hwr l hl)).2.1)
    have hrz := motion_average_i16 (fun l => l.z) _ hwne
      (fun l hl => (sample_values_range cs bs S hS hcomplete l (hwr l hl)).2.2)
    simp only [List.getElem?_map, hget, hSi, Option.map_some', smoothed, if_neg hne]
    rw [hrx, hry, hrz, window_mean_eq S _ i h30 hi, window_mean_eq S _ i h30 hi,
      window_mean_eq S _ i h30 hi]
    exact ⟨rfl, rfl, rfl⟩

/-- Witness of `smooth_motion_reference`: the record list `steady_walk`. -/
theorem smooth_motion_reference_witness :
    (smooth_motion true steady_walk).st = status.finished ∧
      (samples true (smooth_motion true steady_walk).blocks).length
        = (samples true steady_walk).length ∧
      ∀ i, i < (samples true steady_walk).length →
        (i < 30 →
          (sample_xs true (smooth_motion true steady_walk).blocks)[i]?
            = (sample_xs true steady_walk)[i]? ∧
          (sample_ys true (smooth_motion true steady_walk).blocks)[i]?
            = (sample_ys true steady_walk)[i]? ∧
          (sample_zs true (smooth_motion true steady_walk).blocks)[i]?
            = (sample_zs true steady_walk)[i]?) ∧
        (30 ≤ i →
          (sample_xs true (smooth_motion true steady_walk).blocks)[i]?
            = some (reference_mean (sample_xs true steady_walk) i) ∧
          (sample_ys true (smooth_motion true steady_walk).blocks)[i]?
            = some (reference_mean (sample_ys true steady_walk) i) ∧
          (sample_zs true (smooth_motion true steady_walk).blocks)[i]?
            = some (reference_mean (sample_zs true steady_walk) i)) :=
  smooth_motion_reference true steady_walk (by decide!) (by decide!)
    (List.chain'_iff_get.mpr (by decide!)) (by decide!)

end Demsmooth

namespace Demsmooth

/-! ## The passes at the edges of the record list -/

/-- C13 (evaluation at the failing input): on the empty record list each of the three
passes leaves its populate loop with `history_size = 0` and then reads
`history[history_size - 1]`, the element at index -1. -/
theorem empty_list_reads_before_history {F D : Type} (cs : Bool) (TIME : Nat)
    (ops : float_arith F D) (lib : float_libm D) :
    (smooth_motion cs ([] : List (block F))).st = status.undefined ∧
      (smooth_camera_xy TIME ops lib ([] : List (block F))).st = status.undefined ∧
      (smooth_camera_z TIME ops ([] : List (block F))).st = status.undefined :=
  ⟨rfl, rfl, rfl⟩

/-- C14 (evaluation at the failing input): `short_stream` holds 61 timed records followed
by one untimed record.  Both camera passes jump to `finish_angles` from the populate loop
and leave every record as it was, where the aggregate over the 61 samples was due at the
timed record 60.  On `short_timed`, the same records without the untimed one, record 60
receives the mean 30 of the rolls 0 to 60. -/
theorem short_stream_is_not_smoothed (lib : float_libm ieee) :
    (smooth_camera_z 7 ieee_arith short_stream).st = status.finished ∧
      (smooth_camera_z 7 ieee_arith short_stream).blocks = short_stream ∧
      (smooth_camera_xy 7 ieee_arith lib short_stream).st = status.finished ∧
      (smooth_camera_xy 7 ieee_arith lib short_stream).blocks = short_stream ∧
      (short_stream.map (fun blk => blk.angles2))[60]? = some (.num 60) ∧
      ((smooth_camera_z 7 ieee_arith short_timed).blocks.map (fun blk => blk.angles2))[60]?
        = some (.num 30) :=
  ⟨rfl, rfl, rfl, rfl, by decide!, by decide!⟩

/-- C18 (evaluation at the failing input): `mystrduprep` cuts the name at the first
occurrence of `.dem`, wherever it is: `a.dem.dem` gives `a_processed.dem`,
`my.demos/run.dem` gives `my_processed.dem`, and `x.demo`, which does not end with
`.dem`, gives `x_processed.dem`. -/
theorem first_occurrence_is_replaced :
    out_name "a.dem.dem" = some "a_processed.dem" ∧
      out_name "my.demos/run.dem" = some "my_processed.dem" ∧
      out_name "x.demo" = some "x_processed.dem" ∧
      out_name "run.dem" = some "run_processed.dem" ∧
      out_name "run" = none := by
  decide

/-- C19 (evaluation at the failing input): on a record list whose last record is timed
(a single timed record, or the 61 timed records of `short_timed`) the camera passes end
by reading `history[-1]`: the restart after the last sample begins at the null pointer,
the populate loop is skipped with `history_size = 0`, and `history[history_size - 1]` is
read.  So does `smooth_motion` on a single record with an update of entity 1. -/
theorem last_record_reads_before_history (lib : float_libm ieee) :
    (smooth_camera_z 7 ieee_arith single_timed).st = status.undefined ∧
      (smooth_camera_xy 7 ieee_arith lib single_timed).st = status.undefined ∧
      (smooth_camera_z 7 ieee_arith short_timed).st = status.undefined ∧
      (smooth_motion true [update_record 1 2 3]).st = status.undefined :=
  ⟨rfl, rfl, by decide!, by decide!⟩

/-- C20 (evaluation at the failing input): in `omitted_x` every update is at (100, 5, 7)
and the odd ones omit x.  The populate loop decodes with a null `prev`, so the history
holds x = 0 for sample 1, which has the earlier sample 0; the same update decoded with
sample 0 as `prev`, as in a slide, has x = 100.  The pass writes to sample 30 the mean 50
of a window in which every other x is 0. -/
theorem fill_ignores_previous_sample :
    (fill_motion true omitted_x 61 0 []).map
        (fun h => (h.take 3).map (fun l => (l.x, l.y, l.z)))
        = some [(100, 5, 7), (0, 5, 7), (100, 5, 7)] ∧
      (get_next_location true 1 omitted_x 1 (some ⟨0, 100, 5, 7, none, none, none⟩)).map
        (fun l => (l.x, l.y, l.z)) = some (100, 5, 7) ∧
      (smooth_motion true omitted_x).st = status.finished ∧
      (sample_xs true omitted_x)[30]? = some 100 ∧
      (sample_xs true (smooth_motion true omitted_x).blocks)[30]? = some 50 := by
  decide!

end Demsmooth

namespace Demsmooth

/-! ## The constant signal -/

/-- A sample found from any start record is one of the samples of the stream. -/
theorem stream_of_get {F : Type} (cs : Bool) (bs : List (block F)) (L : List location_info) :
    ∀ (start s : Nat) (a : location_info), stream_from cs bs start L → start ≤ s →
      get_next_location cs 1 bs s none = some a → a ∈ L := by
  induction L with
  | nil =>
    intro start s a hs hle hg
    have hnone := (get_next_location_eq_none_iff cs 1 bs none start).mp hs
    have : get_next_location cs 1 bs s none = none :=
      (get_next_location_eq_none_iff cs 1 bs none s).mpr
        (fun i blk hi hb => hnone i blk (by omega) hb)
    rw [this] at hg
    exact absurd hg (by simp)
  | cons loc L ih =>
    intro start s a hs hle hg
    obtain ⟨hloc, hrest⟩ := hs
    by_cases hsl : s ≤ loc.b
    · have h1 := get_next_location_le cs 1 bs start none loc hloc
      have h2 := get_next_location_le cs 1 bs s none a hg
      obtain ⟨⟨blk, hb, hsc⟩, hbefore⟩ :=
        (get_next_location_eq_some_iff cs 1 bs none loc (loc.b - start) start (by omega)).mp hloc
      obtain ⟨⟨blk2, hb2, hsc2⟩, hbefore2⟩ :=
        (get_next_location_eq_some_iff cs 1 bs none a (a.b - s) s (by omega)).mp hg
      have hab : a.b = loc.b := by
        rcases Nat.lt_trichotomy a.b loc.b with h | h | h
        · have := hbefore a.b blk2 (by omega) h hb2
          rw [this] at hsc2
          exact absurd hsc2 (by simp)
        · exact h
        · have := hbefore2 loc.b blk hsl h hb
          rw [this] at hsc
          exact absurd hsc (by simp)
      rw [hab, hb] at hb2
      have hblk : blk = blk2 := by simpa using hb2
      rw [hab, ← hblk, hsc] at hsc2
      have : loc = a := by simpa using hsc2
      rw [this]
      exact List.mem_cons_self _ _
    · exact List.mem_cons_of_mem _ (ih (loc.b + 1) s a hrest (by omega) hg)

/-- A sample that a slide or the populate loop decodes, with whatever `prev`, is one of
the samples of the record list when those all carry x, y and z. -/
theorem get_mem_samples {F : Type} (cs : Bool) (bs : List (block F))
    (hcomplete : ∀ loc ∈ samples cs bs, sample_complete bs loc = true)
    (s : Nat) (prev : Option location_info) (a : location_info)
    (hg : get_next_location cs 1 bs s prev = some a) : a ∈ samples cs bs := by
  cases h0 : get_next_location cs 1 bs s none with
  | none =>
    rw [get_next_location_none_prev cs bs s prev h0] at hg
    exact absurd hg (by simp)
  | some a0 =>
    have hmem : a0 ∈ samples cs bs :=
      stream_of_get cs bs _ 0 s a0 (samples_stream cs bs) (Nat.zero_le _) h0
    obtain ⟨hx, hy, hz⟩ := sample_complete_ptrs bs a0 (hcomplete a0 hmem)
    rw [get_next_location_prev cs bs s a0 prev h0 hx hy hz] at hg
    have : a0 = a := by simpa using hg
    rw [← this]
    exact hmem

theorem set_same {α : Type} (l : List α) : ∀ (i : Nat) (a : α), l[i]? = some a → l.set i a = l := by
  induction l with
  | nil => intro i a h; simp at h
  | cons x l ih =>
    intro i a h
    cases i with
    | zero =>
      have : x = a := by simpa using h
      simp [this]
    | succ i =>
      simp only [List.getElem?_cons_succ] at h
      simp [ih i a h]

theorem to_i16_eq_iff (a b : Int) : to_i16 a = to_i16 b ↔ a % 65536 = b % 65536 := by
  unfold to_i16
  constructor
  · intro h
    simp only at h
    split_ifs at h <;> omega
  · intro h
    simp only [h]

/-- Storing the value that a field holds leaves the payload as it is. -/
theorem write_i16_same (data : List Nat) (off : Nat) (v : Int)
    (hfit : off + 2 ≤ data.length) (hb : ∀ x ∈ data, x < 256)
    (hr : read_i16 data off = to_i16 v) : write_i16 data off v = data := by
  have hl0 : off < data.length := by omega
  have hl1 : off + 1 < data.length := by omega
  obtain ⟨b0, h0⟩ : ∃ b0, data[off]? = some b0 := ⟨_, List.getElem?_eq_getElem hl0⟩
  obtain ⟨b1, h1⟩ : ∃ b1, data[off + 1]? = some b1 := ⟨_, List.getElem?_eq_getElem hl1⟩
  have hb0 := hb b0 (List.getElem?_mem h0)
  have hb1 := hb b1 (List.getElem?_mem h1)
  have hu : ((read_u16 data off : Nat) : Int) % 65536 = v % 65536 :=
    (to_i16_eq_iff _ _).mp hr
  have hv : read_u16 data off = b0 + 256 * b1 := by
    unfold read_u16 byte_at
    simp only [List.getD_eq_getElem?_getD, h0, h1, Option.getD_some]
    omega
  rw [hv] at hu
  have hlo : lo_byte v = b0 := by
    unfold lo_byte
    omega
  have hhi : hi_byte v = b1 := by
    unfold hi_byte
    omega
  unfold write_i16
  rw [hlo, set_same data off _ h0, hhi, set_same data (off + 1) _ h1]

theorem modify_nth_same {α : Type} (f : α → α) (l : List α) :
    ∀ i, (∀ a, l[i]? = some a → f a = a) → modify_nth f l i = l := by
  induction l with
  | nil => intro i _; rfl
  | cons x l ih =>
    intro i h
    cases i with
    | zero => simp [modify_nth, h x (by simp)]
    | succ i =>
      simp only [modify_nth]
      rw [ih i (fun a ha => h a (by simpa using ha))]

theorem motion_average_const (f : location_info → Int) (h : List location_info) (v : Int)
    (hne : h ≠ []) (hv : ∀ l ∈ h, f l = v) : motion_average f h = v := by
  unfold motion_average
  have hsum : (h.map f).sum = (h.length : Int) * v := by
    clear hne
    induction h with
    | nil => simp
    | cons a t ih =>
      simp only [List.map_cons, List.sum_cons, List.length_cons]
      rw [ih (fun l hl => hv l (List.mem_cons_of_mem _ hl)), hv a (List.mem_cons_self _ _)]
      push_cast
      ring
  rw [hsum]
  have hpos : (h.length : Int) ≠ 0 := by
    have : 0 < h.length := List.length_pos.mpr hne
    omega
  exact Int.mul_tdiv_cancel_left _ hpos

/-- Storing to a sample of the record list the values it holds changes nothing. -/
theorem store_sample_same {F : Type} (cs : Bool) (bs : List (block F)) (hbytes : bytes_ok bs)
    (a : location_info) (hmem : a ∈ samples cs bs) (hc : sample_complete bs a = true) :
    store_opt bs a.x_ptr a.x = bs ∧ store_opt bs a.y_ptr a.y = bs ∧
      store_opt bs a.z_ptr a.z = bs := by
  obtain ⟨s, _, hg⟩ := stream_mem cs bs _ 0 (samples_stream cs bs) a hmem
  obtain ⟨hx, hy, hz⟩ := sample_complete_ptrs bs a hc
  obtain ⟨blk, j, m, hblk, hm, _, _, _, _, _, hloc⟩ := sample_message cs bs s none a hg hx hy hz
  have hmb : ∀ v ∈ m.data, v < 256 :=
    hbytes blk (List.getElem?_mem hblk) m (List.getElem?_mem hm)
  have key : ∀ (off : Nat), field_fits bs (some ⟨a.b, j, off⟩) = true →
      store_opt bs (some ⟨a.b, j, off⟩) (read_i16 m.data off) = bs := by
    intro off hfit
    simp only [field_fits, hblk, hm, decide_eq_true_eq] at hfit
    simp only [store_opt, store_i16]
    apply modify_nth_same
    intro blk2 hblk2
    rw [hblk] at hblk2
    have hb2 : blk = blk2 := by simpa using hblk2
    subst hb2
    have : modify_nth (fun m2 => (⟨m2.type, write_i16 m2.data off (read_i16 m.data off)⟩ : message))
        blk.messages j = blk.messages := by
      apply modify_nth_same
      intro m2 hm2
      rw [hm] at hm2
      have hm3 : m = m2 := by simpa using hm2
      subst hm3
      have hr := read_i16_range m.data off
      rw [write_i16_same m.data off _ hfit hmb (to_i16_of_range _ hr.1 hr.2).symm]
    rw [this]
  unfold sample_complete at hc
  simp only [Bool.and_eq_true] at hc
  have hxp := congrArg location_info.x_ptr hloc
  have hyp := congrArg location_info.y_ptr hloc
  have hzp := congrArg location_info.z_ptr hloc
  have hxv := congrArg location_info.x hloc
  have hyv := congrArg location_info.y hloc
  have hzv := congrArg location_info.z hloc
  simp only at hxp hyp hzp hxv hyv hzv
  refine ⟨?_, ?_, ?_⟩
  · rw [hxp, hxv]
    exact key _ (by rw [← hxp]; exact hc.1.1)
  · rw [hyp, hyv]
    exact key _ (by rw [← hyp]; exact hc.1.2)
  · rw [hzp, hzv]
    exact key _ (by rw [← hzp]; exact hc.2)

theorem fill_motion_samples {F : Type} (cs : Bool) (bs : List (block F))
    (hcomplete : ∀ loc ∈ samples cs bs, sample_complete bs loc = true) (n : Nat) :
    ∀ (b_start : Nat) (h h2 : List location_info),
      fill_motion cs bs n b_start h = some h2 → (∀ a ∈ h, a ∈ samples cs bs) →
      ∀ a ∈ h2, a ∈ samples cs bs := by
  induction n with
  | zero =>
    intro b_start h h2 hf hh
    simp only [fill_motion, Option.some.injEq] at hf
    rw [← hf]
    exact hh
  | succ n ih =>
    intro b_start h h2 hf hh
    simp only [fill_motion] at hf
    split_ifs at hf with hlt
    · cases hg : get_next_location cs 1 bs b_start none with
      | none => simp [hg] at hf
      | some loc =>
        simp only [hg] at hf
        apply ih (loc.b + 1) (h ++ [loc]) h2 hf
        intro a ha
        rcases List.mem_append.mp ha with h1 | h1
        · exact hh a h1
        · have : a = loc := by simpa using h1
          rw [this]
          exact get_mem_samples cs bs hcomplete b_start none loc hg
    · simp only [Option.some.injEq] at hf
      rw [← hf]
      exact hh

theorem motion_step_const {F : Type} (cs : Bool) (bs : List (block F)) (vx vy vz : Int)
    (hbytes : bytes_ok bs)
    (hcomplete : ∀ loc ∈ samples cs bs, sample_complete bs loc = true)
    (hconst : ∀ loc ∈ samples cs bs, loc.x = vx ∧ loc.y = vy ∧ loc.z = vz)
    (s : motion_state F) (hinv : const_inv cs bs s) : const_inv cs bs (motion_step cs s) := by
  cases s with
  | restart mem b_start =>
    have hmem : mem = bs := hinv
    subst hmem
    simp only [motion_step]
    cases hf : fill_motion cs mem MOTION_SMOOTH_HISTORY_SIZE b_start [] with
    | none => exact rfl
    | some h =>
      exact ⟨rfl, fill_motion_samples cs mem hcomplete _ b_start [] h hf
        (fun a ha => absurd ha (List.not_mem_nil _))⟩
  | steady mem h =>
    obtain ⟨hmem, hh⟩ := hinv
    subst hmem
    simp only [motion_step]
    split_ifs with hshort
    · cases hl : h.getLast? with
      | none => exact rfl
      | some last => exact rfl
    · cases hcur : h[MOTION_SMOOTH_CURRENT]? with
      | none => exact rfl
      | some cur =>
        cases hl : h.getLast? with
        | none => exact rfl
        | some last =>
          have hne : h ≠ [] := by
            intro he
            rw [he] at hcur
            simp at hcur
          have hcm := hh cur (List.getElem?_mem hcur)
          obtain ⟨hsx, hsy, hsz⟩ := store_sample_same cs mem hbytes cur hcm (hcomplete cur hcm)
          have hax : motion_average (fun l => l.x) h = cur.x := by
            rw [(hconst cur hcm).1]
            exact motion_average_const _ h vx hne (fun l hl => (hconst l (hh l hl)).1)
          have hay : motion_average (fun l => l.y) h = cur.y := by
            rw [(hconst cur hcm).2.1]
            exact motion_average_const _ h vy hne (fun l hl => (hconst l (hh l hl)).2.1)
          have haz : motion_average (fun l => l.z) h = cur.z := by
            rw [(hconst cur hcm).2.2]
            exact motion_average_const _ h vz hne (fun l hl => (hconst l (hh l hl)).2.2)
          simp only [hax, hay, haz, hsx, hsy, hsz]
          have htail : ∀ a ∈ h.tail, a ∈ samples cs mem :=
            fun a ha => hh a (List.mem_of_mem_tail ha)
          cases hg : get_next_location cs 1 mem (last.b + 1) (some last) with
          | none => exact ⟨rfl, htail⟩
          | some fut =>
            simp only
            split_ifs
            · refine ⟨rfl, fun a ha => ?_⟩
              rcases List.mem_append.mp ha with h1 | h1
              · exact htail a h1
              · have : a = fut := by simpa using h1
                rw [this]
                exact get_mem_samples cs mem hcomplete _ _ fut hg
            · exact ⟨rfl, htail⟩
  | finish mem => exact hinv
  | undef mem => exact hinv

theorem motion_run_const {F : Type} (cs : Bool) (bs : List (block F)) (vx vy vz : Int)
    (hbytes : bytes_ok bs)
    (hcomplete : ∀ loc ∈ samples cs bs, sample_complete bs loc = true)
    (hconst : ∀ loc ∈ samples cs bs, loc.x = vx ∧ loc.y = vy ∧ loc.z = vz) (n : Nat) :
    ∀ s : motion_state F, const_inv cs bs s → const_inv cs bs (motion_run cs n s) := by
  induction n with
  | zero => intro s hs; exact hs
  | succ n ih =>
    intro s hs
    cases s with
    | restart mem b => exact ih _ (motion_step_const cs bs vx vy vz hbytes hcomplete hconst _ hs)
    | steady mem h => exact ih _ (motion_step_const cs bs vx vy vz hbytes hcomplete hconst _ hs)
    | finish mem => exact hs
    | undef mem => exact hs

theorem const_inv_mem {F : Type} (cs : Bool) (bs : List (block F)) (s : motion_state F)
    (h : const_inv cs bs s) : (motion_result s).blocks = bs := by
  cases s with
  | restart mem b => exact h
  | steady mem hist => exact h.1
  | finish mem => exact h
  | undef mem => exact h

/-- C15: for every window of `n` samples, 31 ≤ n ≤ 61, whose field `f` is the same signed
16-bit value `v` in all of them, the sum `n * v` is the same in 32-bit `int` arithmetic
and the mean that `smooth_motion` computes, cast to 16 bits, is `v`.  Hence for every
record list (its payloads being lists of bytes) whose samples all carry x, y and z and
hold the same x, the same y and the same z, the record list that `smooth_motion` leaves
is the record list it was given; and the pass reaches `finish_motion` when there are at
least 61 samples and a record follows the last of them. -/
theorem constant_signal_identity {F : Type} (cs : Bool) (bs : List (block F)) (vx vy vz : Int)
    (hbytes : bytes_ok bs)
    (hcomplete : ∀ loc ∈ samples cs bs, sample_complete bs loc = true)
    (hconst : ∀ loc ∈ samples cs bs, loc.x = vx ∧ loc.y = vy ∧ loc.z = vz) :
    (∀ (f : location_info → Int) (h : List location_info) (v : Int),
      31 ≤ h.length → h.length ≤ 61 → -32768 ≤ v → v < 32768 → (∀ l ∈ h, f l = v) →
        (h.map f).sum = (h.length : Int) * v ∧ to_i32 (h.map f).sum = (h.map f).sum ∧
        to_i16 (motion_average f h) = v) ∧
    (smooth_motion cs bs).blocks = bs ∧
    (61 ≤ (samples cs bs).length →
      (∀ last, (samples cs bs).getLast? = some last → last.b + 1 < bs.length) →
      (smooth_motion cs bs).st = status.finished) := by
  refine ⟨?_, ?_, ?_⟩
  · intro f h v h31 h61 hv1 hv2 hall
    have hne : h ≠ [] := by
      intro he
      rw [he] at h31
      simp at h31
    have hav := motion_average_const f h v hne hall
    have hsum : (h.map f).sum = (h.length : Int) * v := by
      have hmap : h.map f = List.replicate h.length v := by
        apply List.eq_replicate_iff.mpr
        refine ⟨by simp, ?_⟩
        intro b hb
        obtain ⟨l, hl, rfl⟩ := List.mem_map.mp hb
        exact hall l hl
      rw [hmap, List.sum_replicate]
      simp
    have hn1 : (31 : Int) ≤ (h.length : Int) := by exact_mod_cast h31
    have hn2 : (h.length : Int) ≤ 61 := by exact_mod_cast h61
    refine ⟨hsum, ?_, ?_⟩
    · rw [hsum]
      apply to_i32_of_range <;> nlinarith
    · rw [hav]
      exact to_i16_of_range v hv1 hv2
  · exact const_inv_mem cs bs _
      (motion_run_const cs bs vx vy vz hbytes hcomplete hconst _ _ rfl)
  · intro hN htrail
    refine (smooth_motion_regular cs bs hcomplete ?_ hN htrail).1
    intro k a b ha hb
    have h1 := hconst a (List.getElem?_mem ha)
    have h2 := hconst b (List.getElem?_mem hb)
    unfold close_samples
    rw [h1.1, h1.2.1, h1.2.2, h2.1, h2.2.1, h2.2.2]
    norm_num

/-- Witness of `constant_signal_identity`: the record list `standing_still`. -/
theorem constant_signal_identity_witness :
    (∀ (f : location_info → Int) (h : List location_info) (v : Int),
      31 ≤ h.length → h.length ≤ 61 → -32768 ≤ v → v < 32768 → (∀ l ∈ h, f l = v) →
        (h.map f).sum = (h.length : Int) * v ∧ to_i32 (h.map f).sum = (h.map f).sum ∧
        to_i16 (motion_average f h) = v) ∧
    (smooth_motion true standing_still).blocks = standing_still ∧
    (61 ≤ (samples true standing_still).length →
      (∀ last, (samples true standing_still).getLast? = some last →
        last.b + 1 < standing_still.length) →
      (smooth_motion true standing_still).st = status.finished) :=
  constant_signal_identity true standing_still 5 (-6) 7 (by decide!) (by decide!) (by decide!)

end Demsmooth

namespace Demsmooth

/-! ## The frame of the motion pass -/

theorem map_modify_nth_same {α β : Type} (g : α → β) (f : α → α) (hg : ∀ a, g (f a) = g a)
    (l : List α) : ∀ i, (modify_nth f l i).map g = l.map g := by
  induction l with
  | nil => intro i; rfl
  | cons x l ih =>
    intro i
    cases i with
    | zero => simp [modify_nth, hg]
    | succ i => simp [modify_nth, ih i]

theorem shape_store_i16 {F : Type} (mem : List (block F)) (p : field_ptr) (v : Int) :
    shape (store_i16 mem p v) = shape mem := by
  unfold shape store_i16
  apply map_modify_nth_same
  intro blk
  simp only [Prod.mk.injEq, true_and]
  apply map_modify_nth_same
  intro m
  simp [length_write_i16]

theorem shape_store_opt {F : Type} (mem : List (block F)) (q : Option field_ptr) (v : Int) :
    shape (store_opt mem q v) = shape mem := by
  cases q with
  | none => rfl
  | some p => exact shape_store_i16 mem p v

/-- A store changes only the two bytes under its pointer. -/
theorem byte_of_store_i16 {F : Type} (mem : List (block F)) (p : field_ptr) (v : Int)
    (b mi off : Nat) (h : ¬ (b = p.b ∧ mi = p.m ∧ (off = p.off ∨ off = p.off + 1))) :
    byte_of (store_i16 mem p v) b mi off = byte_of mem b mi off := by
  unfold byte_of store_i16
  rw [getElem?_modify_nth]
  by_cases hb : b = p.b
  · rw [if_pos hb]
    cases hblk : mem[b]? with
    | none => rfl
    | some blk =>
      simp only [Option.map_some']
      rw [getElem?_modify_nth]
      by_cases hm : mi = p.m
      · rw [if_pos hm]
        cases hmsg : blk.messages[mi]? with
        | none => rfl
        | some m =>
          simp only [Option.map_some']
          apply byte_at_write_i16_ne
          have : ¬ (off = p.off ∨ off = p.off + 1) := fun h2 => h ⟨hb, hm, h2⟩
          omega
      · rw [if_neg hm]
  · rw [if_neg hb]

theorem byte_of_store_opt {F : Type} (mem : List (block F)) (q : Option field_ptr) (v : Int)
    (b mi off : Nat) (h : ∀ p, q = some p → ¬ (b = p.b ∧ mi = p.m ∧ (off = p.off ∨ off = p.off + 1))) :
    byte_of (store_opt mem q v) b mi off = byte_of mem b mi off := by
  cases q with
  | none => rfl
  | some p => exact byte_of_store_i16 mem p v b mi off (h p rfl)

theorem get_decoded {F : Type} (cs : Bool) (bs : List (block F)) (s : Nat)
    (prev : Option location_info) (a : location_info)
    (hg : get_next_location cs 1 bs s prev = some a) : decoded cs bs a := by
  have hle := get_next_location_le cs 1 bs s prev a hg
  obtain ⟨⟨blk, hb, hsc⟩, _⟩ :=
    (get_next_location_eq_some_iff cs 1 bs prev a (a.b - s) s (by omega)).mp hg
  exact ⟨blk, prev, hb, hsc⟩

theorem decoded_ptr_in {F : Type} (cs : Bool) (bs : List (block F)) (a : location_info)
    (h : decoded cs bs a) : ptr_in a.x_ptr a.b ∧ ptr_in a.y_ptr a.b ∧ ptr_in a.z_ptr a.b := by
  obtain ⟨blk, prev, _, hsc⟩ := h
  obtain ⟨j, m, _, hdec, _⟩ := scan_messages_eq_some cs 1 a.b prev blk.messages 0 a hsc
  exact decode_message_ptr_in cs 1 a.b (0 + j) m prev a hdec

/-- A store through a write-back pointer of a decoded sample keeps the frame. -/
theorem frame_store {F : Type} (cs : Bool) (bs mem : List (block F))
    (hk : frame_kept cs bs mem) (cur : location_info) (hd : decoded cs bs cur)
    (q : Option field_ptr) (hq : q = cur.x_ptr ∨ q = cur.y_ptr ∨ q = cur.z_ptr) (v : Int) :
    frame_kept cs bs (store_opt mem q v) := by
  refine ⟨by rw [shape_store_opt]; exact hk.1, ?_⟩
  intro b mi off hne
  by_cases hcov : ∃ p, q = some p ∧ b = p.b ∧ mi = p.m ∧ (off = p.off ∨ off = p.off + 1)
  · obtain ⟨p, hp, hb, hm, hoff⟩ := hcov
    obtain ⟨hpx, hpy, hpz⟩ := decoded_ptr_in cs bs cur hd
    have hc : covers q mi off := ⟨p, hp, hm.symm, hoff⟩
    have hpb : p.b = cur.b := by
      rcases hq with h | h | h
      · exact hpx p (by rw [← h]; exact hp)
      · exact hpy p (by rw [← h]; exact hp)
      · exact hpz p (by rw [← h]; exact hp)
    refine ⟨cur, hd, by omega, ?_⟩
    rcases hq with h | h | h
    · exact Or.inl (h ▸ hc)
    · exact Or.inr (Or.inl (h ▸ hc))
    · exact Or.inr (Or.inr (h ▸ hc))
  · apply hk.2
    rw [byte_of_store_opt mem q v b mi off
      (fun p hp h2 => hcov ⟨p, hp, h2.1, h2.2.1, h2.2.2⟩)] at hne
    exact hne

theorem fill_motion_decoded {F : Type} (cs : Bool) (bs mem : List (block F)) (n : Nat) :
    ∀ (b_start : Nat) (h h2 : List location_info),
      fill_motion cs mem n b_start h = some h2 → mem.drop b_start = bs.drop b_start →
      (∀ a ∈ h, decoded cs bs a) → ∀ a ∈ h2, decoded cs bs a := by
  induction n with
  | zero =>
    intro b_start h h2 hf _ hh
    simp only [fill_motion, Option.some.injEq] at hf
    rw [← hf]
    exact hh
  | succ n ih =>
    intro b_start h h2 hf hdrop hh
    simp only [fill_motion] at hf
    split_ifs at hf with hlt
    · cases hg : get_next_location cs 1 mem b_start none with
      | none => simp [hg] at hf
      | some loc =>
        simp only [hg] at hf
        have hg2 := hg
        rw [get_next_location_congr cs 1 mem bs _ _ hdrop] at hg2
        have hle := get_next_location_le cs 1 bs b_start none loc hg2
        apply ih (loc.b + 1) (h ++ [loc]) h2 hf
          (drop_eq_mono mem bs b_start _ hdrop (by omega))
        intro a ha
        rcases List.mem_append.mp ha with h1 | h1
        · exact hh a h1
        · have : a = loc := by simpa using h1
          rw [this]
          exact get_decoded cs bs b_start none loc hg2
    · simp only [Option.some.injEq] at hf
      rw [← hf]
      exact hh

/-- Every transition of `smooth_motion` keeps the frame and decodes its samples from the
record list it was given. -/
theorem motion_step_frame {F : Type} (cs : Bool) (bs : List (block F)) (s : motion_state F)
    (hinv : frame_inv cs bs s) : frame_inv cs bs (motion_step cs s) := by
  obtain ⟨hm, hk, hh⟩ := hinv
  refine ⟨motion_step_inv cs bs s hm, ?_⟩
  cases s with
  | finish mem => exact ⟨hk, hh⟩
  | undef mem => exact ⟨hk, hh⟩
  | restart mem b_start =>
    obtain ⟨hlen, hdrop, _⟩ := hm
    simp only [motion_step]
    cases hf : fill_motion cs mem MOTION_SMOOTH_HISTORY_SIZE b_start [] with
    | none => exact ⟨hk, fun a ha => absurd ha (List.not_mem_nil _)⟩
    | some h2 =>
      exact ⟨hk, fill_motion_decoded cs bs mem _ b_start [] h2 hf hdrop
        (fun a ha => absurd ha (List.not_mem_nil _))⟩
  | steady mem h =>
    obtain ⟨hlen, hok, hdrop, _⟩ := hm
    have hk0 : frame_kept cs bs mem := hk
    have hh0 : ∀ a ∈ h, decoded cs bs a := hh
    by_cases hsize : h.length < MOTION_SMOOTH_CURRENT + 1
    · simp only [motion_step, if_pos hsize]
      cases hl : h.getLast? with
      | none => exact ⟨hk0, fun a ha => absurd ha (List.not_mem_nil _)⟩
      | some last => exact ⟨hk0, fun a ha => absurd ha (List.not_mem_nil _)⟩
    · simp only [motion_step, if_neg hsize]
      cases hcur : h[MOTION_SMOOTH_CURRENT]? with
      | none =>
        cases hl : h.getLast? with
        | none => exact ⟨hk0, fun a ha => absurd ha (List.not_mem_nil _)⟩
        | some last => exact ⟨hk0, fun a ha => absurd ha (List.not_mem_nil _)⟩
      | some cur =>
        cases hl : h.getLast? with
        | none => exact ⟨hk0, fun a ha => absurd ha (List.not_mem_nil _)⟩
        | some last =>
          simp only
          have hlast2 : h[h.length - 1]? = some last := by
            rw [← List.getLast?_eq_getElem?]; exact hl
          have hcl : cur.b ≤ last.b :=
            (hist_m_le_of_index h hok.1 _ _ cur last hcur hlast2).2 (by omega)
          have hcd := hh0 cur (List.getElem?_mem hcur)
          obtain ⟨hpx, hpy, hpz⟩ := decoded_ptr_in cs bs cur hcd
          generalize motion_average (fun l => l.x) h = vx
          generalize motion_average (fun l => l.y) h = vy
          generalize motion_average (fun l => l.z) h = vz
          have hk3 : frame_kept cs bs
              (store_opt (store_opt (store_opt mem cur.x_ptr vx) cur.y_ptr vy) cur.z_ptr vz) :=
            frame_store cs bs _ (frame_store cs bs _ (frame_store cs bs mem hk0 cur hcd _
              (Or.inl rfl) vx) cur hcd _ (Or.inr (Or.inl rfl)) vy) cur hcd _
              (Or.inr (Or.inr rfl)) vz
          have hget3 : ∀ i, i ≠ cur.b →
              (store_opt (store_opt (store_opt mem cur.x_ptr vx) cur.y_ptr vy) cur.z_ptr vz)[i]?
                = mem[i]? := by
            intro i hi
            rw [getElem?_store_opt_ne _ _ _ cur.b i hpz hi,
              getElem?_store_opt_ne _ _ _ cur.b i hpy hi,
              getElem?_store_opt_ne _ _ _ cur.b i hpx hi]
          generalize store_opt (store_opt (store_opt mem cur.x_ptr vx) cur.y_ptr vy) cur.z_ptr vz
            = mem3 at hget3 hk3
          have hdrop3 : mem3.drop (last.b + 1) = bs.drop (last.b + 1) := by
            rw [← hdrop last hl]
            exact drop_eq_of_getElem? _ _ _ (fun i hi => hget3 i (by omega))
          have htail : ∀ a ∈ h.tail, decoded cs bs a :=
            fun a ha => hh0 a (List.mem_of_mem_tail ha)
          cases hg : get_next_location cs 1 mem3 (last.b + 1) (some last) with
          | none => exact ⟨hk3, htail⟩
          | some fut =>
            simp only
            split
            · refine ⟨hk3, fun a ha => ?_⟩
              rcases List.mem_append.mp ha with h1 | h1
              · exact htail a h1
              · have : a = fut := by simpa using h1
                rw [this]
                rw [get_next_location_congr cs 1 mem3 bs _ _ hdrop3] at hg
                exact get_decoded cs bs _ _ fut hg
            · exact ⟨hk3, htail⟩

theorem motion_run_frame {F : Type} (cs : Bool) (bs : List (block F)) (n : Nat) :
    ∀ s : motion_state F, frame_inv cs bs s → frame_inv cs bs (motion_run cs n s) := by
  induction n with
  | zero => intro s h; exact h
  | succ n ih =>
    intro s h
    cases s with
    | finish mem => exact h
    | undef mem => exact h
    | restart mem b => exact ih _ (motion_step_frame cs bs _ h)
    | steady mem hist => exact ih _ (motion_step_frame cs bs _ h)

theorem motion_result_blocks {F : Type} (s : motion_state F) : (motion_result s).blocks = s.mem := by
  cases s <;> rfl

theorem smooth_motion_frame {F : Type} (cs : Bool) (bs : List (block F)) :
    frame_kept cs bs (smooth_motion cs bs).blocks := by
  have h0 : frame_inv cs bs (motion_state.restart bs 0) :=
    ⟨⟨rfl, rfl, fun i _ => rfl⟩, ⟨rfl, fun b mi off h => absurd rfl h⟩,
      fun a ha => absurd ha (List.not_mem_nil _)⟩
  unfold smooth_motion
  rw [motion_result_blocks]
  exact (motion_run_frame cs bs _ _ h0).2.1

end Demsmooth

namespace Demsmooth

/-- A byte under a write-back pointer of a sample decoded from a message lies in a
coordinate whose mask bit is set, at the offset of the layout. -/
theorem covers_decoded (cs : Bool) (b mi : Nat) (m : message) (prev : Option location_info)
    (loc : location_info) (hdec : decode_message cs 1 b mi m prev = some loc) (mi2 off : Nat) :
    (covers loc.x_ptr mi2 off → mi2 = mi ∧ (decode_mask cs m).1 &&& 0x0002 ≠ 0 ∧
      (off = layout_x (decode_mask cs m).1 (decode_mask cs m).2 ∨
        off = layout_x (decode_mask cs m).1 (decode_mask cs m).2 + 1)) ∧
    (covers loc.y_ptr mi2 off → mi2 = mi ∧ (decode_mask cs m).1 &&& 0x0004 ≠ 0 ∧
      (off = layout_y (decode_mask cs m).1 (decode_mask cs m).2 ∨
        off = layout_y (decode_mask cs m).1 (decode_mask cs m).2 + 1)) ∧
    (covers loc.z_ptr mi2 off → mi2 = mi ∧ (decode_mask cs m).1 &&& 0x0008 ≠ 0 ∧
      (off = layout_z (decode_mask cs m).1 (decode_mask cs m).2 ∨
        off = layout_z (decode_mask cs m).1 (decode_mask cs m).2 + 1)) := by
  obtain ⟨_, _, hloc⟩ := decode_message_some cs 1 b mi m prev loc hdec
  rw [decode_fields_layout] at hloc
  have hx := congrArg location_info.x_ptr hloc
  have hy := congrArg location_info.y_ptr hloc
  have hz := congrArg location_info.z_ptr hloc
  simp only at hx hy hz
  refine ⟨?_, ?_, ?_⟩
  · rintro ⟨q, hq, hm, hoff⟩
    rw [hx] at hq
    split_ifs at hq with hbit
    · have : q = ⟨b, mi, layout_x (decode_mask cs m).1 (decode_mask cs m).2⟩ := by
        simpa using hq.symm
      subst this
      exact ⟨hm.symm, hbit, hoff⟩
  · rintro ⟨q, hq, hm, hoff⟩
    rw [hy] at hq
    split_ifs at hq with hbit
    · have : q = ⟨b, mi, layout_y (decode_mask cs m).1 (decode_mask cs m).2⟩ := by
        simpa using hq.symm
      subst this
      exact ⟨hm.symm, hbit, hoff⟩
  · rintro ⟨q, hq, hm, hoff⟩
    rw [hz] at hq
    split_ifs at hq with hbit
    · have : q = ⟨b, mi, layout_z (decode_mask cs m).1 (decode_mask cs m).2⟩ := by
        simpa using hq.symm
      subst this
      exact ⟨hm.symm, hbit, hoff⟩

/-- C17: for every record list, the record list that `smooth_motion` leaves has the
orientation of every record, the kind tag of every message and the length of every
payload as they were, and a payload byte that differs lies in the first update of entity
1 of its record, in one of the two bytes of the x, y or z coordinate of that update, at
the offset of the layout, and the mask bit of that coordinate (0x0002, 0x0004, 0x0008) is
set in the update.  So an axis that an update omits is not written, and no update of
another entity and no other message is modified. -/
theorem motion_write_frame {F : Type} (cs : Bool) (bs : List (block F)) :
    shape (smooth_motion cs bs).blocks = shape bs ∧
    ∀ b mi off, byte_of (smooth_motion cs bs).blocks b mi off ≠ byte_of bs b mi off →
      ∃ blk m, bs[b]? = some blk ∧ blk.messages[mi]? = some m ∧ is_update_of cs 1 m ∧
        (∀ j2 m2, j2 < mi → blk.messages[j2]? = some m2 → ¬ is_update_of cs 1 m2) ∧
        (((decode_mask cs m).1 &&& 0x0002 ≠ 0 ∧
            (off = layout_x (decode_mask cs m).1 (decode_mask cs m).2 ∨
              off = layout_x (decode_mask cs m).1 (decode_mask cs m).2 + 1)) ∨
          ((decode_mask cs m).1 &&& 0x0004 ≠ 0 ∧
            (off = layout_y (decode_mask cs m).1 (decode_mask cs m).2 ∨
              off = layout_y (decode_mask cs m).1 (decode_mask cs m).2 + 1)) ∨
          ((decode_mask cs m).1 &&& 0x0008 ≠ 0 ∧
            (off = layout_z (decode_mask cs m).1 (decode_mask cs m).2 ∨
              off = layout_z (decode_mask cs m).1 (decode_mask cs m).2 + 1))) := by
  obtain ⟨hshape, hbytes⟩ := smooth_motion_frame cs bs
  refine ⟨hshape, ?_⟩
  intro b mi off hne
  obtain ⟨loc, ⟨blk, prev, hblk, hsc⟩, hb, hcov⟩ := hbytes b mi off hne
  obtain ⟨j, m, hm, hdec, hfirst⟩ := scan_messages_eq_some cs 1 loc.b prev blk.messages 0 loc hsc
  rw [Nat.zero_add] at hdec
  have hup : is_update_of cs 1 m := by
    by_contra hn
    rw [(decode_message_eq_none_iff cs 1 loc.b j m prev).mpr hn] at hdec
    exact absurd hdec (by simp)
  obtain ⟨hcx, hcy, hcz⟩ := covers_decoded cs loc.b j m prev loc hdec mi off
  subst hb
  rcases hcov with h | h | h
  · obtain ⟨hmi, hbit, hoff⟩ := hcx h
    subst hmi
    exact ⟨blk, m, hblk, hm, hup, hfirst, Or.inl ⟨hbit, hoff⟩⟩
  · obtain ⟨hmi, hbit, hoff⟩ := hcy h
    subst hmi
    exact ⟨blk, m, hblk, hm, hup, hfirst, Or.inr (Or.inl ⟨hbit, hoff⟩)⟩
  · obtain ⟨hmi, hbit, hoff⟩ := hcz h
    subst hmi
    exact ⟨blk, m, hblk, hm, hup, hfirst, Or.inr (Or.inr ⟨hbit, hoff⟩)⟩

end Demsmooth

namespace Demsmooth

/-! ## Rounding to a binary format -/

theorem pow2_eq_zpow (e : Int) : pow2 e = (2 : ℚ) ^ e := by
  unfold pow2
  split_ifs with h
  · obtain ⟨n, rfl⟩ := Int.eq_ofNat_of_zero_le h
    simp
  · have hneg : 0 ≤ -e := by omega
    obtain ⟨n, hn⟩ := Int.eq_ofNat_of_zero_le hneg
    have he : e = -(n : Int) := by omega
    subst he
    simp

theorem pow2_pos (e : Int) : 0 < pow2 e := by
  rw [pow2_eq_zpow]
  positivity

theorem pow2_add (a b : Int) : pow2 (a + b) = pow2 a * pow2 b := by
  simp only [pow2_eq_zpow]
  exact zpow_add₀ (by norm_num) a b

theorem pow2_le_pow2 (a b : Int) (h : a ≤ b) : pow2 a ≤ pow2 b := by
  simp only [pow2_eq_zpow]
  exact zpow_le_zpow_right₀ (by norm_num) h

theorem pow2_lt_pow2_iff (a b : Int) : pow2 a < pow2 b ↔ a < b := by
  simp only [pow2_eq_zpow]
  exact zpow_lt_zpow_iff_right₀ (by norm_num)

theorem pow2_natCast (n : Nat) : pow2 (n : Int) = ((2 ^ n : Nat) : ℚ) := by
  rw [pow2_eq_zpow]
  simp

theorem log2_fuel_spec (f : Nat) : ∀ n : Nat, 1 ≤ n → n ≤ f →
    2 ^ log2_fuel f n ≤ n ∧ n < 2 ^ (log2_fuel f n + 1) := by
  induction f with
  | zero => intro n h1 h2; omega
  | succ f ih =>
    intro n h1 h2
    simp only [log2_fuel]
    split_ifs with hlt
    · have : n = 1 := by omega
      subst this
      simp
    · obtain ⟨ha, hb⟩ := ih (n / 2) (by omega) (by omega)
      rw [pow_succ] at hb
      rw [pow_succ, pow_succ, pow_succ]
      constructor <;> omega

theorem nat_log2_spec (n : Nat) (h : 1 ≤ n) :
    2 ^ nat_log2 n ≤ n ∧ n < 2 ^ (nat_log2 n + 1) :=
  log2_fuel_spec n n h (le_refl n)

theorem abs_eq_natAbs_div (q : ℚ) : |q| = (q.num.natAbs : ℚ) / (q.den : ℚ) := by
  have h : q = (q.num : ℚ) / (q.den : ℚ) := (Rat.num_div_den q).symm
  have hd : (0 : ℚ) < (q.den : ℚ) := by exact_mod_cast q.den_pos
  conv_lhs => rw [h]
  rw [abs_div, abs_of_pos hd, Nat.cast_natAbs, Int.cast_abs]

/-- The exponent that `floor_log2` returns brackets the magnitude. -/
theorem floor_log2_spec (q : ℚ) (hq : q ≠ 0) :
    pow2 (floor_log2 q) ≤ |q| ∧ |q| < pow2 (floor_log2 q + 1) := by
  have hnum : 1 ≤ q.num.natAbs := by
    have : q.num ≠ 0 := Rat.num_ne_zero.mpr hq
    omega
  have hden : 1 ≤ q.den := q.den_pos
  obtain ⟨ha1, ha2⟩ := nat_log2_spec q.num.natAbs hnum
  obtain ⟨hb1, hb2⟩ := nat_log2_spec q.den hden
  unfold floor_log2
  simp only
  generalize nat_log2 q.num.natAbs = a at ha1 ha2 ⊢
  generalize nat_log2 q.den = b at hb1 hb2 ⊢
  have hN1 : ((2 : ℚ) ^ a) ≤ (q.num.natAbs : ℚ) := by exact_mod_cast ha1
  have hN2 : (q.num.natAbs : ℚ) < (2 : ℚ) ^ (a + 1) := by exact_mod_cast ha2
  have hD1 : ((2 : ℚ) ^ b) ≤ (q.den : ℚ) := by exact_mod_cast hb1
  have hD2 : (q.den : ℚ) < (2 : ℚ) ^ (b + 1) := by exact_mod_cast hb2
  have hD0 : (0 : ℚ) < (q.den : ℚ) := by exact_mod_cast hden
  have hN0 : (0 : ℚ) ≤ (q.num.natAbs : ℚ) := Nat.cast_nonneg _
  have habs := abs_eq_natAbs_div q
  have hlow : pow2 ((a : Int) - (b : Int) - 1) ≤ |q| := by
    rw [habs, pow2_eq_zpow, show (a : Int) - (b : Int) - 1 = (a : Int) - ((b + 1 : Nat) : Int) by
      push_cast; ring, zpow_sub₀ (by norm_num), zpow_natCast, zpow_natCast]
    exact div_le_div₀ hN0 hN1 hD0 (le_of_lt hD2)
  have hhigh : |q| < pow2 ((a : Int) - (b : Int) + 1) := by
    rw [habs, pow2_eq_zpow, show (a : Int) - (b : Int) + 1 = ((a + 1 : Nat) : Int) - (b : Int) by
      push_cast; ring, zpow_sub₀ (by norm_num), zpow_natCast, zpow_natCast]
    exact div_lt_div₀ hN2 hD1 (by positivity) (by positivity)
  split_ifs with h
  · exact ⟨h, hhigh⟩
  · refine ⟨hlow, ?_⟩
    rw [show (a : Int) - (b : Int) - 1 + 1 = (a : Int) - (b : Int) by ring]
    exact lt_of_not_le h

/-- The exponent is determined by the bracket. -/
theorem floor_log2_unique (q : ℚ) (e : Int) (h1 : pow2 e ≤ |q|) (h2 : |q| < pow2 (e + 1)) :
    floor_log2 q = e := by
  have hq : q ≠ 0 := by
    intro h
    rw [h, abs_zero] at h1
    exact absurd (pow2_pos e) (not_lt.mpr h1)
  obtain ⟨s1, s2⟩ := floor_log2_spec q hq
  have ha : floor_log2 q < e + 1 := (pow2_lt_pow2_iff _ _).mp (lt_of_le_of_lt s1 h2)
  have hb : e < floor_log2 q + 1 := (pow2_lt_pow2_iff _ _).mp (lt_of_le_of_lt h1 s2)
  omega

theorem floor_log2_mono (a q : ℚ) (ha : a ≠ 0) (h : |a| ≤ |q|) : floor_log2 a ≤ floor_log2 q := by
  have hq : q ≠ 0 := by
    intro h0
    rw [h0, abs_zero] at h
    exact ha (abs_eq_zero.mp (le_antisymm h (abs_nonneg a)))
  obtain ⟨a1, _⟩ := floor_log2_spec a ha
  obtain ⟨_, q2⟩ := floor_log2_spec q hq
  have : floor_log2 a < floor_log2 q + 1 :=
    (pow2_lt_pow2_iff _ _).mp (lt_of_le_of_lt (le_trans a1 h) q2)
  omega

theorem floor_log2_neg (q : ℚ) : floor_log2 (-q) = floor_log2 q := by
  unfold floor_log2
  simp

theorem rhe_cases (x : ℚ) :
    (round_half_even x = ⌊x⌋ ∧ x - ⌊x⌋ ≤ 1 / 2) ∨
      (round_half_even x = ⌊x⌋ + 1 ∧ 1 / 2 ≤ x - ⌊x⌋) := by
  have hf : x.floor = ⌊x⌋ := rfl
  unfold round_half_even
  simp only [hf]
  split_ifs with h1 h2 h3
  · exact Or.inl ⟨rfl, le_of_lt h1⟩
  · exact Or.inr ⟨rfl, le_of_lt h2⟩
  · exact Or.inl ⟨rfl, not_lt.mp h2⟩
  · exact Or.inr ⟨rfl, not_lt.mp h1⟩

theorem le_rhe (n : Int) (x : ℚ) (h : (n : ℚ) ≤ x) : n ≤ round_half_even x := by
  have hfl : n ≤ ⌊x⌋ := Int.le_floor.mpr h
  rcases rhe_cases x with ⟨e, _⟩ | ⟨e, _⟩ <;> omega

theorem rhe_le (n : Int) (x : ℚ) (h : x ≤ (n : ℚ)) : round_half_even x ≤ n := by
  rcases rhe_cases x with ⟨e, _⟩ | ⟨e, hd⟩
  · rw [e]
    exact_mod_cast le_trans (Int.floor_le x) h
  · rw [e]
    have : (⌊x⌋ : ℚ) < n := by linarith
    have : ⌊x⌋ < n := by exact_mod_cast this
    omega

theorem rhe_int (n : Int) : round_half_even (n : ℚ) = n :=
  le_antisymm (rhe_le n _ (le_refl _)) (le_rhe n _ (le_refl _))

theorem rhe_neg (x : ℚ) : round_half_even (-x) = -round_half_even x := by
  have hf : ∀ y : ℚ, y.floor = ⌊y⌋ := fun _ => rfl
  by_cases hint : (⌊x⌋ : ℚ) = x
  · rw [← hint, ← Int.cast_neg, rhe_int, rhe_int]
  · have hlt : (⌊x⌋ : ℚ) < x := lt_of_le_of_ne (Int.floor_le x) hint
    have hfn : ⌊-x⌋ = -⌊x⌋ - 1 := by
      rw [Int.floor_eq_iff]
      push_cast
      have := Int.lt_floor_add_one x
      constructor <;> linarith
    unfold round_half_even
    simp only [hf, hfn]
    push_cast
    split_ifs <;> first | omega | (exfalso; linarith)

theorem ulp_pos (p : Nat) (emin : Int) (q : ℚ) : 0 < ulp p emin q := pow2_pos _

theorem ulp_neg (p : Nat) (emin : Int) (q : ℚ) : ulp p emin (-q) = ulp p emin q := by
  unfold ulp
  rw [floor_log2_neg]

theorem round_value_neg (p : Nat) (emin : Int) (q : ℚ) :
    round_value p emin (-q) = -round_value p emin q := by
  unfold round_value
  rw [ulp_neg, neg_div, rhe_neg]
  push_cast
  ring

/-- How `ieee_round` is made of `round_value`. -/
theorem ieee_round_eq (p : Nat) (emin emax : Int) (q : ℚ) (hq : q ≠ 0) :
    ieee_round p emin emax q =
      if round_value p emin q = 0 then .zero (decide (q < 0))
      else if pow2 (emax + 1) ≤ |round_value p emin q| then .inf (decide (q < 0))
      else .num (round_value p emin q) := by
  unfold ieee_round round_value ulp
  simp only [if_neg hq]

theorem round_value_nonpos (p : Nat) (emin : Int) (q : ℚ) (h : q ≤ 0) :
    round_value p emin q ≤ 0 := by
  unfold round_value
  have hu := ulp_pos p emin q
  have : round_half_even (q / ulp p emin q) ≤ 0 :=
    rhe_le 0 _ (by simpa using div_nonpos_of_nonpos_of_nonneg h (le_of_lt hu))
  have : (round_half_even (q / ulp p emin q) : ℚ) ≤ 0 := by exact_mod_cast this
  exact mul_nonpos_of_nonpos_of_nonneg this (le_of_lt hu)

theorem round_value_nonneg (p : Nat) (emin : Int) (q : ℚ) (h : 0 ≤ q) :
    0 ≤ round_value p emin q := by
  have := round_value_nonpos p emin (-q) (by linarith)
  rw [round_value_neg] at this
  linarith

/-- A multiple of the spacing at `q` that is not below `q` is not below the rounding. -/
theorem round_value_le_multiple (p : Nat) (emin : Int) (q : ℚ) (K : Int)
    (h : q ≤ (K : ℚ) * ulp p emin q) : round_value p emin q ≤ (K : ℚ) * ulp p emin q := by
  unfold round_value
  have hu := ulp_pos p emin q
  have : round_half_even (q / ulp p emin q) ≤ K := rhe_le K _ ((div_le_iff₀ hu).mpr h)
  have : (round_half_even (q / ulp p emin q) : ℚ) ≤ K := by exact_mod_cast this
  exact mul_le_mul_of_nonneg_right this (le_of_lt hu)

/-- Rounding does not cross a value of the format: for `a` on the grid of the format at
its own magnitude and `q ≤ a`, the rounding of `q` is at most `a`. -/
theorem round_value_le (p : Nat) (hp : 1 ≤ p) (emin : Int) (a q : ℚ) (ha : a ≠ 0)
    (hgrid : ∃ k : Int, a = (k : ℚ) * ulp p emin a) (hq : q ≠ 0) (hle : q ≤ a) :
    round_value p emin q ≤ a := by
  obtain ⟨k, hk⟩ := hgrid
  by_cases he : max (floor_log2 q) emin ≤ max (floor_log2 a) emin
  · obtain ⟨n, hn⟩ := Int.eq_ofNat_of_zero_le (sub_nonneg.mpr he)
    have hua : ulp p emin a = ulp p emin q * ((2 ^ n : Nat) : ℚ) := by
      unfold ulp
      rw [← pow2_natCast, ← pow2_add, ← hn]
      congr 1
      ring
    have hK : a = ((k * (2 ^ n : Nat) : Int) : ℚ) * ulp p emin q := by
      rw [hk, hua]
      push_cast
      ring
    rw [hK]
    apply round_value_le_multiple
    rw [← hK]
    exact hle
  · have he2 : max (floor_log2 a) emin < max (floor_log2 q) emin := not_le.mp he
    have heq : max (floor_log2 q) emin = floor_log2 q := by
      apply max_eq_left
      by_contra hc
      rw [max_eq_right (le_of_not_le hc)] at he2
      exact absurd he2 (not_lt.mpr (le_max_right _ _))
    obtain ⟨_, ha2⟩ := floor_log2_spec a ha
    obtain ⟨hq1, _⟩ := floor_log2_spec q hq
    have hmid : |a| < pow2 (floor_log2 q) := by
      apply lt_of_lt_of_le ha2
      apply pow2_le_pow2
      have := le_max_left (floor_log2 a) emin
      omega
    have hqneg : q < 0 := by
      by_contra hc
      have h0 : 0 ≤ q := not_lt.mp hc
      have : |q| ≤ |a| := by
        rw [abs_of_nonneg h0, abs_of_nonneg (le_trans h0 hle)]
        exact hle
      linarith
    obtain ⟨m, hm⟩ : ∃ m : Nat, (p : Int) - 1 = m := Int.eq_ofNat_of_zero_le (by omega)
    have hpow : pow2 (floor_log2 q) = ((2 ^ m : Nat) : ℚ) * ulp p emin q := by
      unfold ulp
      rw [heq, ← pow2_natCast, ← pow2_add, ← hm]
      congr 1
      ring
    have hqle : q ≤ ((-(2 ^ m : Nat) : Int) : ℚ) * ulp p emin q := by
      have h2 : (2 : ℚ) ^ m * ulp p emin q = pow2 (floor_log2 q) := by
        rw [hpow]
        push_cast
        ring
      rw [abs_of_neg hqneg] at hq1
      push_cast
      linarith
    have := round_value_le_multiple p emin q _ hqle
    have hlt : ((-(2 ^ m : Nat) : Int) : ℚ) * ulp p emin q = -pow2 (floor_log2 q) := by
      rw [hpow]
      push_cast
      ring
    rw [hlt] at this
    have := neg_abs_le a
    linarith

theorem round_value_ge (p : Nat) (hp : 1 ≤ p) (emin : Int) (a q : ℚ) (ha : a ≠ 0)
    (hgrid : ∃ k : Int, a = (k : ℚ) * ulp p emin a) (hq : q ≠ 0) (hle : a ≤ q) :
    a ≤ round_value p emin q := by
  obtain ⟨k, hk⟩ := hgrid
  have := round_value_le p hp emin (-a) (-q) (neg_ne_zero.mpr ha)
    ⟨-k, by rw [ulp_neg]; push_cast; rw [neg_mul, ← hk]⟩ (neg_ne_zero.mpr hq) (by linarith)
  rw [round_value_neg] at this
  linarith

theorem on_grid_zero (p : Nat) (emin : Int) : on_grid p emin 0 := ⟨0, by simp⟩

/-- A value that rounding leaves as it is lies on the grid of the format. -/
theorem on_grid_of_fixed (p : Nat) (emin emax : Int) (a : ℚ)
    (h : ieee_round p emin emax a = .num a) : on_grid p emin a := by
  by_cases ha : a = 0
  · rw [ha]
    exact on_grid_zero p emin
  · rw [ieee_round_eq p emin emax a ha] at h
    split_ifs at h
    have hv : round_value p emin a = a := by simpa using h
    exact ⟨round_half_even (a / ulp p emin a), by
      conv_lhs => rw [← hv]
      rfl⟩

theorem round_value_le_grid (p : Nat) (hp : 1 ≤ p) (emin : Int) (a q : ℚ)
    (hgrid : on_grid p emin a) (hq : q ≠ 0) (hle : q ≤ a) : round_value p emin q ≤ a := by
  by_cases ha : a = 0
  · rw [ha] at hle ⊢
    exact round_value_nonpos p emin q hle
  · exact round_value_le p hp emin a q ha hgrid hq hle

theorem round_value_ge_grid (p : Nat) (hp : 1 ≤ p) (emin : Int) (a q : ℚ)
    (hgrid : on_grid p emin a) (hq : q ≠ 0) (hle : a ≤ q) : a ≤ round_value p emin q := by
  by_cases ha : a = 0
  · rw [ha] at hle ⊢
    exact round_value_nonneg p emin q hle
  · exact round_value_ge p hp emin a q ha hgrid hq hle

/-- Rounding a rational between two values of the format gives a finite value between
them. -/
theorem ieee_round_between (p : Nat) (hp : 1 ≤ p) (emin emax : Int) (lo hi q : ℚ)
    (hlo : on_grid p emin lo) (hhi : on_grid p emin hi) (h1 : lo ≤ q) (h2 : q ≤ hi)
    (hb1 : -pow2 (emax + 1) < lo) (hb2 : hi < pow2 (emax + 1)) :
    ∃ w, lo ≤ w ∧ w ≤ hi ∧
      ((w = 0 ∧ ∃ s, ieee_round p emin emax q = .zero s) ∨
        (w ≠ 0 ∧ ieee_round p emin emax q = .num w)) := by
  by_cases hq : q = 0
  · subst hq
    exact ⟨0, h1, h2, Or.inl ⟨rfl, false, by simp [ieee_round]⟩⟩
  · have hle := round_value_le_grid p hp emin hi q hhi hq h2
    have hge := round_value_ge_grid p hp emin lo q hlo hq h1
    refine ⟨round_value p emin q, hge, hle, ?_⟩
    rw [ieee_round_eq p emin emax q hq]
    by_cases h0 : round_value p emin q = 0
    · exact Or.inl ⟨h0, _, by rw [if_pos h0]⟩
    · refine Or.inr ⟨h0, ?_⟩
      rw [if_neg h0, if_neg]
      rw [not_le, abs_lt]
      constructor <;> linarith

theorem ieee_round_within (p : Nat) (hp : 1 ≤ p) (emin emax : Int) (lo hi q : ℚ)
    (hlo : on_grid p emin lo) (hhi : on_grid p emin hi) (h1 : lo ≤ q) (h2 : q ≤ hi)
    (hb1 : -pow2 (emax + 1) < lo) (hb2 : hi < pow2 (emax + 1)) :
    (ieee_round p emin emax q).within lo hi := by
  obtain ⟨w, hw1, hw2, h | h⟩ := ieee_round_between p hp emin emax lo hi q hlo hhi h1 h2 hb1 hb2
  · obtain ⟨h0, s, hs⟩ := h
    exact ⟨0, by rw [hs]; rfl, h0 ▸ hw1, h0 ▸ hw2⟩
  · exact ⟨w, by rw [h.2]; rfl, hw1, hw2⟩

end Demsmooth

namespace Demsmooth

/-! ## The bound on the roll -/

theorem sixteen_lt_pow2 (e : Int) (h : 4 < e) : (16 : ℚ) < pow2 e := by
  have : (16 : ℚ) = pow2 4 := by
    rw [pow2_eq_zpow]
    norm_num
  rw [this]
  exact (pow2_lt_pow2_iff 4 e).mpr h

/-- Rounding to `double` and then to `float` keeps a value between two values that both
formats hold. -/
theorem to_float_round64_within (lo hi q : ℚ)
    (hlo64 : on_grid 53 (-1022) lo) (hlo32 : on_grid 24 (-126) lo)
    (hhi64 : on_grid 53 (-1022) hi) (hhi32 : on_grid 24 (-126) hi)
    (h1 : lo ≤ q) (h2 : q ≤ hi) (hb1 : -16 ≤ lo) (hb2 : hi ≤ 16) :
    (round64 q).to_float.within lo hi := by
  have b64 := sixteen_lt_pow2 (1023 + 1) (by norm_num)
  have b32 := sixteen_lt_pow2 (127 + 1) (by norm_num)
  obtain ⟨w, hw1, hw2, h | h⟩ := ieee_round_between 53 (by norm_num) (-1022) 1023 lo hi q
    hlo64 hhi64 h1 h2 (by linarith) (by linarith)
  · obtain ⟨h0, s, hs⟩ := h
    have : round64 q = .zero s := hs
    rw [this]
    exact ⟨0, rfl, h0 ▸ hw1, h0 ▸ hw2⟩
  · have : round64 q = .num w := h.2
    rw [this]
    exact ieee_round_within 24 (by norm_num) (-126) 127 lo hi w hlo32 hhi32 hw1 hw2
      (by linarith) (by linarith)

theorem add_num_value (rnd : ℚ → ieee) (z : ieee) (v c : ℚ) (hz : z.value = some v) :
    ieee.add rnd z (.num c) = rnd (v + c) := by
  cases z with
  | nan => simp [ieee.value] at hz
  | inf s => simp [ieee.value] at hz
  | zero s =>
    have : v = 0 := by simpa [ieee.value] using hz.symm
    subst this
    simp [ieee.add]
  | num a =>
    have : v = a := by simpa [ieee.value] using hz.symm
    subst this
    rfl

theorem lt_num_right (z : ieee) (v c : ℚ) (hz : z.value = some v) :
    z.lt (.num c) = decide (v < c) := by
  cases z with
  | nan => simp [ieee.value] at hz
  | inf s => simp [ieee.value] at hz
  | zero s =>
    have : v = 0 := by simpa [ieee.value] using hz.symm
    subst this
    rfl
  | num a =>
    have : v = a := by simpa [ieee.value] using hz.symm
    subst this
    rfl

theorem lt_num_left (z : ieee) (v c : ℚ) (hz : z.value = some v) :
    ieee.lt (.num c) z = decide (c < v) := by
  cases z with
  | nan => simp [ieee.value] at hz
  | inf s => simp [ieee.value] at hz
  | zero s =>
    have : v = 0 := by simpa [ieee.value] using hz.symm
    subst this
    rfl
  | num a =>
    have : v = a := by simpa [ieee.value] using hz.symm
    subst this
    rfl

theorem grid64_ten : on_grid 53 (-1022) 10 := on_grid_of_fixed 53 (-1022) 1023 10 (by decide!)
theorem grid32_ten : on_grid 24 (-126) 10 := on_grid_of_fixed 24 (-126) 127 10 (by decide!)
theorem grid64_neg_ten : on_grid 53 (-1022) (-10) :=
  on_grid_of_fixed 53 (-1022) 1023 (-10) (by decide!)
theorem grid32_neg_ten : on_grid 24 (-126) (-10) :=
  on_grid_of_fixed 24 (-126) 127 (-10) (by decide!)
theorem grid64_sixteen : on_grid 53 (-1022) 16 := on_grid_of_fixed 53 (-1022) 1023 16 (by decide!)
theorem grid32_sixteen : on_grid 24 (-126) 16 := on_grid_of_fixed 24 (-126) 127 16 (by decide!)
theorem grid64_neg_sixteen : on_grid 53 (-1022) (-16) :=
  on_grid_of_fixed 53 (-1022) 1023 (-16) (by decide!)
theorem grid32_neg_sixteen : on_grid 24 (-126) (-16) :=
  on_grid_of_fixed 24 (-126) 127 (-16) (by decide!)

theorem speed_double :
    round64 ROLL_SPEED = .num (3602879701896397 / 18014398509481984) := by decide!

theorem neg_speed_double :
    ieee.mul round64 (round64 (-1)) (.num (3602879701896397 / 18014398509481984))
      = .num (-3602879701896397 / 18014398509481984) := by decide!

theorem target_float : round32 ((ROLL_TARGET : Int) : ℚ) = .num 10 := by decide!

theorem neg_target_float : round32 ((-1 * ROLL_TARGET : Int) : ℚ) = .num (-10) := by decide!

theorem zero_float : round32 ((0 : Int) : ℚ) = .zero false := by decide!

/-- One turn of the loop body of `add_roll` keeps the roll between -10 and 10, whatever
the yaw difference. -/
theorem roll_update_within (dy z : ieee) (hz : z.within (-10) 10) :
    (roll_update ieee_arith dy z).within (-10) 10 := by
  obtain ⟨v, hv, hv1, hv2⟩ := hz
  unfold roll_update
  simp only [ieee_arith, speed_double, neg_speed_double, target_float, neg_target_float,
    zero_float, ieee.neg]
  split_ifs with c1 c2 c3 c4 c5 c6
  · exact ⟨10, rfl, by norm_num, by norm_num⟩
  · rw [add_num_value round64 z v _ hv] at c2 ⊢
    obtain ⟨w, hw, hw1, hw2⟩ := to_float_round64_within (-10) 16 _ grid64_neg_ten grid32_neg_ten
      grid64_sixteen grid32_sixteen (by linarith : -10 ≤ v + 3602879701896397 / 18014398509481984)
      (by linarith) (by norm_num) (by norm_num)
    refine ⟨w, hw, hw1, ?_⟩
    rw [lt_num_left _ w 10 hw] at c2
    simpa using c2
  · exact ⟨-10, rfl, by norm_num, by norm_num⟩
  · rw [add_num_value round64 z v _ hv] at c4 ⊢
    obtain ⟨w, hw, hw1, hw2⟩ := to_float_round64_within (-16) 10 _ grid64_neg_sixteen
      grid32_neg_sixteen grid64_ten grid32_ten
      (by linarith : -16 ≤ v + -(3602879701896397 / 18014398509481984))
      (by linarith) (by norm_num) (by norm_num)
    refine ⟨w, hw, ?_, hw2⟩
    rw [lt_num_right _ w (-10) hw] at c4
    simpa using c4
  · rw [add_num_value round64 z v _ hv]
    rw [lt_num_right z v _ hv] at c5
    have hlt : v < -3602879701896397 / 18014398509481984 := by simpa using c5
    obtain ⟨w, hw, hw1, hw2⟩ := to_float_round64_within (-10) 0 _ grid64_neg_ten grid32_neg_ten
      (on_grid_zero _ _) (on_grid_zero _ _)
      (by linarith : -10 ≤ v + 3602879701896397 / 18014398509481984)
      (by linarith) (by norm_num) (by norm_num)
    exact ⟨w, hw, hw1, by linarith⟩
  · rw [add_num_value round64 z v _ hv]
    rw [lt_num_left z v _ hv] at c6
    have hlt : 3602879701896397 / 18014398509481984 < v := by simpa using c6
    obtain ⟨w, hw, hw1, hw2⟩ := to_float_round64_within 0 10 _
      (on_grid_zero _ _) (on_grid_zero _ _) grid64_ten grid32_ten
      (by linarith : 0 ≤ v + -(3602879701896397 / 18014398509481984))
      (by linarith) (by norm_num) (by norm_num)
    exact ⟨w, hw, by linarith, hw2⟩
  · exact ⟨0, rfl, by norm_num, by norm_num⟩

theorem add_roll_loop_within : ∀ (l : List (block ieee)) (p z : ieee), z.within (-10) 10 →
    ∀ blk ∈ add_roll_loop ieee_arith l p z, blk.angles2.within (-10) 10 := by
  intro l
  induction l with
  | nil => intro p z _ blk hb; simp [add_roll_loop] at hb
  | cons b rest ih =>
    intro p z hz blk hb
    simp only [add_roll_loop, List.mem_cons] at hb
    have hstep := roll_update_within (ieee_arith.fsub p b.angles1) z hz
    rcases hb with h | h
    · rw [h]
      exact hstep
    · exact ih _ _ hstep blk h

theorem add_roll_loop_frame {F D : Type} (ops : float_arith F D) :
    ∀ (l : List (block F)) (p z : F),
      (add_roll_loop ops l p z).map (fun blk => (blk.angles0, blk.angles1, blk.messages))
        = l.map (fun blk => (blk.angles0, blk.angles1, blk.messages)) := by
  intro l
  induction l with
  | nil => intro p z; rfl
  | cons b rest ih =>
    intro p z
    simp only [add_roll_loop, List.map_cons, ih]

/-- The float difference of a value and itself is a NaN or +0. -/
theorem fsub_self_cases (y : ieee) :
    ieee_arith.fsub y y = .nan ∨ ieee_arith.fsub y y = .zero false := by
  cases y with
  | nan => exact Or.inl rfl
  | inf s => cases s <;> exact Or.inl rfl
  | zero s => cases s <;> exact Or.inr rfl
  | num a =>
    right
    have : ieee.add round32 (ieee.num a) (ieee.num (-a)) = round32 (a + -a) := rfl
    simp only [ieee_arith, ieee.neg, this, add_neg_cancel]
    decide!

theorem roll_update_start (y : ieee) :
    roll_update ieee_arith (ieee_arith.fsub y y) (ieee_arith.to_float (ieee_arith.d_lit 0))
      = .zero false := by
  rcases fsub_self_cases y with h | h <;> rw [h] <;> decide!

/-- C12: under IEEE 754 arithmetic, for every record list, whatever its yaw values and
its prior roll values (NaN and infinities included), `add_roll` leaves as many records,
the third orientation component of every record is finite and lies in [-10, 10], the
roll of the first record is 0, and the yaw, the pitch and the messages of every record
are as they were. -/
theorem roll_bound (bs : List (block ieee)) :
    (add_roll ieee_arith bs).length = bs.length ∧
    (∀ blk ∈ add_roll ieee_arith bs, ∃ w, blk.angles2.value = some w ∧ -10 ≤ w ∧ w ≤ 10) ∧
    (∀ blk, (add_roll ieee_arith bs)[0]? = some blk → blk.angles2 = .zero false) ∧
    (add_roll ieee_arith bs).map (fun blk => (blk.angles0, blk.angles1, blk.messages))
      = bs.map (fun blk => (blk.angles0, blk.angles1, blk.messages)) := by
  have hframe : (add_roll ieee_arith bs).map (fun blk => (blk.angles0, blk.angles1, blk.messages))
      = bs.map (fun blk => (blk.angles0, blk.angles1, blk.messages)) := by
    cases bs with
    | nil => rfl
    | cons b rest => exact add_roll_loop_frame ieee_arith _ _ _
  refine ⟨?_, ?_, ?_, hframe⟩
  · have := congrArg List.length hframe
    simpa using this
  · cases bs with
    | nil => intro blk hb; simp [add_roll] at hb
    | cons b rest =>
      exact add_roll_loop_within _ _ _ ⟨0, by decide!, by norm_num, by norm_num⟩
  · cases bs with
    | nil => intro blk hb; simp [add_roll] at hb
    | cons b rest =>
      intro blk hb
      simp only [add_roll, add_roll_loop, List.getElem?_cons_zero, Option.some.injEq] at hb
      rw [← hb]
      exact roll_update_start b.angles1

end Demsmooth

namespace Demsmooth

/-! ## The roll under a steady heading -/

/-- A `float` is a `double`. -/
theorem grid32_to_grid64 (a : ℚ) (h : on_grid 24 (-126) a) : on_grid 53 (-1022) a := by
  obtain ⟨k, hk⟩ := h
  have hn : 0 ≤ (max (floor_log2 a) (-126) - ((24 : Nat) : Int) + 1)
      - (max (floor_log2 a) (-1022) - ((53 : Nat) : Int) + 1) := by
    push_cast
    omega
  obtain ⟨n, hn2⟩ := Int.eq_ofNat_of_zero_le hn
  have hu : ulp 24 (-126) a = ulp 53 (-1022) a * ((2 ^ n : Nat) : ℚ) := by
    unfold ulp
    rw [← pow2_natCast, ← pow2_add, ← hn2]
    congr 1
    ring
  refine ⟨k * (2 ^ n : Nat), ?_⟩
  conv_lhs => rw [hk, hu]
  push_cast
  ring

theorem on_grid_neg (p : Nat) (emin : Int) (a : ℚ) (h : on_grid p emin a) :
    on_grid p emin (-a) := by
  obtain ⟨k, hk⟩ := h
  exact ⟨-k, by rw [ulp_neg]; push_cast; rw [neg_mul, ← hk]⟩

theorem trigger_double :
    round64 ROLL_TRIGGER_ANGLE = .num (5404319552844595 / 18014398509481984) := by decide!

theorem neg_trigger_double :
    ieee.mul round64 (round64 ((-1 : Int) : ℚ)) (.num (5404319552844595 / 18014398509481984))
      = .num (-5404319552844595 / 18014398509481984) := by decide!

/-- No `float` lies above the `double` nearest to 0.3 and at or below 0.3. -/
theorem float_le_trigger (d : ℚ) (hg : on_grid 24 (-126) d) (h : d ≤ 3 / 10) :
    d ≤ 5404319552844595 / 18014398509481984 := by
  by_contra hc
  have hgt : 5404319552844595 / 18014398509481984 < d := not_le.mp hc
  have hpos : 0 < d := by linarith
  have hfl : floor_log2 d = -2 := by
    apply floor_log2_unique
    · rw [abs_of_pos hpos, pow2_eq_zpow]
      norm_num
      linarith
    · rw [abs_of_pos hpos, pow2_eq_zpow]
      norm_num
      linarith
  obtain ⟨k, hk⟩ := hg
  have hu : ulp 24 (-126) d = 1 / 33554432 := by
    unfold ulp
    rw [hfl, pow2_eq_zpow]
    norm_num
  rw [hu] at hk
  have hk1 : k ≤ 10066329 := by
    by_contra hk2
    have : (10066330 : Int) ≤ k := by omega
    have : (10066330 : ℚ) ≤ (k : ℚ) := by exact_mod_cast this
    rw [hk] at h
    linarith
  have : (k : ℚ) ≤ 10066329 := by exact_mod_cast hk1
  rw [hk] at hgt
  linarith

theorem steady_delta_tests (dy : ieee) (h : steady_delta dy) :
    ieee.lt (.num (5404319552844595 / 18014398509481984)) dy = false ∧
      dy.lt (.num (-5404319552844595 / 18014398509481984)) = false := by
  obtain ⟨d, hd, hg, h1, h2⟩ := h
  have hup := float_le_trigger d hg h2
  have hdn := float_le_trigger (-d) (on_grid_neg _ _ d hg) (by linarith)
  rw [lt_num_left dy d _ hd, lt_num_right dy d _ hd]
  constructor
  · simp only [decide_eq_false_iff_not, not_lt]
    exact hup
  · simp only [decide_eq_false_iff_not, not_lt]
    linarith

/-- The loop body of `add_roll` for a steady yaw difference and a finite roll of value
`v`: the float rounding of `v + 0.2` below `-0.2`, of `v - 0.2` above `0.2` (0.2 being
the `double` nearest to it), and +0 otherwise. -/
theorem roll_update_steady (dy : ieee) (hdy : steady_delta dy) (z : ieee) (v : ℚ)
    (hz : z.value = some v) :
    roll_update ieee_arith dy z =
      if v < -3602879701896397 / 18014398509481984 then
        (round64 (v + 3602879701896397 / 18014398509481984)).to_float
      else if 3602879701896397 / 18014398509481984 < v then
        (round64 (v + -(3602879701896397 / 18014398509481984))).to_float
      else .zero false := by
  obtain ⟨t1, t2⟩ := steady_delta_tests dy hdy
  unfold roll_update
  simp only [ieee_arith, trigger_double, neg_trigger_double, speed_double, neg_speed_double,
    zero_float, ieee.neg, t1, t2, Bool.false_eq_true, if_false, add_num_value round64 z v _ hz,
    lt_num_right z v _ hz, lt_num_left z v _ hz, decide_eq_true_eq]

theorem steady_delta_zero : steady_delta (.zero false) :=
  ⟨0, rfl, on_grid_zero _ _, by norm_num, by norm_num⟩

theorem roll_update_steady_congr (dy : ieee) (hdy : steady_delta dy) (z : ieee) (v : ℚ)
    (hz : z.value = some v) :
    roll_update ieee_arith dy z = roll_update ieee_arith (.zero false) z := by
  rw [roll_update_steady dy hdy z v hz, roll_update_steady _ steady_delta_zero z v hz]

/-- Under a steady heading a finite `float` roll keeps its sign and does not grow in
magnitude. -/
theorem roll_update_shrinks (dy : ieee) (hdy : steady_delta dy) (v : ℚ)
    (hg : on_grid 24 (-126) v) (hv : |v| ≤ 10) :
    ∃ w, (roll_update ieee_arith dy (.num v)).value = some w ∧
      (0 ≤ v → 0 ≤ w ∧ w ≤ v) ∧ (v ≤ 0 → v ≤ w ∧ w ≤ 0) := by
  rw [roll_update_steady dy hdy (.num v) v rfl]
  obtain ⟨hv1, hv2⟩ := abs_le.mp hv
  have hg64 := grid32_to_grid64 v hg
  split_ifs with c1 c2
  · obtain ⟨w, hw, hw1, hw2⟩ := to_float_round64_within v 0 _ hg64 hg
      (on_grid_zero _ _) (on_grid_zero _ _)
      (by linarith : v ≤ v + 3602879701896397 / 18014398509481984)
      (by linarith) (by linarith) (by norm_num)
    exact ⟨w, hw, fun h => by linarith, fun _ => ⟨hw1, hw2⟩⟩
  · obtain ⟨w, hw, hw1, hw2⟩ := to_float_round64_within 0 v _
      (on_grid_zero _ _) (on_grid_zero _ _) hg64 hg
      (by linarith : 0 ≤ v + -(3602879701896397 / 18014398509481984))
      (by linarith) (by norm_num) (by linarith)
    exact ⟨w, hw, fun _ => ⟨hw1, hw2⟩, fun h => by linarith⟩
  · exact ⟨0, rfl, fun h => ⟨le_refl _, h⟩, fun h => ⟨h, le_refl _⟩⟩

theorem roll_update_zero (dy : ieee) (hdy : steady_delta dy) (s : Bool) :
    roll_update ieee_arith dy (.zero s) = .zero false := by
  rw [roll_update_steady dy hdy (.zero s) 0 rfl]
  norm_num

theorem decay_traj_finite : ∀ k, ∃ v, (decay_traj k).value = some v := by
  intro k
  have : (decay_traj k).within (-10) 10 := by
    induction k with
    | zero => exact ⟨10, by decide!, by norm_num, by norm_num⟩
    | succ k ih => exact roll_update_within _ _ ih
  obtain ⟨w, hw, _⟩ := this
  exact ⟨w, hw⟩

theorem add_roll_loop_decay : ∀ (rest : List (block ieee)) (p : ieee) (j : Nat),
    steady_run p rest → ∀ i blk,
      (add_roll_loop ieee_arith rest p (decay_traj j))[i]? = some blk →
      blk.angles2 = decay_traj (j + 1 + i) := by
  intro rest
  induction rest with
  | nil => intro p j _ i blk h; simp [add_roll_loop] at h
  | cons b rest ih =>
    intro p j hs i blk h
    obtain ⟨hd, hrest⟩ := hs
    obtain ⟨v, hv⟩ := decay_traj_finite j
    have hz : roll_update ieee_arith (ieee_arith.fsub p b.angles1) (decay_traj j)
        = decay_traj (j + 1) := roll_update_steady_congr _ hd _ v hv
    simp only [add_roll_loop, hz] at h
    cases i with
    | zero =>
      simp only [List.getElem?_cons_zero, Option.some.injEq] at h
      rw [← h]
    | succ i =>
      simp only [List.getElem?_cons_succ] at h
      have := ih b.angles1 (j + 1) hrest i blk h
      rw [this]
      congr 1
      omega

theorem decay_traj_values :
    ∀ j, j < 52 →
      (j ≤ 50 → 0 < (decay_traj j).value.getD (-1000) ∧
        |(decay_traj j).value.getD (-1000) - (10 - 2 / 10 * (j : ℚ))| < 1 / 100000) ∧
      (j = 51 → decay_traj j = .zero false) := by
  decide!

theorem decay_traj_zero (j : Nat) (h : 51 ≤ j) : decay_traj j = .zero false := by
  induction j with
  | zero => omega
  | succ j ih =>
    by_cases hj : j + 1 = 51
    · rw [hj]
      exact (decay_traj_values 51 (by norm_num)).2 rfl
    · have := ih (by omega)
      simp only [decay_traj, this]
      exact roll_update_zero _ steady_delta_zero false

theorem steady_run_replicate (n : Nat) :
    steady_run (.zero false) (List.replicate n ⟨.zero false, .zero false, .zero false, []⟩) := by
  induction n with
  | zero => trivial
  | succ n ih => exact ⟨steady_delta_zero, ih⟩

/-- C11 (as amended): under IEEE 754 arithmetic (`float` binary32, `double` binary64), in
`add_roll`, when the yaw difference of a record is a `float` within [-0.3, 0.3] and the
running roll is a `float` `v` with `|v| ≤ 10`: the new roll is the `float` rounding of
`v + 0.2` if `v < -0.2`, of `v - 0.2` if `v > 0.2` (0.2 being the `double` nearest to
it), and exactly 0 otherwise; it has the sign of `v` or is 0 and its magnitude is at
most that of `v`; and a roll of 0 stays 0.  Over a run of records of steady heading that
starts with the roll exactly 10, the roll after the j-th record is `decay_traj j`, which
is positive and within 0.00001 of `10 - 0.2 * j` for j ≤ 50 and exactly 0 from j = 51
on. -/
theorem roll_decay_trajectory (dy : ieee) (v : ℚ) (p : ieee) (rest : List (block ieee))
    (hdy : steady_delta dy) (hv : round32 v = .num v) (hv10 : |v| ≤ 10)
    (hrun : steady_run p rest) :
    (roll_update ieee_arith dy (.num v) =
      if v < -3602879701896397 / 18014398509481984 then
        (round64 (v + 3602879701896397 / 18014398509481984)).to_float
      else if 3602879701896397 / 18014398509481984 < v then
        (round64 (v + -(3602879701896397 / 18014398509481984))).to_float
      else .zero false) ∧
    (∃ w, (roll_update ieee_arith dy (.num v)).value = some w ∧
      (0 ≤ v → 0 ≤ w ∧ w ≤ v) ∧ (v ≤ 0 → v ≤ w ∧ w ≤ 0)) ∧
    (∀ s, roll_update ieee_arith dy (.zero s) = .zero false) ∧
    (∀ i blk, (add_roll_loop ieee_arith rest p (round32 10))[i]? = some blk →
      blk.angles2 = decay_traj (i + 1)) ∧
    (∀ j, j ≤ 50 → 0 < (decay_traj j).value.getD (-1000) ∧
      |(decay_traj j).value.getD (-1000) - (10 - 2 / 10 * (j : ℚ))| < 1 / 100000) ∧
    (∀ j, 51 ≤ j → decay_traj j = .zero false) := by
  refine ⟨roll_update_steady dy hdy (.num v) v rfl,
    roll_update_shrinks dy hdy v (on_grid_of_fixed 24 (-126) 127 v hv) hv10,
    roll_update_zero dy hdy, ?_, fun j hj => (decay_traj_values j (by omega)).1 hj,
    decay_traj_zero⟩
  intro i blk h
  have := add_roll_loop_decay rest p 0 hrun i blk h
  rw [this]
  congr 1
  omega

/-- Witness of `roll_decay_trajectory`: the roll 10 and 55 records of yaw 0. -/
theorem roll_decay_trajectory_witness :
    (roll_update ieee_arith (.zero false) (.num 10) =
      if (10 : ℚ) < -3602879701896397 / 18014398509481984 then
        (round64 (10 + 3602879701896397 / 18014398509481984)).to_float
      else if 3602879701896397 / 18014398509481984 < (10 : ℚ) then
        (round64 (10 + -(3602879701896397 / 18014398509481984))).to_float
      else .zero false) ∧
    (∃ w, (roll_update ieee_arith (.zero false) (.num 10)).value = some w ∧
      ((0 : ℚ) ≤ 10 → 0 ≤ w ∧ w ≤ 10) ∧ ((10 : ℚ) ≤ 0 → 10 ≤ w ∧ w ≤ 0)) ∧
    (∀ s, roll_update ieee_arith (.zero false) (.zero s) = .zero false) ∧
    (∀ i blk, (add_roll_loop ieee_arith
        (List.replicate 55 ⟨.zero false, .zero false, .zero false, []⟩) (.zero false)
        (round32 10))[i]? = some blk →
      blk.angles2 = decay_traj (i + 1)) ∧
    (∀ j, j ≤ 50 → 0 < (decay_traj j).value.getD (-1000) ∧
      |(decay_traj j).value.getD (-1000) - (10 - 2 / 10 * (j : ℚ))| < 1 / 100000) ∧
    (∀ j, 51 ≤ j → decay_traj j = .zero false) :=
  roll_decay_trajectory (.zero false) 10 (.zero false)
    (List.replicate 55 ⟨.zero false, .zero false, .zero false, []⟩)
    ⟨0, rfl, ⟨0, by simp⟩, by norm_num, by norm_num⟩ (by decide!) (by norm_num)
    (steady_run_replicate 55)

/-- C11 (counterexample): in `ramp_then_steady` the yaw is 0 from record 60 on and record
60 receives the roll exactly 10.  The roll after the first steady record is
9.80000019073486328125, not 10 - 0.2, and the roll after the 50th steady record is
5541069 / 2^40, not 0; the roll is 0 after the 51st. -/
theorem roll_decay_not_exact :
    (∀ k, 60 ≤ k → k < 116 → yaw_at ramp_then_steady k = some 0) ∧
    roll_at (add_roll ieee_arith ramp_then_steady) 60 = 10 ∧
    roll_at (add_roll ieee_arith ramp_then_steady) 61 = 10276045 / 1048576 ∧
    roll_at (add_roll ieee_arith ramp_then_steady) 61 ≠ 10 - 2 / 10 * 1 ∧
    roll_at (add_roll ieee_arith ramp_then_steady) 110 = 5541069 / 1099511627776 ∧
    roll_at (add_roll ieee_arith ramp_then_steady) 110 ≠ 0 ∧
    roll_at (add_roll ieee_arith ramp_then_steady) 111 = 0 := by
  decide!

end Demsmooth

namespace Demsmooth

/-! ## The yaw average across the wraparound -/

/-- Rounding is symmetric: the rounding of `-q` is the negation of the rounding of `q`. -/
theorem ieee_round_neg (p : Nat) (emin emax : Int) (q : ℚ) (hq : q ≠ 0) :
    ieee_round p emin emax (-q) = (ieee_round p emin emax q).neg := by
  rw [ieee_round_eq p emin emax (-q) (neg_ne_zero.mpr hq), ieee_round_eq p emin emax q hq,
    round_value_neg]
  have hs : decide (-q < 0) = !decide (q < 0) := by
    rcases lt_or_gt_of_ne hq with h | h
    · simp [h, le_of_lt h]
    · simp [h, le_of_lt h, not_lt.mpr (le_of_lt h)]
  simp only [neg_eq_zero, abs_neg, hs]
  split_ifs <;> rfl

theorem ieee_round_num_ne_zero (p : Nat) (emin emax : Int) (q r : ℚ)
    (h : ieee_round p emin emax q = .num r) : r ≠ 0 := by
  by_cases hq : q = 0
  · rw [hq] at h
    simp [ieee_round] at h
  · rw [ieee_round_eq p emin emax q hq] at h
    split_ifs at h with h1 h2
    have : round_value p emin q = r := by simpa using h
    rw [← this]
    exact h1

/-- The rounding of a negative rational has its sign bit set. -/
theorem ieee_round_sign (p : Nat) (emin emax : Int) (q : ℚ) (hq : q < 0) :
    (ieee_round p emin emax q).sign = true := by
  rw [ieee_round_eq p emin emax q (ne_of_lt hq)]
  split_ifs with h1 h2
  · simp [ieee.sign, hq]
  · simp [ieee.sign, hq]
  · have := round_value_nonpos p emin q (le_of_lt hq)
    simp only [ieee.sign, decide_eq_true_eq]
    exact lt_of_le_of_ne this h1

theorem neg_neg_ieee (x : ieee) : x.neg.neg = x := by
  cases x <;> simp [ieee.neg]

theorem mul_neg_num (a b : ℚ) (ha : a ≠ 0) (hb : b ≠ 0) :
    ieee.mul round64 (.num (-a)) (.num b) = (ieee.mul round64 (.num a) (.num b)).neg := by
  have h1 : ieee.mul round64 (.num (-a)) (.num b) = round64 (-a * b) := rfl
  have h2 : ieee.mul round64 (.num a) (.num b) = round64 (a * b) := rfl
  rw [h1, h2, neg_mul]
  exact ieee_round_neg 53 (-1022) 1023 (a * b) (mul_ne_zero ha hb)

theorem div_neg_num (x : ieee) (b : ℚ) (hb : b ≠ 0) (hx : ∀ r, x = .num r → r ≠ 0) :
    ieee.div round64 x.neg (.num b) = (ieee.div round64 x (.num b)).neg := by
  cases x with
  | nan => rfl
  | inf s => cases s <;> simp [ieee.neg, ieee.div]
  | zero s => cases s <;> simp [ieee.neg, ieee.div]
  | num r =>
    have h1 : ieee.div round64 (ieee.num r).neg (.num b) = round64 (-r / b) := rfl
    have h2 : ieee.div round64 (.num r) (.num b) = round64 (r / b) := rfl
    rw [h1, h2, neg_div]
    exact ieee_round_neg 53 (-1022) 1023 (r / b) (div_ne_zero (hx r rfl) hb)

theorem pi_double : M_PI ieee_arith = .num (884279719003555 / 281474976710656) := by decide!

theorem zero_double : round64 ((0 : Int) : ℚ) = .zero false := by decide!

theorem half_turn_double : round64 ((180 : Int) : ℚ) = .num 180 := by decide!

theorem half_turn_float : round32 ((180 : Int) : ℚ) = .num 180 := by decide!

theorem full_turn :
    ieee.add round32 (ieee.div round64 (ieee.mul round64
      (.num (884279719003555 / 281474976710656)) (.num 180))
      (.num (884279719003555 / 281474976710656))).to_float (.num 180) = .num 360 := by
  decide!

/-- The yaw average of two samples when the sines cancel to +0, the sum of the cosines
has its sign bit set, and `atan2` returns `M_PI` for +0 and such a sum: exactly 360. -/
theorem yaw_mean_of_sums (lib : float_libm ieee) (y1 y2 : ieee)
    (hs : ieee.add round64 (ieee.add round64 (.zero false)
      (lib.sin (yaw_radians ieee_arith y1))) (lib.sin (yaw_radians ieee_arith y2)) = .zero false)
    (hc : (ieee.add round64 (ieee.add round64 (.zero false)
      (lib.cos (yaw_radians ieee_arith y1))) (lib.cos (yaw_radians ieee_arith y2))).sign = true)
    (hatan : ∀ x : ieee, x.sign = true → lib.atan2 (.zero false) x = M_PI ieee_arith) :
    yaw_mean ieee_arith lib [y1, y2] = .num 360 := by
  unfold yaw_mean
  simp only [List.foldl_cons, List.foldl_nil]
  generalize yaw_radians ieee_arith y1 = A1 at hs hc ⊢
  generalize yaw_radians ieee_arith y2 = A2 at hs hc ⊢
  rw [pi_double] at hatan ⊢
  simp only [ieee_arith, zero_double, half_turn_double, half_turn_float, hs, hatan _ hc]
  exact full_turn

theorem yaw_radians_value (y : ieee) (v : ℚ) (hy : y.value = some v) :
    yaw_radians ieee_arith y =
      ieee.div round64 (ieee.mul round64 (round32 (v + -180))
        (.num (884279719003555 / 281474976710656))) (.num 180) := by
  unfold yaw_radians
  rw [pi_double]
  simp only [ieee_arith, half_turn_float, half_turn_double, ieee.neg,
    add_num_value round32 y v _ hy]

theorem grid32_ninety : on_grid 24 (-126) 90 := on_grid_of_fixed 24 (-126) 127 90 (by decide!)

theorem grid32_half_turn : on_grid 24 (-126) 180 :=
  on_grid_of_fixed 24 (-126) 127 180 (by decide!)

/-- The angles of two yaw values at equal distance from 180, at least 90 away, are
opposite. -/
theorem yaw_radians_opposite (y1 y2 : ieee) (t : ℚ) (ht1 : 90 ≤ t) (ht2 : t ≤ 180)
    (h1 : y1.value = some (180 + t)) (h2 : y2.value = some (180 - t)) :
    yaw_radians ieee_arith y2 = (yaw_radians ieee_arith y1).neg := by
  rw [yaw_radians_value y1 _ h1, yaw_radians_value y2 _ h2]
  have e1 : 180 + t + -180 = t := by ring
  have e2 : 180 - t + -180 = -t := by ring
  rw [e1, e2]
  have ht0 : t ≠ 0 := by linarith
  obtain ⟨w, hw1, _, h | h⟩ := ieee_round_between 24 (by norm_num) (-126) 127 90 180 t
    grid32_ninety grid32_half_turn ht1 ht2
    (by have := pow2_pos (127 + 1); linarith)
    (by have := sixteen_lt_pow2 (127 + 1) (by norm_num)
        have h2 : pow2 (127 + 1) = pow2 4 * pow2 124 := by rw [← pow2_add]; norm_num
        have h3 : (16 : ℚ) ≤ pow2 124 := le_of_lt (sixteen_lt_pow2 124 (by norm_num))
        have h4 : pow2 4 = 16 := by rw [pow2_eq_zpow]; norm_num
        rw [h2, h4]
        linarith)
  · exact absurd h.1 (by linarith)
  · obtain ⟨hw0, hw⟩ := h
    have hr1 : round32 t = .num w := hw
    have hr2 : round32 (-t) = .num (-w) := by
      have := ieee_round_neg 24 (-126) 127 t ht0
      rw [hw] at this
      exact this
    rw [hr1, hr2, mul_neg_num w _ hw0 (by norm_num)]
    apply div_neg_num _ _ (by norm_num)
    intro r hr
    have : ieee.mul round64 (.num w) (.num (884279719003555 / 281474976710656))
        = round64 (w * (884279719003555 / 281474976710656)) := rfl
    rw [this] at hr
    exact ieee_round_num_ne_zero 53 (-1022) 1023 _ r hr

theorem round64_zero : round64 0 = .zero false := by decide!

/-- The sum of a finite `double` and its negation, added to +0 in either order, is +0. -/
theorem sin_cancel (S : ieee)
    (hfin : (∃ σ, S = .zero σ) ∨ ∃ s, S = .num s ∧ round64 s = .num s) :
    ieee.add round64 (ieee.add round64 (.zero false) S) S.neg = .zero false ∧
      ieee.add round64 (ieee.add round64 (.zero false) S.neg) S = .zero false := by
  rcases hfin with ⟨σ, rfl⟩ | ⟨s, rfl, hs⟩
  · cases σ <;> exact ⟨rfl, rfl⟩
  · have hs0 : s ≠ 0 := ieee_round_num_ne_zero 53 (-1022) 1023 s s hs
    have hneg : round64 (-s) = .num (-s) := by
      have := ieee_round_neg 53 (-1022) 1023 s hs0
      rw [show ieee_round 53 (-1022) 1023 s = .num s from hs] at this
      exact this
    have a1 : ieee.add round64 (.zero false) (.num s) = round64 s := rfl
    have a2 : ieee.add round64 (.zero false) (.num (-s)) = round64 (-s) := rfl
    have a3 : ieee.add round64 (.num s) (.num (-s)) = round64 (s + -s) := rfl
    have a4 : ieee.add round64 (.num (-s)) (.num s) = round64 (-s + s) := rfl
    simp only [ieee.neg, a1, a2, hs, hneg, a3, a4, add_neg_cancel, neg_add_cancel, round64_zero,
      and_self]

/-- The sum of two negative cosines, added to +0, has its sign bit set. -/
theorem cos_sum_sign (c1 c2 : ℚ) (h1 : c1 < 0) (h2 : c2 < 0) :
    (ieee.add round64 (ieee.add round64 (.zero false) (.num c1)) (.num c2)).sign = true := by
  have a1 : ieee.add round64 (.zero false) (.num c1) = round64 c1 := rfl
  rw [a1]
  have hsign : (round64 c1).sign = true := ieee_round_sign 53 (-1022) 1023 c1 h1
  cases hR : round64 c1 with
  | nan => rw [hR] at hsign; simp [ieee.sign] at hsign
  | inf s =>
    rw [hR] at hsign
    have : s = true := by simpa [ieee.sign] using hsign
    subst this
    rfl
  | zero s =>
    have : ieee.add round64 (.zero s) (.num c2) = round64 c2 := rfl
    rw [this]
    exact ieee_round_sign 53 (-1022) 1023 c2 h2
  | num r =>
    rw [hR] at hsign
    have hr : r < 0 := by simpa [ieee.sign] using hsign
    have : ieee.add round64 (.num r) (.num c2) = round64 (r + c2) := rfl
    rw [this]
    exact ieee_round_sign 53 (-1022) 1023 _ (by linarith)

/-- C16: under IEEE 754 arithmetic, with a `math.h` whose sine is odd and whose cosine is
even, whose sine at the computed angle is a finite `double` and whose cosine there is
negative, and whose `atan2` returns `M_PI` for +0 and a value with the sign bit set: for
every `d` with `0 ≤ d < 90` the yaw average of `smooth_camera_xy` over the two samples
`360 - d` and `d`, in either order, is exactly 360, which is congruent to 0 modulo 360 and
is not 180.  The yaw values 350 and 10 are the case `d = 10`. -/
theorem yaw_wraparound (lib : float_libm ieee) (d : ℚ) (y1 y2 : ieee)
    (hd0 : 0 ≤ d) (hd90 : d < 90)
    (h1 : y1.value = some (360 - d)) (h2 : y2.value = some d)
    (hodd : ∀ x, lib.sin x.neg = (lib.sin x).neg)
    (heven : ∀ x, lib.cos x.neg = lib.cos x)
    (hfin : (∃ σ, lib.sin (yaw_radians ieee_arith y1) = .zero σ) ∨
      ∃ s, lib.sin (yaw_radians ieee_arith y1) = .num s ∧ round64 s = .num s)
    (hcos : ∃ c, lib.cos (yaw_radians ieee_arith y1) = .num c ∧ c < 0)
    (hatan : ∀ x : ieee, x.sign = true → lib.atan2 (.zero false) x = M_PI ieee_arith) :
    (∃ w, (yaw_mean ieee_arith lib [y1, y2]).value = some w ∧ (∃ k : Int, w = 360 * k) ∧
      w ≠ 180) ∧
    (∃ w, (yaw_mean ieee_arith lib [y2, y1]).value = some w ∧ (∃ k : Int, w = 360 * k) ∧
      w ≠ 180) := by
  have hopp : yaw_radians ieee_arith y2 = (yaw_radians ieee_arith y1).neg :=
    yaw_radians_opposite y1 y2 (180 - d) (by linarith) (by linarith)
      (by rw [h1]; congr 1; ring) (by rw [h2]; congr 1; ring)
  obtain ⟨hs1, hs2⟩ := sin_cancel _ hfin
  obtain ⟨c, hc, hc0⟩ := hcos
  have hsum := cos_sum_sign c c hc0 hc0
  have m1 : yaw_mean ieee_arith lib [y1, y2] = .num 360 := by
    apply yaw_mean_of_sums lib y1 y2 _ _ hatan
    · rw [hopp, hodd]
      exact hs1
    · rw [hopp, heven, hc]
      exact hsum
  have m2 : yaw_mean ieee_arith lib [y2, y1] = .num 360 := by
    apply yaw_mean_of_sums lib y2 y1 _ _ hatan
    · rw [hopp, hodd]
      exact hs2
    · rw [hopp, heven, hc]
      exact hsum
  rw [m1, m2]
  exact ⟨⟨360, rfl, ⟨1, by norm_num⟩, by norm_num⟩, ⟨360, rfl, ⟨1, by norm_num⟩, by norm_num⟩⟩

theorem table_sin_odd (x : ieee) : table_libm.sin x.neg = (table_libm.sin x).neg := by
  cases x with
  | nan => rfl
  | inf s => rfl
  | zero s => rfl
  | num v =>
    simp only [table_libm, ieee.neg]
    by_cases h1 : v = wrap_angle
    · subst h1
      have : ¬ (-wrap_angle = wrap_angle) := by unfold wrap_angle; norm_num
      simp [this, ieee.neg]
      norm_num
    · by_cases h2 : v = -wrap_angle
      · subst h2
        have : ¬ (-wrap_angle = wrap_angle) := by unfold wrap_angle; norm_num
        simp [this, ieee.neg]
        norm_num
      · have h3 : ¬ (-v = wrap_angle) := fun h => h2 (by rw [← h]; ring)
        have h4 : ¬ (-v = -wrap_angle) := fun h => h1 (neg_injective h)
        simp [h1, h2, h3, h4, ieee.neg]

theorem table_cos_even (x : ieee) : table_libm.cos x.neg = table_libm.cos x := by
  cases x with
  | nan => rfl
  | inf s => rfl
  | zero s => rfl
  | num v =>
    simp only [table_libm, ieee.neg]
    have : (-v = wrap_angle ∨ -v = -wrap_angle) ↔ (v = wrap_angle ∨ v = -wrap_angle) := by
      constructor
      · rintro (h | h)
        · exact Or.inr (by rw [← h]; ring)
        · exact Or.inl (neg_injective h)
      · rintro (h | h)
        · exact Or.inr (by rw [h])
        · exact Or.inl (by rw [h]; ring)
    simp only [this]

theorem table_atan2 (x : ieee) (h : x.sign = true) :
    table_libm.atan2 (.zero false) x = M_PI ieee_arith := by
  simp [table_libm, h]

/-- Witness of `yaw_wraparound`: the yaw values 350 and 10 with `table_libm`. -/
theorem yaw_wraparound_witness :
    (∃ w, (yaw_mean ieee_arith table_libm [.num 350, .num 10]).value = some w ∧
      (∃ k : Int, w = 360 * k) ∧ w ≠ 180) ∧
    (∃ w, (yaw_mean ieee_arith table_libm [.num 10, .num 350]).value = some w ∧
      (∃ k : Int, w = 360 * k) ∧ w ≠ 180) :=
  yaw_wraparound table_libm 10 (.num 350) (.num 10) (by norm_num) (by norm_num)
    (by simp [ieee.value]; norm_num) rfl table_sin_odd table_cos_even
    (Or.inr ⟨1564083736468707 / 9007199254740992, by decide!, by decide!⟩)
    ⟨-8870359658994711 / 9007199254740992, by decide!, by norm_num⟩ table_atan2

end Demsmooth

